import Mathlib

/-!
Verification of the `kalavor` streaming UTF-8 tokenizer core.

Shallow embedding of `src/parser.rs` and `src/parser/predicates.rs`:

* bytes are `Nat` (values `< 256` where it matters), strings are `List Nat`
  of UTF-8 bytes, characters are Unicode scalar values (`Nat`);
* the buffered reader `Utf8Reader` is a record mirroring the Rust struct,
  with the byte source modelled as the list of chunks successive `read`
  calls return;
* each Rust method becomes a pure function; fallible methods return
  `Except`; the internal retry loops take an explicit fuel argument that
  the public wrappers instantiate with a bound derived from the state.
-/

namespace Kalavor

/-! ## UTF-8 byte-level core

Mirrors the facts the Rust code gets from `std` / `simdutf8`:
`utf8Check` is the incremental validator (`simdutf8::compat::from_utf8`
collapsed to its three outcomes), `decodeChar` is `str::chars().next()`
returning the scalar value and its encoded length, `isCharBoundary` is
`str::is_char_boundary`. -/

/-- Is `b` a UTF-8 continuation byte (`0x80..=0xBF`)? -/
def cont (b : Nat) : Bool := 0x80 ≤ b && b < 0xC0

/-- Admissible second byte of a three-byte sequence headed by `b`. -/
def cont3 (b c1 : Nat) : Bool :=
  if b = 0xE0 then 0xA0 ≤ c1 && c1 < 0xC0
  else if b = 0xED then 0x80 ≤ c1 && c1 < 0xA0
  else cont c1

/-- Admissible second byte of a four-byte sequence headed by `b`. -/
def cont4 (b c1 : Nat) : Bool :=
  if b = 0xF0 then 0x90 ≤ c1 && c1 < 0xC0
  else if b = 0xF4 then 0x80 ≤ c1 && c1 < 0x90
  else cont c1

inductive Utf8Status where
  | complete
  | incomplete
  | invalid
deriving DecidableEq, Repr

/-- Validation outcome of a byte list: entirely valid UTF-8 (`complete`),
a valid prefix followed by a truncated trailing sequence (`incomplete`),
or containing a byte that can never start/continue valid text
(`invalid`).  This is `simdutf8::compat::from_utf8` restricted to the
three outcomes `parser.rs` distinguishes (`Ok`, `error_len = None`,
`error_len = Some _`). -/
def utf8Check : List Nat → Utf8Status
  | [] => .complete
  | b :: t =>
    if b < 0x80 then utf8Check t
    else if b < 0xC2 then .invalid
    else if b < 0xE0 then
      match t with
      | [] => .incomplete
      | c1 :: t1 => if cont c1 then utf8Check t1 else .invalid
    else if b < 0xF0 then
      match t with
      | [] => .incomplete
      | c1 :: t1 =>
        if cont3 b c1 then
          match t1 with
          | [] => .incomplete
          | c2 :: t2 => if cont c2 then utf8Check t2 else .invalid
        else .invalid
    else if b < 0xF5 then
      match t with
      | [] => .incomplete
      | c1 :: t1 =>
        if cont4 b c1 then
          match t1 with
          | [] => .incomplete
          | c2 :: t2 =>
            if cont c2 then
              match t2 with
              | [] => .incomplete
              | c3 :: t3 => if cont c3 then utf8Check t3 else .invalid
            else .invalid
        else .invalid
    else .invalid

/-- Decode the first character of a byte list: `str::chars().next()`
together with `char::len_utf8` of the decoded character.  Returns
`none` on the empty list or when no full valid character is present. -/
def decodeChar : List Nat → Option (Nat × Nat)
  | [] => none
  | b :: t =>
    if b < 0x80 then some (b, 1)
    else if b < 0xC2 then none
    else if b < 0xE0 then
      match t with
      | c1 :: _ =>
        if cont c1 then some ((b - 0xC0) * 0x40 + (c1 - 0x80), 2) else none
      | [] => none
    else if b < 0xF0 then
      match t with
      | c1 :: c2 :: _ =>
        if cont3 b c1 && cont c2 then
          some ((b - 0xE0) * 0x1000 + (c1 - 0x80) * 0x40 + (c2 - 0x80), 3)
        else none
      | _ => none
    else if b < 0xF5 then
      match t with
      | c1 :: c2 :: c3 :: _ =>
        if cont4 b c1 && cont c2 && cont c3 then
          some ((b - 0xF0) * 0x40000 + (c1 - 0x80) * 0x1000
                  + (c2 - 0x80) * 0x40 + (c3 - 0x80), 4)
        else none
      | _ => none
    else none

/-- `str::is_char_boundary`: `0` is always a boundary, positions inside
the string are boundaries iff the byte there is not a continuation byte,
and the only boundary past the data is the length itself. -/
def isCharBoundary (s : List Nat) (n : Nat) : Bool :=
  if n = 0 then true
  else
    match s.get? n with
    | some b => !cont b
    | none => n == s.length

/-! ## Characters and their encodings

A character is a Unicode scalar value (`char` in Rust).  `utf8Len` is
`char::len_utf8`, `utf8Encode` is `char::encode_utf8` written with
division/remainder instead of shifts and masks, `utf8FirstByte` mirrors
`utf8_first_byte` from `predicates.rs`. -/

/-- `char::len_utf8`. -/
def utf8Len (c : Nat) : Nat :=
  if c < 0x80 then 1 else if c < 0x800 then 2 else if c < 0x10000 then 3 else 4

/-- `char::encode_utf8` as a byte list (`x / 0x40` is `x >> 6`,
`x % 0x40` is `x & 0x3F`, and `0x80 + y` is `0x80 | y` for `y < 0x40`). -/
def utf8Encode (c : Nat) : List Nat :=
  if c < 0x80 then [c]
  else if c < 0x800 then [0xC0 + c / 0x40, 0x80 + c % 0x40]
  else if c < 0x10000 then
    [0xE0 + c / 0x1000, 0x80 + c / 0x40 % 0x40, 0x80 + c % 0x40]
  else
    [0xF0 + c / 0x40000, 0x80 + c / 0x1000 % 0x40, 0x80 + c / 0x40 % 0x40,
      0x80 + c % 0x40]

/-- `utf8_first_byte` from `predicates.rs`: the first encoded byte,
computed from the scalar value by the same shift/mask arithmetic
(`code >> 6 & 0x1F | 0xC0` is `c / 0x40 % 0x20 + 0xC0`, and so on).
The wildcard arm is the `unreachable!()` of the source. -/
def utf8FirstByte (c : Nat) : Nat :=
  match utf8Len c with
  | 1 => c
  | 2 => c / 0x40 % 0x20 + 0xC0
  | 3 => c / 0x1000 % 0x10 + 0xE0
  | 4 => c / 0x40000 % 0x08 + 0xF0
  | _ => 0

/-- Unicode scalar value: what Rust's `char` may hold. -/
def isScalar (c : Nat) : Bool :=
  c < 0xD800 || (0xE000 ≤ c && c < 0x110000)

/-! ## Predicates over repetition counts (`URangeBounds`)

One constructor per Rust implementation of `URangeBounds` in
`predicates.rs`: exact `usize` count, `RangeFull`, `RangeFrom`,
`Range`, `RangeTo`, `RangeInclusive`, `RangeToInclusive`. -/

inductive URange where
  | exactly (n : Nat)
  | full
  | atLeast (a : Nat)
  | half (a b : Nat)
  | upto (b : Nat)
  | closed (a b : Nat)
  | uptoIncl (b : Nat)
deriving Repr, DecidableEq

/-- The `contains` methods of the seven `URangeBounds` impls. -/
def URange.contains : URange → Nat → Bool
  | .exactly n, t => t == n
  | .full, _ => true
  | .atLeast a, t => a ≤ t
  | .half a b, t => a ≤ t && t < b
  | .upto b, t => t < b
  | .closed a b, t => a ≤ t && t ≤ b
  | .uptoIncl b, t => t ≤ b

/-- The `want_more` methods of the seven `URangeBounds` impls. -/
def URange.wantMore : URange → Nat → Bool
  | .exactly n, t => t < n
  | .full, _ => true
  | .atLeast _, _ => true
  | .half _ b, t => t + 1 < b
  | .upto b, t => t + 1 < b
  | .closed _ b, t => t < b
  | .uptoIncl b, t => t < b

/-- The `take_times` scan loop of `parser.rs`, specialized to a fixed,
fully validated content (each `peeking()` step then just decodes the
next character of the remaining bytes): collects the exact bytes the
loop consumes before it stops.  Fuel-parametric like the other loops;
one unit per character suffices. -/
def scanSpanF (p : Nat → Bool) (rng : URange) :
    Nat → Nat → List Nat → List Nat
  | 0, _, _ => []
  | fuel + 1, times, c =>
    match decodeChar c with
    | none => []
    | some (cp, len) =>
      if rng.wantMore times && p cp then
        c.take len ++ scanSpanF p rng fuel (times + 1) (c.drop len)
      else []

/-- The span the `take_times` loop scans off the front of `c`, starting
at repetition count `0` (`let mut times = 0;`). -/
def scanSpan (p : Nat → Bool) (rng : URange) (c : List Nat) : List Nat :=
  scanSpanF p rng (c.length + 1) 0 c

/-! ## Patterns (`Pattern` trait and its impls)

`PatFns δ` packages the two trait methods; `δ` is the associated
`Discriminant` type.  Characters are scalar values (`Nat`), strings are
UTF-8 byte lists (`List Nat`). -/

structure PatFns (δ : Type) where
  ind : Nat → Option Nat
  mat : List Nat → Option (Nat × δ)

/-- `Iterator::max` over a list of lengths (`None` on an empty
iterator), used by the `[char; N]` / `[&str; N]` `indicate` impls. -/
def maxOf? : List Nat → Option Nat
  | [] => none
  | a :: t =>
    match maxOf? t with
    | none => some a
    | some m => some (max a m)

/-- `Pattern for char`, `indicate`. -/
def charIndicate (c : Nat) (b : Nat) : Option Nat :=
  if utf8FirstByte c = b then some (utf8Len c) else none

/-- `Pattern for char`, `matches` (`content.starts_with(*self)`). -/
def charMatches (c : Nat) (content : List Nat) : Option (Nat × Nat) :=
  if (utf8Encode c).isPrefixOf content then some (utf8Len c, c) else none

/-- `Pattern for &str`, `indicate` (`as_bytes().first()`; an empty
string has no first byte and never indicates). -/
def strIndicate (w : List Nat) (b : Nat) : Option Nat :=
  w.head?.bind fun b0 => if b0 = b then some w.length else none

/-- `Pattern for &str`, `matches`. -/
def strMatches (w : List Nat) (content : List Nat) : Option (Nat × List Nat) :=
  if w.isPrefixOf content then some (w.length, w) else none

/-- `Pattern for [char; N]`, `indicate`: max `len_utf8` over candidates
whose first byte is `b`. -/
def charsIndicate (cs : List Nat) (b : Nat) : Option Nat :=
  maxOf? (cs.filterMap fun c =>
    if utf8FirstByte c = b then some (utf8Len c) else none)

/-- `Pattern for [char; N]`, `matches`: first candidate in declaration
order that is a prefix of the content. -/
def charsMatches (cs : List Nat) (content : List Nat) : Option (Nat × Nat) :=
  (cs.find? fun c => (utf8Encode c).isPrefixOf content).map fun c =>
    (utf8Len c, c)

/-- `Pattern for [&str; N]`, `indicate`. -/
def strsIndicate (ws : List (List Nat)) (b : Nat) : Option Nat :=
  maxOf? (ws.filterMap fun w =>
    w.head?.bind fun b0 => if b0 = b then some w.length else none)

/-- `Pattern for [&str; N]`, `matches`. -/
def strsMatches (ws : List (List Nat)) (content : List Nat) :
    Option (Nat × List Nat) :=
  (ws.find? fun w => w.isPrefixOf content).map fun w => (w.length, w)

/-- `token_sets!`-generated `indicate`: the unrolled
`max_len` fold over the declared words.  The Rust code indexes
`$word.as_bytes()[0]`, which panics on an empty word; the sentinel
`0x100` equals no byte, so theorems about token sets assume the words
are nonempty. -/
def tokensIndicate (ws : List (List Nat)) (b : Nat) : Option Nat :=
  let m := ws.foldl
    (fun acc w => if w.headD 0x100 = b ∧ acc < w.length then w.length else acc) 0
  if m ≠ 0 then some m else none

/-- `token_sets!`-generated `matches`: the unrolled chain of
`starts_with` tests in declaration order; the discriminant is the
matched word (standing for the enum variant). -/
def tokensMatches : List (List Nat) → List Nat → Option (Nat × List Nat)
  | [], _ => none
  | w :: ws, content =>
    if w.isPrefixOf content then some (w.length, w)
    else tokensMatches ws content

def charPat (c : Nat) : PatFns Nat := ⟨charIndicate c, charMatches c⟩

def strPat (w : List Nat) : PatFns (List Nat) := ⟨strIndicate w, strMatches w⟩

def charsPat (cs : List Nat) : PatFns Nat := ⟨charsIndicate cs, charsMatches cs⟩

def strsPat (ws : List (List Nat)) : PatFns (List Nat) :=
  ⟨strsIndicate ws, strsMatches ws⟩

def tokensPat (ws : List (List Nat)) : PatFns (List Nat) :=
  ⟨tokensIndicate ws, tokensMatches ws⟩

/-! ## The buffered reader (`Utf8Reader` in `parser.rs`)

The streaming source is the list of byte chunks that successive
`Read::read` calls deliver; `read(space)` delivers (a prefix of) the
next chunk bounded by the free buffer space, pushing an undelivered
remainder back.  `buf` holds exactly the bytes read so far, so the Rust
`off_read` is `buf.length` (the uninitialised allocation tail is not
modelled; reallocation does not change the byte content). -/

def INIT_CAP : Nat := 32 * 1024

def THRES_ARRANGE : Nat := 8 * 1024

/-- What a `read` call delivers. -/
def readDeliver (rdr : List (List Nat)) (space : Nat) : List Nat :=
  match rdr with
  | [] => []
  | ck :: _ => ck.take space

/-- The source after a `read` call. -/
def readRest (rdr : List (List Nat)) (space : Nat) : List (List Nat) :=
  match rdr with
  | [] => []
  | ck :: rest => if (ck.drop space).isEmpty then rest else ck.drop space :: rest

/-- The `Source::Reader` fields (minus the reader itself). -/
structure RSrc where
  rdr : List (List Nat)
  buf : List Nat
  buf_cap : Nat
  tot_read : Nat
  off_valid : Nat
deriving Repr, DecidableEq

/-- `enum Source`. -/
inductive Src where
  | borrowed (s : List Nat)
  | reader (r : RSrc)
deriving Repr, DecidableEq

/-- `struct Utf8Reader`. -/
structure Utf8Reader where
  src : Src
  off_consumed : Nat
  tot_consumed : Nat
  peeked : Option Nat
  eof : Bool
deriving Repr, DecidableEq

/-- `Utf8Reader::from_str` (the borrowed text is assumed valid UTF-8,
as Rust's `&str` guarantees by type). -/
def fromStr (bs : List Nat) : Utf8Reader :=
  { src := .borrowed bs, off_consumed := 0, tot_consumed := 0,
    peeked := none, eof := true }

/-- `Utf8Reader::from_reader`. -/
def fromReader (chunks : List (List Nat)) : Utf8Reader :=
  { src := .reader
      { rdr := chunks, buf := [], buf_cap := INIT_CAP,
        tot_read := 0, off_valid := 0 },
    off_consumed := 0, tot_consumed := 0, peeked := none, eof := false }

namespace Utf8Reader

/-- The Rust `off_read` offset: how many bytes have been read into the
buffer (for borrowed text, the text length). -/
def off_read (s : Utf8Reader) : Nat :=
  match s.src with
  | .borrowed bs => bs.length
  | .reader r => r.buf.length

/-- `content()`: the unconsumed validated bytes
(`buf[off_consumed..off_valid]`, or the borrowed tail). -/
def content (s : Utf8Reader) : List Nat :=
  match s.src with
  | .borrowed bs => bs.drop s.off_consumed
  | .reader r => (r.buf.take r.off_valid).drop s.off_consumed

/-- `content_behind(span)` (`buf[a..b]`; not clamped to `off_valid`). -/
def contentBehind (s : Utf8Reader) (a b : Nat) : List Nat :=
  match s.src with
  | .borrowed bs => (bs.take b).drop a
  | .reader r => (r.buf.take b).drop a

/-- `consumed()`. -/
def consumed (s : Utf8Reader) : Nat := s.tot_consumed + s.off_consumed

/-- `exhausted()`. -/
def exhausted (s : Utf8Reader) : Bool :=
  match s.src with
  | .borrowed bs => s.off_consumed == bs.length
  | .reader r => s.eof && s.off_consumed == r.off_valid

/-- `consume(n)`; `none` models the boundary-violation panic. -/
def consume (n : Nat) (s : Utf8Reader) : Option Utf8Reader :=
  if isCharBoundary s.content n then
    some { s with off_consumed := s.off_consumed + n }
  else none

/-- The valid region `buf[0..off_valid]` (the whole text when
borrowed). -/
def validRegion (s : Utf8Reader) : List Nat :=
  match s.src with
  | .borrowed bs => bs
  | .reader r => r.buf.take r.off_valid

/-- Bytes still to come from the source. -/
def srcBytes (s : Utf8Reader) : Nat :=
  match s.src with
  | .borrowed _ => 0
  | .reader r => (r.rdr.map List.length).sum

inductive RdError where
  | invalidUtf8
  | truncatedUtf8
  | fuelOut
deriving Repr, DecidableEq

/-- `fetch` minus the retry: one `read`, the `eof` update, and (on a
nonzero read) one `validate` pass.  Returns `true` when the caller
must rerun itself (`validate` reported an incomplete trailing
sequence).  The borrowed arm is the `unreachable!()` of the source. -/
def fetchStep (s : Utf8Reader) : Except RdError (Bool × Utf8Reader) :=
  match s.src with
  | .borrowed _ => .ok (false, s)
  | .reader r =>
    let space := r.buf_cap - r.buf.length
    let chunk := readDeliver r.rdr space
    let rdr1 := readRest r.rdr space
    if chunk.isEmpty then
      if r.off_valid == r.buf.length then
        .ok (false, { s with src := .reader { r with rdr := rdr1 }, eof := true })
      else .error .truncatedUtf8
    else
      let r1 : RSrc :=
        { r with
          rdr := rdr1,
          buf := r.buf ++ chunk,
          tot_read := r.tot_read + chunk.length }
      match utf8Check (r1.buf.drop r1.off_valid) with
      | .invalid => .error .invalidUtf8
      | .incomplete => .ok (true, { s with src := .reader r1, eof := false })
      | .complete =>
        .ok (false, { s with
          src := .reader { r1 with off_valid := r1.buf.length }, eof := false })

/-- `pull()` with explicit fuel for the validate-retry loop (each retry
follows a read that delivered at least one byte, so `srcBytes + 1`
suffices).  Compaction shifts `buf[off_consumed..]` to the front; the
`usize` subtractions are exact under the reader invariant. -/
def pullF : Nat → Utf8Reader → Except RdError Utf8Reader
  | 0, _ => .error .fuelOut
  | fuel+1, s =>
    match s.src with
    | .borrowed _ => .ok s
    | .reader r =>
      if r.buf.length > INIT_CAP + s.off_consumed then .ok s
      else
        let s1 : Utf8Reader :=
          if r.buf.length > INIT_CAP - THRES_ARRANGE then
            { s with
              src := .reader { r with
                buf := r.buf.drop s.off_consumed,
                off_valid := r.off_valid - s.off_consumed,
                buf_cap := INIT_CAP },
              tot_consumed := s.tot_consumed + s.off_consumed,
              off_consumed := 0 }
          else { s with src := .reader { r with buf_cap := INIT_CAP } }
        if INIT_CAP ≤ s1.off_read then .ok s1
        else
          match s1.fetchStep with
          | .error e => .error e
          | .ok (false, s2) => .ok s2
          | .ok (true, s2) => pullF fuel s2

/-- `pull()`. -/
def pull (s : Utf8Reader) : Except RdError Utf8Reader :=
  pullF (s.srcBytes + 1) s

/-- `pull_more()` with explicit fuel (same bound as `pull`);
reallocation only grows the backing store, which the byte-list model
does not track. -/
def pullMoreF : Nat → Utf8Reader → Except RdError Utf8Reader
  | 0, _ => .error .fuelOut
  | fuel+1, s =>
    match s.src with
    | .borrowed _ => .ok s
    | .reader r =>
      let s1 : Utf8Reader :=
        if r.buf.length > r.buf_cap * 7 / 8 then
          { s with src := .reader { r with buf_cap := r.buf_cap * 2 } }
        else s
      match s1.fetchStep with
      | .error e => .error e
      | .ok (false, s2) => .ok s2
      | .ok (true, s2) => pullMoreF fuel s2

/-- `pull_more()`. -/
def pullMore (s : Utf8Reader) : Except RdError Utf8Reader :=
  pullMoreF (s.srcBytes + 1) s

/-- `pull_at_least(n)` with explicit fuel (each iteration either hits
EOF or consumes source bytes, so `srcBytes + 2` suffices). -/
def pullAtLeastF : Nat → Nat → Utf8Reader → Except RdError (Bool × Utf8Reader)
  | 0, _, _ => .error .fuelOut
  | fuel+1, n, s =>
    match s.src with
    | .borrowed _ => .ok (decide (n ≤ s.content.length), s)
    | .reader r =>
      if r.off_valid < s.off_consumed + n then
        if s.eof then .ok (false, s)
        else
          match s.pullMore with
          | .error e => .error e
          | .ok s1 => pullAtLeastF fuel n s1
      else .ok (true, s)

/-- `pull_at_least(n)`. -/
def pullAtLeast (n : Nat) (s : Utf8Reader) :
    Except RdError (Bool × Utf8Reader) :=
  pullAtLeastF (s.srcBytes + 2) n s

/-- The `self.peeked.take()` commit step at the top of `peeking()`. -/
def peekingCommit (s : Utf8Reader) : Utf8Reader :=
  match s.peeked with
  | some len =>
    { s with peeked := none, off_consumed := s.off_consumed + len }
  | none => s

/-- The tail of `peeking()`: peek one character off the content and
record its byte length in `peeked`. -/
def peekAfter (s : Utf8Reader) : Option (Nat × Nat) × Utf8Reader :=
  match decodeChar s.content with
  | none => (none, s)
  | some (cp, len) => (some (cp, len), { s with peeked := some len })

/-- `peeking()` (private in the source): commit the pending peek, pull
more if the content is empty, then peek the next character.  A returned
character is the pair (scalar value, its UTF-8 byte length). -/
def peeking (s : Utf8Reader) :
    Except RdError (Option (Nat × Nat) × Utf8Reader) :=
  let s1 := s.peekingCommit
  if s1.content.isEmpty then
    match s1.pullMore with
    | .error e => .error e
    | .ok s2 => .ok s2.peekAfter
  else .ok s1.peekAfter

/-- `next()`. -/
def next (s : Utf8Reader) :
    Except RdError (Option (Nat × Nat) × Utf8Reader) :=
  match s.pull with
  | .error e => .error e
  | .ok s1 =>
    match decodeChar s1.content with
    | none => .ok (none, s1)
    | some (cp, len) =>
      .ok (some (cp, len), { s1 with off_consumed := s1.off_consumed + len })

/-- `peek()`. -/
def peek (s : Utf8Reader) :
    Except RdError (Option (Nat × Nat) × Utf8Reader) :=
  match s.pull with
  | .error e => .error e
  | .ok s1 => .ok (decodeChar s1.content, s1)

/-- `take_once(predicate)`; predicates act on scalar values. -/
def takeOnce (p : Nat → Bool) (s : Utf8Reader) :
    Except RdError (Option (Nat × Nat) × Utf8Reader) :=
  match s.peek with
  | .error e => .error e
  | .ok (none, s1) => .ok (none, s1)
  | .ok (some (cp, len), s1) =>
    if p cp then
      .ok (some (cp, len), { s1 with off_consumed := s1.off_consumed + len })
    else .ok (none, s1)

/-- Fuel bound for the character-scan loops: every continuing iteration
either commits at least one content byte or consumes source bytes. -/
def scanFuel (s : Utf8Reader) : Nat := s.srcBytes + s.content.length + 2

/-- The `take_while` scan loop. -/
def takeWhileLoopF (p : Nat → Bool) :
    Nat → Utf8Reader → Except RdError (Option (Nat × Nat) × Utf8Reader)
  | 0, _ => .error .fuelOut
  | fuel+1, s =>
    match s.peeking with
    | .error e => .error e
    | .ok (none, s1) => .ok (none, s1)
    | .ok (some (cp, len), s1) =>
      if p cp then takeWhileLoopF p fuel s1
      else .ok (some (cp, len), s1)

/-- `take_while(predicate)`: the consumed span plus the first rejected
character (or `none` at EOF). -/
def takeWhile (p : Nat → Bool) (s : Utf8Reader) :
    Except RdError ((List Nat × Option (Nat × Nat)) × Utf8Reader) :=
  let s0 : Utf8Reader := { s with peeked := none }
  match takeWhileLoopF p s0.scanFuel s0 with
  | .error e => .error e
  | .ok (ch, s1) =>
    .ok ((s1.contentBehind s.off_consumed s1.off_consumed, ch), s1)

/-- The `take_times` scan loop, carrying the repetition count. -/
def takeTimesLoopF (p : Nat → Bool) (rng : URange) :
    Nat → Nat → Utf8Reader →
      Except RdError ((Nat × Option (Nat × Nat)) × Utf8Reader)
  | 0, _, _ => .error .fuelOut
  | fuel+1, times, s =>
    match s.peeking with
    | .error e => .error e
    | .ok (none, s1) => .ok ((times, none), s1)
    | .ok (some (cp, len), s1) =>
      if rng.wantMore times && p cp then
        takeTimesLoopF p rng fuel (times + 1) s1
      else .ok ((times, some (cp, len)), s1)

/-- `take_times(predicate, range)`: `.ok span` on acceptance,
`.error span` (cursor rolled back) on rejection, plus the first
unconsumed character. -/
def takeTimes (p : Nat → Bool) (rng : URange) (s : Utf8Reader) :
    Except RdError
      ((Except (List Nat) (List Nat) × Option (Nat × Nat)) × Utf8Reader) :=
  let s0 : Utf8Reader := { s with peeked := none }
  match takeTimesLoopF p rng s0.scanFuel 0 s0 with
  | .error e => .error e
  | .ok ((times, ch), s1) =>
    if rng.contains times then
      .ok ((.ok (s1.contentBehind s.off_consumed s1.off_consumed), ch), s1)
    else
      .ok ((.error (s1.contentBehind s.off_consumed s1.off_consumed), ch),
        { s1 with off_consumed := s.off_consumed })

/-- `matches(pattern)`. -/
def matchesP {δ : Type} (P : PatFns δ) (s : Utf8Reader) :
    Except RdError (Option δ × Utf8Reader) :=
  match s.pull with
  | .error e => .error e
  | .ok s1 =>
    match s1.content.head? with
    | none => .ok (none, s1)
    | some b =>
      match P.ind b with
      | none => .ok (none, s1)
      | some len =>
        match s1.pullAtLeast len with
        | .error e => .error e
        | .ok (_, s2) =>
          match P.mat s2.content with
          | none => .ok (none, s2)
          | some (mlen, d) =>
            .ok (some d, { s2 with off_consumed := s2.off_consumed + mlen })

/-- The byte scan `content().iter().enumerate().find_map(indicate)`:
the first position whose byte the pattern indicates, with the indicated
length. -/
def findInd (ind : Nat → Option Nat) : List Nat → Option (Nat × Nat)
  | [] => none
  | b :: t =>
    match ind b with
    | some len => some (0, len)
    | none => (findInd ind t).map fun p => (p.1 + 1, p.2)

/-- The inner loop of `until`: skip to the next indicated byte, pulling
more bytes as the content runs out; `none` is the `break 'outer` (EOF
with the cursor at `off_valid`). -/
def untilIndLoopF (ind : Nat → Option Nat) :
    Nat → Utf8Reader → Except RdError (Option Nat × Utf8Reader)
  | 0, _ => .error .fuelOut
  | fuel+1, s =>
    match findInd ind s.content with
    | none =>
      let s1 : Utf8Reader :=
        { s with off_consumed := s.off_consumed + s.content.length }
      if s1.eof then .ok (none, s1)
      else
        match s1.pullMore with
        | .error e => .error e
        | .ok s2 => untilIndLoopF ind fuel s2
    | some (idx, len) =>
      .ok (some len, { s with off_consumed := s.off_consumed + idx })

/-- The outer loop of `until`: at each indicated position, guarantee
`len` bytes and test the pattern; on failure skip one byte and
continue. -/
def untilLoopF {δ : Type} (P : PatFns δ) (start : Nat) :
    Nat → Utf8Reader →
      Except RdError (Option (List Nat × δ) × Utf8Reader)
  | 0, _ => .error .fuelOut
  | fuel+1, s =>
    match s.untilIndLoopF P.ind s.scanFuel with
    | .error e => .error e
    | .ok (none, s1) => .ok (none, s1)
    | .ok (some len, s1) =>
      match s1.pullAtLeast len with
      | .error e => .error e
      | .ok (_, s2) =>
        match P.mat s2.content with
        | some (mlen, d) =>
          .ok (some (s2.contentBehind start s2.off_consumed, d),
            { s2 with off_consumed := s2.off_consumed + mlen })
        | none =>
          untilLoopF P start fuel { s2 with off_consumed := s2.off_consumed + 1 }

/-- `until(pattern)`: `.ok (span, discriminant)` with the pattern also
consumed, or `.error span` (cursor rolled back) at EOF. -/
def untilP {δ : Type} (P : PatFns δ) (s : Utf8Reader) :
    Except RdError (Except (List Nat) (List Nat × δ) × Utf8Reader) :=
  match untilLoopF P s.off_consumed s.scanFuel s with
  | .error e => .error e
  | .ok (some r, s1) => .ok (.ok r, s1)
  | .ok (none, s1) =>
    .ok (.error (s1.contentBehind s.off_consumed s1.off_consumed),
      { s1 with off_consumed := s.off_consumed })

end Utf8Reader

/-! ## Invariants and the operation step relation -/

namespace Utf8Reader

/-- Structural reader invariant: offset ordering
(`off_consumed ≤ off_valid ≤ off_read ≤ buf_cap`), the source honours
its contract (no read ever delivers zero bytes and then bytes again —
chunks are nonempty), and once EOF was observed the source list is
exhausted with everything validated. -/
def BInv (s : Utf8Reader) : Prop :=
  match s.src with
  | .borrowed bs => s.off_consumed ≤ bs.length
  | .reader r =>
      s.off_consumed ≤ r.off_valid ∧ r.off_valid ≤ r.buf.length ∧
      r.buf.length ≤ r.buf_cap ∧ 0 < r.buf_cap ∧ [] ∉ r.rdr ∧
      (s.eof = true → r.rdr = [] ∧ r.off_valid = r.buf.length)

/-- The full reader invariant: structure, plus the content (the
unconsumed validated region) is valid UTF-8 — which puts `off_consumed`
on a character boundary — plus borrowed readers are EOF from
construction. -/
def Inv (s : Utf8Reader) : Prop :=
  BInv s ∧ utf8Check s.content = .complete ∧
  (match s.src with
   | .borrowed _ => s.eof = true
   | .reader _ => True)

/-- What `take_while`/`take_times` maintain across `peeking()` steps:
the invariant, the scan start not after the cursor, validity of the
region from the scan start (so the span can be returned and the cursor
rolled back), and accuracy of the pending peek. -/
def LInv (start : Nat) (s : Utf8Reader) : Prop :=
  BInv s ∧ start ≤ s.off_consumed ∧
  utf8Check (s.validRegion.drop start) = .complete ∧
  utf8Check s.content = .complete ∧
  (∀ len, s.peeked = some len → ∃ cp, decodeChar s.content = some (cp, len)) ∧
  (match s.src with
   | .borrowed _ => s.eof = true
   | .reader _ => True)

/-- What the `until` loops maintain (the cursor may sit inside a
character mid-scan, so only validity from the scan start is kept). -/
def UInv (start : Nat) (s : Utf8Reader) : Prop :=
  BInv s ∧ start ≤ s.off_consumed ∧
  utf8Check (s.validRegion.drop start) = .complete ∧
  (match s.src with
   | .borrowed _ => s.eof = true
   | .reader _ => True)

/-- The contract the library's `Pattern` impls give the reader:
`indicate` only accepts bytes that start a character (never a
continuation byte), and a successful `matches` consumes a
character-boundary-aligned prefix of valid content. -/
structure GoodPatF {δ : Type} (P : PatFns δ) : Prop where
  ind_not_cont : ∀ b len, P.ind b = some len → cont b = false
  mat_bound : ∀ c len d, utf8Check c = .complete → P.mat c = some (len, d) →
    len ≤ c.length ∧ utf8Check (c.drop len) = .complete

/-- One public reader operation (the parameters — predicate, range,
pattern — are arbitrary; patterns range over anything satisfying the
contract of the library's `Pattern` impls). -/
inductive Step : Utf8Reader → Utf8Reader → Prop where
  | next (s : Utf8Reader) (a : Option (Nat × Nat)) (s' : Utf8Reader) :
      Utf8Reader.next s = .ok (a, s') → Step s s'
  | peek (s : Utf8Reader) (a : Option (Nat × Nat)) (s' : Utf8Reader) :
      Utf8Reader.peek s = .ok (a, s') → Step s s'
  | consume (s : Utf8Reader) (n : Nat) (s' : Utf8Reader) :
      Utf8Reader.consume n s = some s' → Step s s'
  | takeOnce (s : Utf8Reader) (p : Nat → Bool) (a : Option (Nat × Nat))
      (s' : Utf8Reader) : Utf8Reader.takeOnce p s = .ok (a, s') → Step s s'
  | takeWhile (s : Utf8Reader) (p : Nat → Bool)
      (a : List Nat × Option (Nat × Nat)) (s' : Utf8Reader) :
      Utf8Reader.takeWhile p s = .ok (a, s') → Step s s'
  | takeTimes (s : Utf8Reader) (p : Nat → Bool) (rng : URange)
      (a : Except (List Nat) (List Nat) × Option (Nat × Nat)) (s' : Utf8Reader) :
      Utf8Reader.takeTimes p rng s = .ok (a, s') → Step s s'
  | matchesP {δ : Type} (s : Utf8Reader) (P : PatFns δ) (a : Option δ)
      (s' : Utf8Reader) : GoodPatF P →
      Utf8Reader.matchesP P s = .ok (a, s') → Step s s'
  | untilP {δ : Type} (s : Utf8Reader) (P : PatFns δ)
      (a : Except (List Nat) (List Nat × δ)) (s' : Utf8Reader) : GoodPatF P →
      Utf8Reader.untilP P s = .ok (a, s') → Step s s'
  | pull (s s' : Utf8Reader) : Utf8Reader.pull s = .ok s' → Step s s'
  | pullMore (s s' : Utf8Reader) : Utf8Reader.pullMore s = .ok s' → Step s s'
  | pullAtLeast (s : Utf8Reader) (n : Nat) (b : Bool) (s' : Utf8Reader) :
      Utf8Reader.pullAtLeast n s = .ok (b, s') → Step s s'

/-- Reachability by any sequence of public operations. -/
def Reach (s₀ s : Utf8Reader) : Prop := Relation.ReflTransGen Step s₀ s

end Utf8Reader

/-- A freshly constructed reader: `from_str` on valid UTF-8 text (what
`&str` guarantees), or `from_reader` on a source whose chunks are
nonempty (`read` returning `0` means permanently exhausted). -/
def InitOk (s₀ : Utf8Reader) : Prop :=
  (∃ bs, utf8Check bs = .complete ∧ s₀ = fromStr bs) ∨
  (∃ chunks, [] ∉ chunks ∧ s₀ = fromReader chunks)

/-! Basic facts about the UTF-8 core. -/

theorem utf8Check_nil : utf8Check [] = .complete := rfl

theorem cont_iff {b : Nat} : cont b = true ↔ 0x80 ≤ b ∧ b < 0xC0 := by
  simp [cont]

theorem cont3_cont {b c1 : Nat} (h : cont3 b c1 = true) : cont c1 = true := by
  simp only [cont3] at h
  split_ifs at h <;>
    simp only [cont, Bool.and_eq_true, decide_eq_true_eq] at * <;> omega

theorem cont4_cont {b c1 : Nat} (h : cont4 b c1 = true) : cont c1 = true := by
  simp only [cont4] at h
  split_ifs at h <;>
    simp only [cont, Bool.and_eq_true, decide_eq_true_eq] at * <;> omega

/-- Everything the development needs to know about a successful decode of
the first character: it uses `1..=4` leading bytes, starts at a
non-continuation byte, its interior bytes are continuation bytes, it is
stable under appending more bytes on the right, validation of the whole
list reduces to validation past it, and every strict nonempty prefix of
its bytes validates as `incomplete`. -/
theorem decodeChar_spec {l : List Nat} {c n : Nat}
    (h : decodeChar l = some (c, n)) :
    1 ≤ n ∧ n ≤ l.length ∧
    (∃ b t, l = b :: t ∧ cont b = false) ∧
    (∀ i, 0 < i → i < n → ∃ b, l.get? i = some b ∧ cont b = true) ∧
    (∀ w, decodeChar (l ++ w) = some (c, n)) ∧
    utf8Check l = utf8Check (l.drop n) ∧
    (∀ k, 0 < k → k < n → utf8Check (l.take k) = .incomplete) ∧
    decodeChar (l.take n) = some (c, n) := by
  match l with
  | [] => simp [decodeChar] at h
  | b :: t =>
    simp only [decodeChar] at h
    split_ifs at h with h1 h2 h3 h4 h5
    · -- ASCII, one byte
      simp only [Option.some.injEq, Prod.mk.injEq] at h
      obtain ⟨rfl, rfl⟩ := h
      refine ⟨le_refl 1, by simp, ⟨b, t, rfl, by simp [cont]; omega⟩, ?_, ?_, ?_, ?_, ?_⟩
      · intro i hi hi1; omega
      · intro w
        rw [decodeChar.eq_def]
        simp only [List.cons_append]
        rw [if_pos h1]
      · rw [utf8Check.eq_def]
        simp only [List.drop_succ_cons, List.drop_zero]
        rw [if_pos h1]
      · intro k hk hk1; omega
      · simp only [List.take_succ_cons, List.take_zero]
        rw [decodeChar.eq_def]
        simp only []
        rw [if_pos h1]
    · -- two-byte sequence
      rcases t with _ | ⟨c1, t1⟩
      · simp at h
      · simp only [] at h
        split_ifs at h with hc
        simp only [Option.some.injEq, Prod.mk.injEq] at h
        obtain ⟨rfl, rfl⟩ := h
        refine ⟨by omega, by simp only [List.length_cons]; omega,
          ⟨b, _, rfl, by simp [cont]; omega⟩, ?_, ?_, ?_, ?_, ?_⟩
        · intro i hi hi1
          interval_cases i
          exact ⟨c1, rfl, hc⟩
        · intro w
          rw [decodeChar.eq_def]
          simp only [List.cons_append]
          rw [if_neg h1, if_neg h2, if_pos h3, if_pos hc]
        · simp only [List.drop_succ_cons, List.drop_zero]
          rw [utf8Check.eq_def]
          simp only []
          rw [if_neg h1, if_neg h2, if_pos h3, if_pos hc]
        · intro k hk hk1
          interval_cases k
          simp only [List.take_succ_cons, List.take_zero]
          rw [utf8Check.eq_def]
          simp only []
          rw [if_neg h1, if_neg h2, if_pos h3]
        · simp only [List.take_succ_cons, List.take_zero]
          rw [decodeChar.eq_def]
          simp only []
          rw [if_neg h1, if_neg h2, if_pos h3, if_pos hc]
    · -- three-byte sequence
      rcases t with _ | ⟨c1, _ | ⟨c2, t2⟩⟩
      · simp at h
      · simp at h
      · simp only [] at h
        split_ifs at h with hc
        simp only [Bool.and_eq_true] at hc
        simp only [Option.some.injEq, Prod.mk.injEq] at h
        obtain ⟨rfl, rfl⟩ := h
        refine ⟨by omega, by simp only [List.length_cons]; omega,
          ⟨b, _, rfl, by simp [cont]; omega⟩, ?_, ?_, ?_, ?_, ?_⟩
        · intro i hi hi1
          interval_cases i
          · exact ⟨c1, rfl, cont3_cont hc.1⟩
          · exact ⟨c2, rfl, hc.2⟩
        · intro w
          rw [decodeChar.eq_def]
          simp only [List.cons_append]
          rw [if_neg h1, if_neg h2, if_neg h3, if_pos h4]
          simp [hc.1, hc.2]
        · simp only [List.drop_succ_cons, List.drop_zero]
          rw [utf8Check.eq_def]
          simp only []
          rw [if_neg h1, if_neg h2, if_neg h3, if_pos h4, if_pos hc.1, if_pos hc.2]
        · intro k hk hk1
          interval_cases k
          · simp only [List.take_succ_cons, List.take_zero]
            rw [utf8Check.eq_def]
            simp only []
            rw [if_neg h1, if_neg h2, if_neg h3, if_pos h4]
          · simp only [List.take_succ_cons, List.take_zero]
            rw [utf8Check.eq_def]
            simp only []
            rw [if_neg h1, if_neg h2, if_neg h3, if_pos h4, if_pos hc.1]
        · simp only [List.take_succ_cons, List.take_zero]
          rw [decodeChar.eq_def]
          simp only []
          rw [if_neg h1, if_neg h2, if_neg h3, if_pos h4]
          simp [hc.1, hc.2]
    · -- four-byte sequence
      rcases t with _ | ⟨c1, _ | ⟨c2, _ | ⟨c3, t3⟩⟩⟩
      · simp at h
      · simp at h
      · simp at h
      · simp only [] at h
        split_ifs at h with hc
        simp only [Bool.and_eq_true] at hc
        simp only [Option.some.injEq, Prod.mk.injEq] at h
        obtain ⟨rfl, rfl⟩ := h
        refine ⟨by omega, by simp only [List.length_cons]; omega,
          ⟨b, _, rfl, by simp [cont]; omega⟩, ?_, ?_, ?_, ?_, ?_⟩
        · intro i hi hi1
          interval_cases i
          · exact ⟨c1, rfl, cont4_cont hc.1.1⟩
          · exact ⟨c2, rfl, hc.1.2⟩
          · exact ⟨c3, rfl, hc.2⟩
        · intro w
          rw [decodeChar.eq_def]
          simp only [List.cons_append]
          rw [if_neg h1, if_neg h2, if_neg h3, if_neg h4, if_pos h5]
          simp [hc.1.1, hc.1.2, hc.2]
        · simp only [List.drop_succ_cons, List.drop_zero]
          rw [utf8Check.eq_def]
          simp only []
          rw [if_neg h1, if_neg h2, if_neg h3, if_neg h4, if_pos h5,
            if_pos hc.1.1, if_pos hc.1.2, if_pos hc.2]
        · intro k hk hk1
          interval_cases k
          · simp only [List.take_succ_cons, List.take_zero]
            rw [utf8Check.eq_def]
            simp only []
            rw [if_neg h1, if_neg h2, if_neg h3, if_neg h4, if_pos h5]
          · simp only [List.take_succ_cons, List.take_zero]
            rw [utf8Check.eq_def]
            simp only []
            rw [if_neg h1, if_neg h2, if_neg h3, if_neg h4, if_pos h5, if_pos hc.1.1]
          · simp only [List.take_succ_cons, List.take_zero]
            rw [utf8Check.eq_def]
            simp only []
            rw [if_neg h1, if_neg h2, if_neg h3, if_neg h4, if_pos h5, if_pos hc.1.1,
              if_pos hc.1.2]
        · simp only [List.take_succ_cons, List.take_zero]
          rw [decodeChar.eq_def]
          simp only []
          rw [if_neg h1, if_neg h2, if_neg h3, if_neg h4, if_pos h5]
          simp [hc.1.1, hc.1.2, hc.2]

/-- A nonempty fully-valid byte list decodes a first character. -/
theorem utf8Check_complete_decode {l : List Nat} (hne : l ≠ [])
    (h : utf8Check l = .complete) : ∃ c n, decodeChar l = some (c, n) := by
  match l with
  | [] => exact absurd rfl hne
  | b :: t =>
    rw [utf8Check.eq_def] at h
    simp only [] at h
    split_ifs at h with h1 h2 h3 h4 h5
    · exact ⟨b, 1, by rw [decodeChar.eq_def]; simp only []; rw [if_pos h1]⟩
    · rcases t with _ | ⟨c1, t1⟩
      · exact absurd h (by simp)
      · simp only [] at h
        split_ifs at h with hc
        refine ⟨(b - 0xC0) * 0x40 + (c1 - 0x80), 2, ?_⟩
        rw [decodeChar.eq_def]
        simp only []
        rw [if_neg h1, if_neg h2, if_pos h3, if_pos hc]
    · rcases t with _ | ⟨c1, _ | ⟨c2, t2⟩⟩
      · exact absurd h (by simp)
      · simp only [] at h
        split_ifs at h
      · simp only [] at h
        split_ifs at h with hc hc2
        refine ⟨(b - 0xE0) * 0x1000 + (c1 - 0x80) * 0x40 + (c2 - 0x80), 3, ?_⟩
        rw [decodeChar.eq_def]
        simp only []
        rw [if_neg h1, if_neg h2, if_neg h3, if_pos h4]
        simp [hc, hc2]
    · rcases t with _ | ⟨c1, _ | ⟨c2, _ | ⟨c3, t3⟩⟩⟩
      · exact absurd h (by simp)
      · simp only [] at h
        split_ifs at h
      · simp only [] at h
        split_ifs at h
      · simp only [] at h
        split_ifs at h with hc hc2 hc3
        refine ⟨(b - 0xF0) * 0x40000 + (c1 - 0x80) * 0x1000 + (c2 - 0x80) * 0x40
          + (c3 - 0x80), 4, ?_⟩
        rw [decodeChar.eq_def]
        simp only []
        rw [if_neg h1, if_neg h2, if_neg h3, if_neg h4, if_pos h5]
        simp [hc, hc2, hc3]

/-- Concatenating two fully-valid byte lists yields a fully-valid list. -/
theorem utf8Check_append (l w : List Nat) (hl : utf8Check l = .complete)
    (hw : utf8Check w = .complete) : utf8Check (l ++ w) = .complete := by
  rcases eq_or_ne l [] with rfl | hne
  · simpa using hw
  · obtain ⟨c, n, hd⟩ := utf8Check_complete_decode hne hl
    obtain ⟨h1, h2, -, -, hap, hst, -, -⟩ := decodeChar_spec hd
    have hdr : utf8Check (l.drop n) = .complete := hst ▸ hl
    have hrec := utf8Check_append (l.drop n) w hdr hw
    have heq := (decodeChar_spec (hap w)).2.2.2.2.2.1
    rw [heq, List.drop_append_of_le_length h2]
    exact hrec
termination_by l.length
decreasing_by simp only [List.length_drop]; omega

/-- Left-cancellation of validity: if `p` and `p ++ r` are both fully
valid then so is `r`. -/
theorem utf8Check_cancel (p r : List Nat) (hp : utf8Check p = .complete)
    (hpr : utf8Check (p ++ r) = .complete) : utf8Check r = .complete := by
  rcases eq_or_ne p [] with rfl | hne
  · simpa using hpr
  · obtain ⟨c, n, hd⟩ := utf8Check_complete_decode hne hp
    obtain ⟨h1, h2, -, -, hap, hst, -, -⟩ := decodeChar_spec hd
    have hdr : utf8Check (p.drop n) = .complete := hst ▸ hp
    have heq := (decodeChar_spec (hap r)).2.2.2.2.2.1
    rw [heq, List.drop_append_of_le_length h2] at hpr
    exact utf8Check_cancel (p.drop n) r hdr hpr
termination_by p.length
decreasing_by simp only [List.length_drop]; omega

/-- A boundary index never exceeds the length. -/
theorem isCharBoundary_le {s : List Nat} {n : Nat}
    (h : isCharBoundary s n = true) : n ≤ s.length := by
  unfold isCharBoundary at h
  split_ifs at h with h0
  · omega
  · cases hg : s.get? n with
    | some b =>
      have := List.get?_eq_some.mp hg |>.fst
      omega
    | none =>
      rw [hg] at h
      simp only [beq_iff_eq] at h
      omega

/-- If the bytes from position `n` on are fully valid, `n` is a character
boundary (the byte there, if any, starts a character). -/
theorem isCharBoundary_of_drop {s : List Nat} {n : Nat} (hn : n ≤ s.length)
    (h : utf8Check (s.drop n) = .complete) : isCharBoundary s n = true := by
  unfold isCharBoundary
  split_ifs with h0
  · rfl
  · cases hg : s.get? n with
    | none =>
      have := List.get?_eq_none.mp hg
      simp only [beq_iff_eq]
      omega
    | some b =>
      have hlt : n < s.length := List.get?_eq_some.mp hg |>.fst
      have hne : s.drop n ≠ [] := by
        intro hh
        have := congrArg List.length hh
        simp only [List.length_drop, List.length_nil] at this
        omega
      obtain ⟨c, k, hd⟩ := utf8Check_complete_decode hne h
      obtain ⟨-, -, ⟨b', t', hbt, hcb⟩, -, -, -, -, -⟩ := decodeChar_spec hd
      have : (s.drop n).get? 0 = some b' := by rw [hbt]; rfl
      rw [List.get?_drop, Nat.add_zero, hg] at this
      simp only [Option.some.injEq] at this
      subst this
      simp [hg, hcb]

/-- Dropping at a character boundary of a fully-valid list leaves a
fully-valid list. -/
theorem drop_complete_of_boundary {s : List Nat} (hs : utf8Check s = .complete)
    {n : Nat} (hb : isCharBoundary s n = true) :
    utf8Check (s.drop n) = .complete := by
  rcases Nat.eq_zero_or_pos n with rfl | hpos
  · simpa using hs
  · have hne : s ≠ [] := by
      intro hEq
      rw [hEq] at hb
      have := isCharBoundary_le hb
      simp only [List.length_nil] at this
      omega
    obtain ⟨c, k, hd⟩ := utf8Check_complete_decode hne hs
    obtain ⟨hk1, hk2, -, hint, -, hst, -, -⟩ := decodeChar_spec hd
    rcases Nat.lt_or_ge n k with hlt | hge
    · -- inside the first character: the byte is a continuation byte,
      -- contradicting the boundary hypothesis
      obtain ⟨b, hgb, hcb⟩ := hint n hpos hlt
      unfold isCharBoundary at hb
      rw [if_neg (by omega), hgb] at hb
      simp [hcb] at hb
    · have hsd : utf8Check (s.drop k) = .complete := hst ▸ hs
      have hb' : isCharBoundary (s.drop k) (n - k) = true := by
        rcases Nat.eq_or_lt_of_le hge with rfl | hgt
        · simp [isCharBoundary]
        · unfold isCharBoundary at hb ⊢
          rw [if_neg (by omega)] at hb
          rw [if_neg (by omega), List.get?_drop]
          rw [show k + (n - k) = n by omega]
          cases hg : s.get? n with
          | some b => rw [hg] at hb; exact hb
          | none =>
            rw [hg] at hb
            simp only [beq_iff_eq] at hb ⊢
            simp only [List.length_drop]
            omega
      have := drop_complete_of_boundary hsd hb'
      rwa [List.drop_drop, show k + (n - k) = n by omega] at this
termination_by s.length
decreasing_by simp only [List.length_drop]; omega

/-- No prefix of a fully-valid byte list validates as `invalid`: it is
either complete (cut at a character boundary) or incomplete (cut inside
a character). -/
theorem utf8Check_take_ne_invalid {s : List Nat}
    (hs : utf8Check s = .complete) (k : Nat) :
    utf8Check (s.take k) ≠ .invalid := by
  rcases Nat.eq_zero_or_pos k with rfl | hk
  · simp [utf8Check]
  rcases eq_or_ne s [] with rfl | hne
  · simp [utf8Check]
  obtain ⟨c, n, hd⟩ := utf8Check_complete_decode hne hs
  obtain ⟨hn1, hn2, -, -, hap, hst, hinc, htk⟩ := decodeChar_spec hd
  rcases Nat.lt_or_ge k n with hlt | hge
  · rw [hinc k hk hlt]
    simp
  · -- the first character is wholly inside the prefix
    have hsplit : s.take k = s.take n ++ (s.drop n).take (k - n) := by
      conv_lhs => rw [show k = n + (k - n) by omega]
      rw [List.take_add]
    have hdk : decodeChar (s.take k) = some (c, n) := by
      rw [hsplit]
      exact (decodeChar_spec htk).2.2.2.2.1 _
    have hstep := (decodeChar_spec hdk).2.2.2.2.2.1
    rw [hstep, List.drop_take]
    have hsd : utf8Check (s.drop n) = .complete := hst ▸ hs
    exact utf8Check_take_ne_invalid hsd (k - n)
termination_by s.length
decreasing_by simp only [List.length_drop]; omega

/-! ## Claim C6: `want_more` stops one step before `contains` fails high -/

/-- **C6**: for every `URangeBounds` implementation (exact count,
`RangeFull`, `RangeFrom`, `Range`, `RangeTo`, `RangeInclusive`,
`RangeToInclusive`) and every count `n`: if `contains n` holds and
`contains (n+1)` does not (the high end is about to fail), then
`want_more n` is false — the scan loop never attempts a character that
would push the count past the acceptable upper bound. -/
theorem claim_C6 (r : URange) (n : Nat) (h1 : r.contains n = true)
    (h2 : r.contains (n + 1) = false) : r.wantMore n = false := by
  cases r <;> simp [URange.contains, URange.wantMore] at * <;> omega

theorem claim_C6_witness :
    (URange.closed 2 5).contains 5 = true ∧
      (URange.closed 2 5).contains 6 = false ∧
      (URange.closed 2 5).wantMore 5 = false :=
  ⟨by decide, by decide, claim_C6 (URange.closed 2 5) 5 (by decide) (by decide)⟩

/-! ## Helper lemmas for the pattern layer -/

theorem maxOf?_eq_none {l : List Nat} : maxOf? l = none ↔ l = [] := by
  cases l with
  | nil => simp [maxOf?]
  | cons a t =>
    simp only [maxOf?]
    cases maxOf? t <;> simp

theorem maxOf?_eq_some {l : List Nat} {m : Nat} :
    maxOf? l = some m ↔ m ∈ l ∧ ∀ x ∈ l, x ≤ m := by
  induction l generalizing m with
  | nil => simp [maxOf?]
  | cons a t ih =>
    simp only [maxOf?]
    cases hm : maxOf? t with
    | none =>
      have ht : t = [] := maxOf?_eq_none.mp hm
      subst ht
      constructor
      · rintro h
        have ham : a = m := by simpa using h
        subst ham
        simp
      · rintro ⟨hm1, hb⟩
        simp only [List.mem_singleton] at hm1
        subst hm1
        rfl
    | some mt =>
      have hmt := ih.mp hm
      simp only [Option.some.injEq, List.mem_cons]
      constructor
      · rintro rfl
        rcases Nat.le_total a mt with hle | hle
        · rw [Nat.max_eq_right hle]
          exact ⟨Or.inr hmt.1, by
            rintro x (rfl | hx)
            · exact hle
            · exact hmt.2 x hx⟩
        · rw [Nat.max_eq_left hle]
          exact ⟨Or.inl rfl, by
            rintro x (rfl | hx)
            · exact le_refl _
            · exact le_trans (hmt.2 x hx) hle⟩
      · rintro ⟨hma, hb⟩
        have h1 : a ≤ m := hb a (Or.inl rfl)
        have h2 : mt ≤ m := hb mt (Or.inr hmt.1)
        have h3 : m ≤ max a mt := by
          rcases hma with rfl | hm2
          · exact Nat.le_max_left _ _
          · exact le_trans (hmt.2 m hm2) (Nat.le_max_right _ _)
        have h4 : max a mt ≤ m := Nat.max_le.mpr ⟨h1, h2⟩
        exact Nat.le_antisymm h4 h3

/-- `find?` returns the first element satisfying the predicate:
characterisation by position. -/
theorem find?_first {α : Type} (p : α → Bool) (l : List α) (x : α) :
    l.find? p = some x ↔
      ∃ i, l.get? i = some x ∧ p x = true ∧
        ∀ j, j < i → ∀ y, l.get? j = some y → p y = false := by
  induction l generalizing x with
  | nil => simp
  | cons a t ih =>
    cases hpa : p a with
    | true =>
      rw [List.find?_cons_of_pos t hpa]
      constructor
      · rintro h
        simp only [Option.some.injEq] at h
        subst h
        exact ⟨0, rfl, hpa, by omega⟩
      · rintro ⟨i, hg, hpx, hbef⟩
        cases i with
        | zero =>
          simp only [List.get?] at hg
          simp only [Option.some.injEq] at hg
          rw [hg]
        | succ i =>
          have := hbef 0 (by omega) a rfl
          rw [hpa] at this
          simp at this
    | false =>
      rw [List.find?_cons_of_neg t (by simp [hpa])]
      rw [ih]
      constructor
      · rintro ⟨i, hg, hpx, hbef⟩
        refine ⟨i + 1, hg, hpx, ?_⟩
        intro j hj y hy
        cases j with
        | zero =>
          simp only [List.get?] at hy
          simp only [Option.some.injEq] at hy
          subst hy
          exact hpa
        | succ j => exact hbef j (by omega) y hy
      · rintro ⟨i, hg, hpx, hbef⟩
        cases i with
        | zero =>
          simp only [List.get?, Option.some.injEq] at hg
          subst hg
          rw [hpa] at hpx
          simp at hpx
        | succ i =>
          exact ⟨i, hg, hpx, fun j hj y hy => hbef (j + 1) (by omega) y hy⟩

/-- The `token_sets!` `matches` chain is the first-prefix-in-order
matcher. -/
theorem tokensMatches_eq (ws : List (List Nat)) (content : List Nat) :
    tokensMatches ws content =
      (ws.find? fun w => w.isPrefixOf content).map fun w => (w.length, w) := by
  induction ws with
  | nil => rfl
  | cons w ws ih =>
    simp only [tokensMatches]
    cases hp : w.isPrefixOf content with
    | true =>
      rw [if_pos rfl]
      simp [List.find?, hp]
    | false =>
      rw [if_neg (by simp), ih]
      simp [List.find?, hp]

/-- The fold computing `max_len` inside the `token_sets!` `indicate`:
it is monotone in the accumulator, bounds every matching word length,
and is either the accumulator or a matching word length. -/
theorem tokensFold_spec (b : Nat) (ws : List (List Nat)) (acc : Nat) :
    acc ≤ ws.foldl
        (fun acc w => if w.headD 0x100 = b ∧ acc < w.length then w.length else acc)
        acc ∧
    (∀ w ∈ ws, w.headD 0x100 = b →
      w.length ≤ ws.foldl
        (fun acc w => if w.headD 0x100 = b ∧ acc < w.length then w.length else acc)
        acc) ∧
    (ws.foldl
        (fun acc w => if w.headD 0x100 = b ∧ acc < w.length then w.length else acc)
        acc = acc ∨
      ∃ w ∈ ws, w.headD 0x100 = b ∧
        w.length = ws.foldl
          (fun acc w => if w.headD 0x100 = b ∧ acc < w.length then w.length else acc)
          acc) := by
  induction ws generalizing acc with
  | nil => exact ⟨le_refl _, by simp, Or.inl rfl⟩
  | cons w ws ih =>
    simp only [List.foldl_cons]
    obtain ⟨h1, h2, h3⟩ :=
      ih (if w.headD 0x100 = b ∧ acc < w.length then w.length else acc)
    refine ⟨?_, ?_, ?_⟩
    · refine le_trans ?_ h1
      split_ifs with hcond
      · omega
      · exact le_refl _
    · intro w2 hw2 hb2
      rcases List.mem_cons.mp hw2 with rfl | hmem
      · refine le_trans ?_ h1
        split_ifs with hcond
        · exact le_refl _
        · omega
      · exact h2 w2 hmem hb2
    · rcases h3 with heq | ⟨w2, hm, hb2, hl⟩
      · rw [heq]
        split_ifs at heq ⊢ with hcond
        · exact Or.inr ⟨w, List.mem_cons_self w ws, hcond.1, rfl⟩
        · exact Or.inl rfl
      · exact Or.inr ⟨w2, List.mem_cons_of_mem w hm, hb2, hl⟩

/-! ## Claims C7 and C8: multi-candidate pattern `indicate` / `matches` -/

/-- **C7**: for the multi-candidate patterns (`[char; N]`, `[&str; N]`,
and `token_sets!`-generated sets), `indicate b` returns `some L` exactly
when at least one candidate's first UTF-8 byte equals `b`, and `L` is
the maximum encoded length over all candidates whose first byte equals
`b` (never the length of a shorter matching candidate).  For token sets
the words are assumed nonempty (`as_bytes()[0]` panics otherwise) and
`b` is a byte. -/
theorem claim_C7 :
    (∀ (cs : List Nat) (b : Nat),
      (charsIndicate cs b = none ↔ ∀ c ∈ cs, utf8FirstByte c ≠ b) ∧
      ∀ L, charsIndicate cs b = some L ↔
        ((∃ c ∈ cs, utf8FirstByte c = b ∧ utf8Len c = L) ∧
          ∀ c ∈ cs, utf8FirstByte c = b → utf8Len c ≤ L)) ∧
    (∀ (ws : List (List Nat)) (b : Nat),
      (strsIndicate ws b = none ↔ ∀ w ∈ ws, w.head? ≠ some b) ∧
      ∀ L, strsIndicate ws b = some L ↔
        ((∃ w ∈ ws, w.head? = some b ∧ w.length = L) ∧
          ∀ w ∈ ws, w.head? = some b → w.length ≤ L)) ∧
    (∀ (ws : List (List Nat)) (b : Nat), b < 0x100 → (∀ w ∈ ws, w ≠ []) →
      (tokensIndicate ws b = none ↔ ∀ w ∈ ws, w.head? ≠ some b) ∧
      ∀ L, tokensIndicate ws b = some L ↔
        ((∃ w ∈ ws, w.head? = some b ∧ w.length = L) ∧
          ∀ w ∈ ws, w.head? = some b → w.length ≤ L)) := by
  refine ⟨fun cs b => ⟨?_, fun L => ?_⟩, fun ws b => ⟨?_, fun L => ?_⟩,
    fun ws b hb hne => ?_⟩
  · rw [charsIndicate, maxOf?_eq_none, List.filterMap_eq_nil]
    constructor
    · intro h c hc hcb
      have := h c hc
      rw [if_pos hcb] at this
      simp at this
    · intro h c hc
      rw [if_neg (h c hc)]
  · rw [charsIndicate, maxOf?_eq_some]
    simp only [List.mem_filterMap]
    constructor
    · rintro ⟨⟨c, hc, hfc⟩, hub⟩
      split_ifs at hfc with hcb
      simp only [Option.some.injEq] at hfc
      refine ⟨⟨c, hc, hcb, hfc⟩, ?_⟩
      intro c2 hc2 hcb2
      exact hub _ ⟨c2, hc2, by rw [if_pos hcb2]⟩
    · rintro ⟨⟨c, hc, hcb, hlen⟩, hub⟩
      refine ⟨⟨c, hc, by rw [if_pos hcb, hlen]⟩, ?_⟩
      rintro x ⟨c2, hc2, hx⟩
      split_ifs at hx with hcb2
      simp only [Option.some.injEq] at hx
      subst hx
      exact hub c2 hc2 hcb2
  · rw [strsIndicate, maxOf?_eq_none, List.filterMap_eq_nil]
    constructor
    · intro h w hw hwb
      have := h w hw
      rw [hwb] at this
      simp at this
    · intro h w hw
      cases hh : w.head? with
      | none => rfl
      | some b0 =>
        simp only [Option.some_bind]
        rw [if_neg]
        intro rfl0
        exact h w hw (by rw [hh, rfl0])
  · rw [strsIndicate, maxOf?_eq_some]
    simp only [List.mem_filterMap]
    constructor
    · rintro ⟨⟨w, hw, hfw⟩, hub⟩
      cases hh : w.head? with
      | none => rw [hh] at hfw; simp at hfw
      | some b0 =>
        rw [hh] at hfw
        simp only [Option.some_bind] at hfw
        split_ifs at hfw with hb0
        simp only [Option.some.injEq] at hfw
        subst hb0
        refine ⟨⟨w, hw, hh, hfw⟩, ?_⟩
        intro w2 hw2 hh2
        refine hub _ ⟨w2, hw2, ?_⟩
        rw [hh2]
        simp
    · rintro ⟨⟨w, hw, hh, hlen⟩, hub⟩
      refine ⟨⟨w, hw, by rw [hh]; simp [hlen]⟩, ?_⟩
      rintro x ⟨w2, hw2, hx⟩
      cases hh2 : w2.head? with
      | none => rw [hh2] at hx; simp at hx
      | some b0 =>
        rw [hh2] at hx
        simp only [Option.some_bind] at hx
        split_ifs at hx with hb0
        simp only [Option.some.injEq] at hx
        subst hb0
        subst hx
        exact hub w2 hw2 hh2
  · have hhd : ∀ w : List Nat, w ∈ ws → (w.headD 0x100 = b ↔ w.head? = some b) := by
      intro w hw
      cases w with
      | nil => exact absurd rfl (hne [] hw)
      | cons x t => simp
    obtain ⟨h1, h2, h3⟩ := tokensFold_spec b ws 0
    constructor
    · simp only [tokensIndicate, ite_not]
      constructor
      · intro h w hw hwb
        split_ifs at h with hm
        have hlen := h2 w hw ((hhd w hw).mpr hwb)
        rw [hm] at hlen
        exact hne w hw (List.eq_nil_of_length_eq_zero (by omega))
      · intro h
        rcases h3 with hm | ⟨w, hw, hwb, hl⟩
        · rw [if_pos hm]
        · exact absurd ((hhd w hw).mp hwb) (h w hw)
    · intro L
      simp only [tokensIndicate, ite_not]
      constructor
      · intro h
        split_ifs at h with hm
        simp only [Option.some.injEq] at h
        rcases h3 with hm0 | ⟨w, hw, hwb, hl⟩
        · exact absurd hm0 hm
        · refine ⟨⟨w, hw, (hhd w hw).mp hwb, by omega⟩, ?_⟩
          intro w2 hw2 hwb2
          have := h2 w2 hw2 ((hhd w2 hw2).mpr hwb2)
          omega
      · rintro ⟨⟨w, hw, hwb, hlen⟩, hub⟩
        have hwlen : 1 ≤ w.length := by
          cases w with
          | nil => exact absurd rfl (hne [] hw)
          | cons x t => simp
        have hLb := h2 w hw ((hhd w hw).mpr hwb)
        rw [if_neg (by omega)]
        simp only [Option.some.injEq]
        rcases h3 with hm0 | ⟨w2, hw2, hwb2, hl2⟩
        · omega
        · have := hub w2 hw2 ((hhd w2 hw2).mp hwb2)
          omega

theorem claim_C7_witness :
    tokensIndicate [[0x61, 0x62], [0x61]] 0x61 = some 2 ∧
      [0x61, 0x62].head? = some 0x61 := by
  refine ⟨?_, by decide⟩
  exact ((claim_C7.2.2 [[0x61, 0x62], [0x61]] 0x61 (by decide) (by decide)).2
    2).mpr (by
      refine ⟨⟨[0x61, 0x62], by decide, by decide, by decide⟩, ?_⟩
      intro w hw hwb
      simp only [List.mem_cons, List.not_mem_nil, or_false] at hw
      rcases hw with rfl | rfl
      · decide
      · decide)

/-- **C8**: for the multi-candidate patterns (`[char; N]`, `[&str; N]`,
and `token_sets!`-generated sets), `matches content` returns the first
candidate in declaration order that is a prefix of `content`, together
with that candidate's byte length — earlier entries win on ties. -/
theorem claim_C8 :
    (∀ (cs content : List Nat) (len d : Nat),
      charsMatches cs content = some (len, d) ↔
        (len = utf8Len d ∧ (utf8Encode d).isPrefixOf content = true ∧
          ∃ i, cs.get? i = some d ∧
            ∀ j, j < i → ∀ c, cs.get? j = some c →
              (utf8Encode c).isPrefixOf content = false)) ∧
    (∀ (ws : List (List Nat)) (content : List Nat) (len : Nat)
        (d : List Nat),
      strsMatches ws content = some (len, d) ↔
        (len = d.length ∧ d.isPrefixOf content = true ∧
          ∃ i, ws.get? i = some d ∧
            ∀ j, j < i → ∀ w, ws.get? j = some w →
              w.isPrefixOf content = false)) ∧
    (∀ (ws : List (List Nat)) (content : List Nat) (len : Nat)
        (d : List Nat),
      tokensMatches ws content = some (len, d) ↔
        (len = d.length ∧ d.isPrefixOf content = true ∧
          ∃ i, ws.get? i = some d ∧
            ∀ j, j < i → ∀ w, ws.get? j = some w →
              w.isPrefixOf content = false)) := by
  have hstr : ∀ (ws : List (List Nat)) (content : List Nat) (len : Nat)
      (d : List Nat),
      strsMatches ws content = some (len, d) ↔
        (len = d.length ∧ d.isPrefixOf content = true ∧
          ∃ i, ws.get? i = some d ∧
            ∀ j, j < i → ∀ w, ws.get? j = some w →
              w.isPrefixOf content = false) := by
    intro ws content len d
    rw [strsMatches, Option.map_eq_some']
    constructor
    · rintro ⟨w, hfind, hmk⟩
      simp only [Prod.mk.injEq] at hmk
      obtain ⟨hl, rfl⟩ := hmk
      obtain ⟨i, hg, hp, hbef⟩ := (find?_first _ ws w).mp hfind
      exact ⟨hl.symm, hp, i, hg, hbef⟩
    · rintro ⟨hl, hp, i, hg, hbef⟩
      refine ⟨d, (find?_first _ ws d).mpr ⟨i, hg, hp, hbef⟩, by rw [hl]⟩
  refine ⟨?_, hstr, ?_⟩
  · intro cs content len d
    rw [charsMatches, Option.map_eq_some']
    constructor
    · rintro ⟨c, hfind, hmk⟩
      simp only [Prod.mk.injEq] at hmk
      obtain ⟨hl, rfl⟩ := hmk
      obtain ⟨i, hg, hp, hbef⟩ := (find?_first _ cs c).mp hfind
      exact ⟨hl.symm, hp, i, hg, hbef⟩
    · rintro ⟨hl, hp, i, hg, hbef⟩
      refine ⟨d, (find?_first _ cs d).mpr ⟨i, hg, hp, hbef⟩, by rw [hl]⟩
  · intro ws content len d
    rw [tokensMatches_eq]
    exact hstr ws content len d

theorem claim_C8_witness :
    tokensMatches [[0x61], [0x61, 0x62]] [0x61, 0x62, 0x63] = some (1, [0x61]) ∧
      [0x61].isPrefixOf [0x61, 0x62, 0x63] = true := by
  refine ⟨?_, by decide⟩
  exact (claim_C8.2.2 [[0x61], [0x61, 0x62]] [0x61, 0x62, 0x63] 1 [0x61]).mpr
    ⟨by decide, by decide, 0, by decide, by omega⟩

/-! ## The read model -/

theorem read_bytes_eq (rdr : List (List Nat)) (space : Nat) :
    ((readRest rdr space).map List.length).sum
        + (readDeliver rdr space).length
      = (rdr.map List.length).sum := by
  cases rdr with
  | nil => simp [readRest, readDeliver]
  | cons ck rest =>
    simp only [readRest, readDeliver, List.map_cons, List.sum_cons]
    split_ifs with h
    · rw [List.isEmpty_iff, List.drop_eq_nil_iff_le] at h
      simp only [List.length_take]
      omega
    · rw [List.isEmpty_iff, List.drop_eq_nil_iff_le] at h
      simp only [List.map_cons, List.sum_cons, List.length_drop, List.length_take]
      omega

theorem readRest_no_nil {rdr : List (List Nat)} (h : [] ∉ rdr) (space : Nat) :
    [] ∉ readRest rdr space := by
  cases rdr with
  | nil => simp [readRest]
  | cons ck rest =>
    simp only [readRest]
    split_ifs with he
    · exact fun hm => h (List.mem_cons_of_mem _ hm)
    · intro hm
      rcases List.mem_cons.mp hm with heq | hm2
      · rw [List.isEmpty_iff] at he
        exact he heq.symm
      · exact h (List.mem_cons_of_mem _ hm2)

theorem readDeliver_nil {rdr : List (List Nat)} (h : [] ∉ rdr) {space : Nat}
    (hs : 1 ≤ space) (hd : readDeliver rdr space = []) :
    rdr = [] ∧ readRest rdr space = [] := by
  cases rdr with
  | nil => exact ⟨rfl, rfl⟩
  | cons ck rest =>
    exfalso
    simp only [readDeliver] at hd
    have hck : ck ≠ [] := fun hh => h (by rw [← hh] at *; exact List.mem_cons_self _ _)
    have := congrArg List.length hd
    simp only [List.length_take, List.length_nil] at this
    have : ck.length = 0 := by omega
    exact hck (List.eq_nil_of_length_eq_zero this)

/-! ## The `fetch` step -/

namespace Utf8Reader

/-- Everything one `fetch` pass guarantees, provided there is free
buffer space (`off_read < buf_cap`, which both callers establish):
the invariant is preserved, the cursor and counters are untouched, the
valid region only grows by a fully-validated block, a rerun request
strictly consumes source bytes, and an EOF source stays at EOF. -/
theorem fetchStep_spec {s : Utf8Reader} (hB : BInv s)
    (hsp : ∀ r, s.src = .reader r → r.buf.length < r.buf_cap)
    {rr : Bool} {s' : Utf8Reader} (h : s.fetchStep = .ok (rr, s')) :
    BInv s' ∧ s'.off_consumed = s.off_consumed ∧
    s'.tot_consumed = s.tot_consumed ∧ s'.peeked = s.peeked ∧
    (∃ w, utf8Check w = .complete ∧ s'.validRegion = s.validRegion ++ w) ∧
    (rr = true → s'.srcBytes < s.srcBytes) ∧ s'.srcBytes ≤ s.srcBytes ∧
    (s.eof = true → s'.eof = true ∧ s' = s) ∧
    (∀ bs, s.src = .borrowed bs → s' = s ∧ rr = false) ∧
    (∀ r, s.src = .reader r → ∃ r', s'.src = .reader r' ∧
      r'.buf_cap = r.buf_cap ∧ r.buf.length ≤ r'.buf.length) := by
  obtain ⟨src, offc, totc, pk, eof⟩ := s
  cases src with
  | borrowed bs =>
    simp only [fetchStep] at h
    obtain ⟨rfl, rfl⟩ : rr = false ∧ _ := by
      have := h
      simp only [Except.ok.injEq, Prod.mk.injEq] at this
      exact ⟨this.1.symm, this.2.symm⟩
    refine ⟨hB, rfl, rfl, rfl, ⟨[], rfl, by simp⟩, by simp, le_refl _,
      fun he => ⟨he, rfl⟩, fun bs2 _ => ⟨rfl, rfl⟩, fun r hr => by simp at hr⟩
  | reader r =>
    obtain ⟨rdr, buf, cap, totr, offv⟩ := r
    simp only [BInv] at hB
    obtain ⟨hov, hvb, hbc, hcp, hnn, heof⟩ := hB
    have hsp1 : buf.length < cap := hsp _ rfl
    simp only [fetchStep] at h
    by_cases hce : (readDeliver rdr (cap - buf.length)).isEmpty
    · rw [if_pos hce] at h
      rw [List.isEmpty_iff] at hce
      obtain ⟨hrdr, hrest⟩ := readDeliver_nil hnn (by omega) hce
      by_cases hvr : offv == buf.length
      · rw [if_pos hvr] at h
        simp only [Except.ok.injEq, Prod.mk.injEq] at h
        obtain ⟨hrr, hs'⟩ := h
        subst hrr hs'
        rw [beq_iff_eq] at hvr
        refine ⟨?_, rfl, rfl, rfl, ⟨[], rfl, by simp [validRegion]⟩, by simp,
          ?_, ?_, by simp, ?_⟩
        · exact ⟨hov, hvb, hbc, hcp, by rw [hrest]; simp, fun _ => ⟨hrest, hvr⟩⟩
        · simp [srcBytes, hrdr, readRest]
        · intro he
          simp only [] at he
          subst he
          refine ⟨rfl, ?_⟩
          rw [hrest, hrdr]
        · intro r2 hr2
          simp only [Src.reader.injEq] at hr2
          subst hr2
          exact ⟨_, rfl, rfl, le_refl _⟩
      · rw [if_neg hvr] at h
        exact absurd h (by simp)
    · rw [if_neg hce] at h
      rw [List.isEmpty_iff] at hce
      have heof2 : eof ≠ true := by
        intro he
        obtain ⟨hrdr, -⟩ := heof he
        exact hce (by simp [hrdr, readDeliver])
      have hclen : 1 ≤ (readDeliver rdr (cap - buf.length)).length := by
        cases hcc : readDeliver rdr (cap - buf.length) with
        | nil => exact absurd hcc hce
        | cons x t => simp
      have hcspace : (readDeliver rdr (cap - buf.length)).length ≤ cap - buf.length := by
        cases rdr with
        | nil => simp [readDeliver] at hce
        | cons ck rest => simp [readDeliver, List.length_take]
      have hsrcdec :
          (((readRest rdr (cap - buf.length)).map List.length).sum <
            (rdr.map List.length).sum) := by
        have := read_bytes_eq rdr (cap - buf.length)
        omega
      cases hchk : utf8Check ((buf ++ readDeliver rdr (cap - buf.length)).drop offv) with
      | invalid => rw [hchk] at h; exact absurd h (by simp)
      | incomplete =>
        rw [hchk] at h
        simp only [Except.ok.injEq, Prod.mk.injEq] at h
        obtain ⟨hrr, hs'⟩ := h
        subst hrr hs'
        refine ⟨?_, rfl, rfl, rfl, ?_, ?_, ?_, ?_, by simp, ?_⟩
        · refine ⟨hov, by simp; omega, by simp; omega, hcp,
            readRest_no_nil hnn _, by simp⟩
        · refine ⟨[], rfl, ?_⟩
          simp only [validRegion, List.append_nil]
          rw [List.take_append_of_le_length hvb]
        · intro _
          simp only [srcBytes]
          exact hsrcdec
        · simp only [srcBytes]
          omega
        · intro he
          exact absurd he heof2
        · intro r2 hr2
          simp only [Src.reader.injEq] at hr2
          subst hr2
          refine ⟨_, rfl, rfl, by simp⟩
      | complete =>
        rw [hchk] at h
        simp only [Except.ok.injEq, Prod.mk.injEq] at h
        obtain ⟨hrr, hs'⟩ := h
        subst hrr hs'
        refine ⟨?_, rfl, rfl, rfl, ?_, by simp, ?_, ?_, by simp, ?_⟩
        · refine ⟨by simp; omega, by simp, by simp; omega, hcp,
            readRest_no_nil hnn _, by simp⟩
        · refine ⟨(buf ++ readDeliver rdr (cap - buf.length)).drop offv, hchk, ?_⟩
          simp only [validRegion, List.take_length]
          rw [List.drop_append_of_le_length hvb, ← List.append_assoc,
            List.take_append_drop]
        · simp only [srcBytes]
          omega
        · intro he
          exact absurd he heof2
        · intro r2 hr2
          simp only [Src.reader.injEq] at hr2
          subst hr2
          refine ⟨_, rfl, rfl, by simp⟩

theorem content_eq_validRegion_drop (s : Utf8Reader) :
    s.content = s.validRegion.drop s.off_consumed := by
  rcases hs : s.src with bs | r <;> simp [content, validRegion, hs]

theorem off_consumed_le_validRegion_length {s : Utf8Reader} (hB : BInv s) :
    s.off_consumed ≤ s.validRegion.length := by
  rcases hs : s.src with bs | r
  · simp only [BInv, hs] at hB
    simp [validRegion, hs, hB]
  · simp only [BInv, hs] at hB
    simp only [validRegion, hs, List.length_take]
    omega

theorem content_append_of_validRegion {s s' : Utf8Reader} (hB : BInv s)
    (hoff : s'.off_consumed = s.off_consumed)
    {w : List Nat} (hvr : s'.validRegion = s.validRegion ++ w) :
    s'.content = s.content ++ w := by
  rw [content_eq_validRegion_drop, content_eq_validRegion_drop, hvr, hoff,
    List.drop_append_of_le_length (off_consumed_le_validRegion_length hB)]

/-- What `pull_more` guarantees (fuel-parametric): invariant preserved,
cursor/counters/peek untouched, the valid region only grows by
fully-validated bytes, and an EOF reader stays at EOF without gaining
bytes. -/
theorem pullMoreF_spec (fuel : Nat) :
    ∀ {s s' : Utf8Reader}, BInv s → pullMoreF fuel s = .ok s' →
      BInv s' ∧ s'.off_consumed = s.off_consumed ∧
      s'.tot_consumed = s.tot_consumed ∧ s'.peeked = s.peeked ∧
      (∃ w, utf8Check w = .complete ∧ s'.validRegion = s.validRegion ++ w) ∧
      s'.srcBytes ≤ s.srcBytes ∧
      (s.eof = true → s'.eof = true ∧ s'.validRegion = s.validRegion) ∧
      (∀ bs, s.src = .borrowed bs → s' = s) ∧
      (∀ r0, s.src = .reader r0 → ∃ r', s'.src = .reader r') := by
  induction fuel with
  | zero => intro s s' hB h; simp [pullMoreF] at h
  | succ fuel ih =>
    intro s s' hB h
    obtain ⟨src, offc, totc, pk, eof⟩ := s
    cases src with
    | borrowed bs =>
      simp only [pullMoreF, Except.ok.injEq] at h
      subst h
      exact ⟨hB, rfl, rfl, rfl, ⟨[], rfl, by simp⟩, le_refl _,
        fun he => ⟨he, rfl⟩, fun _ _ => rfl, fun r0 hr0 => absurd hr0 (by simp)⟩
    | reader r =>
      obtain ⟨rdr, buf, cap, totr, offv⟩ := r
      have hB0 := hB
      simp only [BInv] at hB0
      obtain ⟨hov, hvb, hbc, hcp, hnn, heof⟩ := hB0
      simp only [pullMoreF] at h
      split_ifs at h with hgrow
      · -- capacity doubled
        set s1 : Utf8Reader :=
          { src := Src.reader
              { rdr := rdr, buf := buf, buf_cap := cap * 2, tot_read := totr,
                off_valid := offv },
            off_consumed := offc, tot_consumed := totc, peeked := pk,
            eof := eof } with hs1
        have hB1 : BInv s1 := ⟨hov, hvb, show buf.length ≤ cap * 2 by omega,
          show 0 < cap * 2 by omega, hnn, heof⟩
        have hsp1 : ∀ r2, s1.src = .reader r2 → r2.buf.length < r2.buf_cap := by
          intro r2 hr2
          simp only [hs1, Src.reader.injEq] at hr2
          subst hr2
          show buf.length < cap * 2
          omega
        cases hfs : s1.fetchStep with
        | error e => rw [hfs] at h; exact absurd h (by simp)
        | ok pr =>
          obtain ⟨rr, s2⟩ := pr
          rw [hfs] at h
          obtain ⟨hB2, hoff2, htot2, hpk2, ⟨w2, hw2, hvr2⟩, -, hsb2, heof2, -, hrd2⟩ :=
            fetchStep_spec hB1 hsp1 hfs
          cases rr with
          | false =>
            simp only [Except.ok.injEq] at h
            subst h
            refine ⟨hB2, hoff2, htot2, hpk2, ⟨w2, hw2, hvr2⟩, hsb2, ?_, by simp,
              fun _ _ => (hrd2 _ rfl).elim fun rp hp => ⟨rp, hp.1⟩⟩
            intro he
            obtain ⟨he2, hs2⟩ := heof2 he
            refine ⟨he2, ?_⟩
            rw [hs2]
            try rfl
          | true =>
            simp only [] at h
            obtain ⟨hB3, hoff3, htot3, hpk3, ⟨w3, hw3, hvr3⟩, hsb3, heof3, -, hrd3⟩ :=
              ih hB2 h
            refine ⟨hB3, by rw [hoff3, hoff2], by rw [htot3, htot2],
              by rw [hpk3, hpk2],
              ⟨w2 ++ w3, utf8Check_append _ _ hw2 hw3,
                by rw [hvr3, hvr2, List.append_assoc]; try rfl⟩,
              le_trans hsb3 hsb2, ?_, by simp,
              fun _ _ => (hrd2 _ rfl).elim fun rp hp => hrd3 rp hp.1⟩
            intro he
            obtain ⟨he2, hs2⟩ := heof2 he
            obtain ⟨he3, hv3⟩ := heof3 he2
            rw [hs2] at hv3
            exact ⟨he3, hv3⟩
      · -- capacity unchanged
        set s1 : Utf8Reader :=
          { src := Src.reader
              { rdr := rdr, buf := buf, buf_cap := cap, tot_read := totr,
                off_valid := offv },
            off_consumed := offc, tot_consumed := totc, peeked := pk,
            eof := eof } with hs1
        have hB1 : BInv s1 := ⟨hov, hvb, hbc, hcp, hnn, heof⟩
        have hsp1 : ∀ r2, s1.src = .reader r2 → r2.buf.length < r2.buf_cap := by
          intro r2 hr2
          simp only [hs1, Src.reader.injEq] at hr2
          subst hr2
          show buf.length < cap
          omega
        cases hfs : s1.fetchStep with
        | error e => rw [hfs] at h; exact absurd h (by simp)
        | ok pr =>
          obtain ⟨rr, s2⟩ := pr
          rw [hfs] at h
          obtain ⟨hB2, hoff2, htot2, hpk2, ⟨w2, hw2, hvr2⟩, -, hsb2, heof2, -, hrd2⟩ :=
            fetchStep_spec hB1 hsp1 hfs
          cases rr with
          | false =>
            simp only [Except.ok.injEq] at h
            subst h
            refine ⟨hB2, hoff2, htot2, hpk2, ⟨w2, hw2, hvr2⟩, hsb2, ?_, by simp,
              fun _ _ => (hrd2 _ rfl).elim fun rp hp => ⟨rp, hp.1⟩⟩
            intro he
            obtain ⟨he2, hs2⟩ := heof2 he
            refine ⟨he2, ?_⟩
            rw [hs2]
            try rfl
          | true =>
            simp only [] at h
            obtain ⟨hB3, hoff3, htot3, hpk3, ⟨w3, hw3, hvr3⟩, hsb3, heof3, -, hrd3⟩ :=
              ih hB2 h
            refine ⟨hB3, by rw [hoff3, hoff2], by rw [htot3, htot2],
              by rw [hpk3, hpk2],
              ⟨w2 ++ w3, utf8Check_append _ _ hw2 hw3,
                by rw [hvr3, hvr2, List.append_assoc]; try rfl⟩,
              le_trans hsb3 hsb2, ?_, by simp,
              fun _ _ => (hrd2 _ rfl).elim fun rp hp => hrd3 rp hp.1⟩
            intro he
            obtain ⟨he2, hs2⟩ := heof2 he
            obtain ⟨he3, hv3⟩ := heof3 he2
            rw [hs2] at hv3
            exact ⟨he3, hv3⟩

/-- `pull_more` spec at the public wrapper. -/
theorem pullMore_spec {s s' : Utf8Reader} (hB : BInv s)
    (h : s.pullMore = .ok s') :
    BInv s' ∧ s'.off_consumed = s.off_consumed ∧
    s'.tot_consumed = s.tot_consumed ∧ s'.peeked = s.peeked ∧
    (∃ w, utf8Check w = .complete ∧ s'.validRegion = s.validRegion ++ w) ∧
    s'.srcBytes ≤ s.srcBytes ∧
    (s.eof = true → s'.eof = true ∧ s'.validRegion = s.validRegion) ∧
    (∀ bs, s.src = .borrowed bs → s' = s) ∧
    (∀ r0, s.src = .reader r0 → ∃ r', s'.src = .reader r') :=
  pullMoreF_spec _ hB h

/-- What `pull` guarantees (fuel-parametric): invariant preserved, the
absolute position `consumed()` and the pending peek untouched, the
content only grows by fully-validated bytes (compaction moves it, byte
content unchanged), and an EOF reader stays at EOF without gaining
content. -/
theorem pullF_spec (fuel : Nat) :
    ∀ {s s' : Utf8Reader}, BInv s → pullF fuel s = .ok s' →
      BInv s' ∧ s'.consumed = s.consumed ∧ s'.peeked = s.peeked ∧
      (∃ w, utf8Check w = .complete ∧ s'.content = s.content ++ w) ∧
      s'.srcBytes ≤ s.srcBytes ∧
      (s.eof = true → s'.eof = true ∧ s'.content = s.content) ∧
      (∀ bs, s.src = .borrowed bs → s' = s) ∧
      (∀ r0, s.src = .reader r0 → ∃ r', s'.src = .reader r') := by
  have hIC : INIT_CAP = 32768 := rfl
  have hTH : THRES_ARRANGE = 8192 := rfl
  induction fuel with
  | zero => intro s s' hB h; simp [pullF] at h
  | succ fuel ih =>
    intro s s' hB h
    obtain ⟨src, offc, totc, pk, eof⟩ := s
    cases src with
    | borrowed bs =>
      simp only [pullF, Except.ok.injEq] at h
      subst h
      exact ⟨hB, rfl, rfl, ⟨[], rfl, by simp⟩, le_refl _,
        fun he => ⟨he, rfl⟩, fun _ _ => rfl, fun r0 hr0 => ⟨r0, hr0⟩⟩
    | reader r =>
      obtain ⟨rdr, buf, cap, totr, offv⟩ := r
      have hB0 := hB
      simp only [BInv] at hB0
      obtain ⟨hov, hvb, hbc, hcp, hnn, heof⟩ := hB0
      simp only [pullF, off_read] at h
      split_ifs at h with hbig hcomp hret hret2
      · -- off_read too far ahead: no-op
        simp only [Except.ok.injEq] at h
        subst h
        exact ⟨hB, rfl, rfl, ⟨[], rfl, by simp⟩, le_refl _,
          fun he => ⟨he, rfl⟩, by simp, fun r0 hr0 => ⟨r0, hr0⟩⟩
      · -- compacted, then already at capacity: return
        simp only [Except.ok.injEq] at h
        subst h
        have hcnt : ((buf.drop offc).take (offv - offc)).drop 0
            = (buf.take offv).drop offc := by
          rw [List.drop_zero, List.drop_take]
        refine ⟨⟨Nat.zero_le _, ?_, ?_, ?_, hnn, ?_⟩, ?_, rfl,
          ⟨[], rfl, ?_⟩, le_refl _, ?_, by simp, fun _ _ => ⟨_, rfl⟩⟩
        · show offv - offc ≤ (buf.drop offc).length
          simp only [List.length_drop]
          omega
        · show (buf.drop offc).length ≤ INIT_CAP
          simp only [List.length_drop]
          omega
        · show 0 < INIT_CAP
          omega
        · intro he
          obtain ⟨h1, h2⟩ := heof he
          refine ⟨h1, ?_⟩
          show offv - offc = (buf.drop offc).length
          simp only [List.length_drop]
          omega
        · show totc + offc + 0 = totc + offc
          omega
        · simp only [content, List.append_nil]
          exact hcnt
        · intro he
          refine ⟨he, ?_⟩
          simp only [content]
          exact hcnt
      · -- compacted, then fetch
        set s1 : Utf8Reader :=
          { src := Src.reader
              { rdr := rdr, buf := buf.drop offc, buf_cap := INIT_CAP,
                tot_read := totr, off_valid := offv - offc },
            off_consumed := 0, tot_consumed := totc + offc, peeked := pk,
            eof := eof } with hs1
        simp only [hs1, off_read, List.length_drop] at hret
        have hB1 : BInv s1 := by
          refine ⟨Nat.zero_le _, ?_, ?_, show 0 < INIT_CAP by omega, hnn, ?_⟩
          · show offv - offc ≤ (buf.drop offc).length
            simp only [List.length_drop]
            omega
          · show (buf.drop offc).length ≤ INIT_CAP
            simp only [List.length_drop]
            omega
          · intro he
            obtain ⟨h1, h2⟩ := heof he
            refine ⟨h1, ?_⟩
            show offv - offc = (buf.drop offc).length
            simp only [List.length_drop]
            omega
        have hsp1 : ∀ r2, s1.src = .reader r2 → r2.buf.length < r2.buf_cap := by
          intro r2 hr2
          simp only [hs1, Src.reader.injEq] at hr2
          subst hr2
          show (buf.drop offc).length < INIT_CAP
          simp only [List.length_drop]
          omega
        have hcnt1 : s1.content = (buf.take offv).drop offc := by
          simp only [hs1, content, List.drop_zero]
          rw [List.drop_take]
        cases hfs : s1.fetchStep with
        | error e => rw [hfs] at h; exact absurd h (by simp)
        | ok pr =>
          obtain ⟨rr, s2⟩ := pr
          rw [hfs] at h
          obtain ⟨hB2, hoff2, htot2, hpk2, ⟨w2, hw2, hvr2⟩, -, hsb2, heof2, -, hrd2⟩ :=
            fetchStep_spec hB1 hsp1 hfs
          have hcnt2 : s2.content = (buf.take offv).drop offc ++ w2 := by
            rw [content_append_of_validRegion hB1 hoff2 hvr2, hcnt1]
          cases rr with
          | false =>
            simp only [Except.ok.injEq] at h
            subst h
            refine ⟨hB2, ?_, hpk2, ⟨w2, hw2, by rw [hcnt2]; rfl⟩, hsb2, ?_, by simp,
              fun _ _ => (hrd2 _ rfl).elim fun rp hp => ⟨rp, hp.1⟩⟩
            · simp only [consumed, hoff2, htot2, hs1]
              omega
            · intro he
              obtain ⟨he2, hs2⟩ := heof2 he
              refine ⟨he2, ?_⟩
              rw [hs2, hcnt1]
              rfl
          | true =>
            simp only [] at h
            obtain ⟨hB3, hcons3, hpk3, ⟨w3, hw3, hct3⟩, hsb3, heof3, -, hrd3⟩ :=
              ih hB2 h
            refine ⟨hB3, ?_, by rw [hpk3, hpk2], ?_, le_trans hsb3 hsb2, ?_, by simp,
              fun _ _ => (hrd2 _ rfl).elim fun rp hp => hrd3 rp hp.1⟩
            · rw [hcons3]
              simp only [consumed, hoff2, htot2, hs1]
              omega
            · refine ⟨w2 ++ w3, utf8Check_append _ _ hw2 hw3, ?_⟩
              rw [hct3, hcnt2, List.append_assoc]
              rfl
            · intro he
              obtain ⟨he2, hs2⟩ := heof2 he
              obtain ⟨he3, hc3⟩ := heof3 he2
              refine ⟨he3, ?_⟩
              rw [hc3, hs2, hcnt1]
              rfl
      · -- not compacted, already at capacity: impossible
        simp only [off_read] at hret2
        exfalso
        omega
      · -- not compacted, fetch
        set s1 : Utf8Reader :=
          { src := Src.reader
              { rdr := rdr, buf := buf, buf_cap := INIT_CAP,
                tot_read := totr, off_valid := offv },
            off_consumed := offc, tot_consumed := totc, peeked := pk,
            eof := eof } with hs1
        simp only [hs1, off_read] at hret2
        have hB1 : BInv s1 := by
          refine ⟨hov, hvb, ?_, show 0 < INIT_CAP by omega, hnn, heof⟩
          show buf.length ≤ INIT_CAP
          omega
        have hsp1 : ∀ r2, s1.src = .reader r2 → r2.buf.length < r2.buf_cap := by
          intro r2 hr2
          simp only [hs1, Src.reader.injEq] at hr2
          subst hr2
          show buf.length < INIT_CAP
          omega
        cases hfs : s1.fetchStep with
        | error e => rw [hfs] at h; exact absurd h (by simp)
        | ok pr =>
          obtain ⟨rr, s2⟩ := pr
          rw [hfs] at h
          obtain ⟨hB2, hoff2, htot2, hpk2, ⟨w2, hw2, hvr2⟩, -, hsb2, heof2, -, hrd2⟩ :=
            fetchStep_spec hB1 hsp1 hfs
          have hcnt2 : s2.content = (buf.take offv).drop offc ++ w2 := by
            rw [content_append_of_validRegion hB1 hoff2 hvr2]
            rfl
          cases rr with
          | false =>
            simp only [Except.ok.injEq] at h
            subst h
            refine ⟨hB2, ?_, hpk2, ⟨w2, hw2, by rw [hcnt2]; rfl⟩, hsb2, ?_, by simp,
              fun _ _ => (hrd2 _ rfl).elim fun rp hp => ⟨rp, hp.1⟩⟩
            · simp only [consumed, hoff2, htot2, hs1]
            · intro he
              obtain ⟨he2, hs2⟩ := heof2 he
              refine ⟨he2, ?_⟩
              rw [hs2]
              rfl
          | true =>
            simp only [] at h
            obtain ⟨hB3, hcons3, hpk3, ⟨w3, hw3, hct3⟩, hsb3, heof3, -, hrd3⟩ :=
              ih hB2 h
            refine ⟨hB3, ?_, by rw [hpk3, hpk2], ?_, le_trans hsb3 hsb2, ?_, by simp,
              fun _ _ => (hrd2 _ rfl).elim fun rp hp => hrd3 rp hp.1⟩
            · rw [hcons3]
              simp only [consumed, hoff2, htot2, hs1]
            · refine ⟨w2 ++ w3, utf8Check_append _ _ hw2 hw3, ?_⟩
              rw [hct3, hcnt2, List.append_assoc]
              rfl
            · intro he
              obtain ⟨he2, hs2⟩ := heof2 he
              obtain ⟨he3, hc3⟩ := heof3 he2
              refine ⟨he3, ?_⟩
              rw [hc3, hs2]
              rfl

/-- `pull` spec at the public wrapper. -/
theorem pull_spec {s s' : Utf8Reader} (hB : BInv s) (h : s.pull = .ok s') :
    BInv s' ∧ s'.consumed = s.consumed ∧ s'.peeked = s.peeked ∧
    (∃ w, utf8Check w = .complete ∧ s'.content = s.content ++ w) ∧
    s'.srcBytes ≤ s.srcBytes ∧
    (s.eof = true → s'.eof = true ∧ s'.content = s.content) ∧
    (∀ bs, s.src = .borrowed bs → s' = s) ∧
    (∀ r0, s.src = .reader r0 → ∃ r', s'.src = .reader r') :=
  pullF_spec _ hB h

/-- What `pull_at_least` guarantees: same shape as `pull_more` (it only
iterates `pull_more`). -/
theorem pullAtLeastF_spec (fuel : Nat) :
    ∀ (n : Nat) {s : Utf8Reader} {b : Bool} {s' : Utf8Reader}, BInv s →
      pullAtLeastF fuel n s = .ok (b, s') →
      BInv s' ∧ s'.off_consumed = s.off_consumed ∧
      s'.tot_consumed = s.tot_consumed ∧ s'.peeked = s.peeked ∧
      (∃ w, utf8Check w = .complete ∧ s'.validRegion = s.validRegion ++ w) ∧
      s'.srcBytes ≤ s.srcBytes ∧
      (s.eof = true → s'.eof = true ∧ s'.validRegion = s.validRegion) ∧
      (∀ bs, s.src = .borrowed bs → s' = s) ∧
      (∀ r0, s.src = .reader r0 → ∃ r', s'.src = .reader r') := by
  induction fuel with
  | zero => intro n s b s' hB h; simp [pullAtLeastF] at h
  | succ fuel ih =>
    intro n s b s' hB h
    rcases hsrc : s.src with bs | r
    · rw [pullAtLeastF, hsrc] at h
      simp only [Except.ok.injEq, Prod.mk.injEq] at h
      obtain ⟨-, h2⟩ := h
      subst h2
      exact ⟨hB, rfl, rfl, rfl, ⟨[], rfl, by simp⟩, le_refl _,
        fun he => ⟨he, rfl⟩, fun _ _ => rfl, fun r0 hr0 => absurd hr0 (by simp)⟩
    · rw [pullAtLeastF, hsrc] at h
      simp only [] at h
      split_ifs at h with hlt heof
      · -- EOF, cannot satisfy
        simp only [Except.ok.injEq, Prod.mk.injEq] at h
        obtain ⟨-, h2⟩ := h
        subst h2
        exact ⟨hB, rfl, rfl, rfl, ⟨[], rfl, by simp⟩, le_refl _,
          fun he => ⟨he, rfl⟩, fun _ _ => rfl, fun _ _ => ⟨r, hsrc⟩⟩
      · -- pull more and loop
        cases hpm : s.pullMore with
        | error e => rw [hpm] at h; exact absurd h (by simp)
        | ok s1 =>
          rw [hpm] at h
          simp only [] at h
          obtain ⟨hB1, hoff1, htot1, hpk1, ⟨w1, hw1, hvr1⟩, hsb1, heof1, -, hrd1⟩ :=
            pullMore_spec hB hpm
          obtain ⟨hB2, hoff2, htot2, hpk2, ⟨w2, hw2, hvr2⟩, hsb2, heof2, -, hrd2⟩ :=
            ih n hB1 h
          refine ⟨hB2, by rw [hoff2, hoff1], by rw [htot2, htot1],
            by rw [hpk2, hpk1],
            ⟨w1 ++ w2, utf8Check_append _ _ hw1 hw2,
              by rw [hvr2, hvr1, List.append_assoc]⟩,
            le_trans hsb2 hsb1, ?_,
            fun bs hbs => absurd hbs (by simp),
            fun _ _ => (hrd1 r hsrc).elim fun rA hA => hrd2 rA hA⟩
          intro he
          exact absurd he heof
      · -- enough bytes already
        simp only [Except.ok.injEq, Prod.mk.injEq] at h
        obtain ⟨-, h2⟩ := h
        subst h2
        exact ⟨hB, rfl, rfl, rfl, ⟨[], rfl, by simp⟩, le_refl _,
          fun he => ⟨he, rfl⟩, fun _ _ => rfl, fun _ _ => ⟨r, hsrc⟩⟩

/-- `pull_at_least` spec at the public wrapper. -/
theorem pullAtLeast_spec {n : Nat} {s : Utf8Reader} {b : Bool}
    {s' : Utf8Reader} (hB : BInv s) (h : s.pullAtLeast n = .ok (b, s')) :
    BInv s' ∧ s'.off_consumed = s.off_consumed ∧
    s'.tot_consumed = s.tot_consumed ∧ s'.peeked = s.peeked ∧
    (∃ w, utf8Check w = .complete ∧ s'.validRegion = s.validRegion ++ w) ∧
    s'.srcBytes ≤ s.srcBytes ∧
    (s.eof = true → s'.eof = true ∧ s'.validRegion = s.validRegion) ∧
    (∀ bs, s.src = .borrowed bs → s' = s) ∧
    (∀ r0, s.src = .reader r0 → ∃ r', s'.src = .reader r') :=
  pullAtLeastF_spec _ _ hB h

theorem content_advance (s : Utf8Reader) (k : Nat) :
    ({ s with off_consumed := s.off_consumed + k } : Utf8Reader).content
      = s.content.drop k := by
  rw [content_eq_validRegion_drop, content_eq_validRegion_drop]
  rw [show ({ s with off_consumed := s.off_consumed + k } : Utf8Reader).validRegion
      = s.validRegion from rfl]
  rw [List.drop_drop, Nat.add_comm]

/-! More facts about the UTF-8 core, needed for the scan loops. -/

theorem drop_complete_of_noncont_aux (k : Nat) :
    ∀ (l : List Nat), l.length ≤ k → utf8Check l = .complete →
      ∀ n b, l.get? n = some b → cont b = false →
        utf8Check (l.drop n) = .complete := by
  induction k with
  | zero =>
    intro l hk _ n b hg _
    rw [List.length_eq_zero.mp (Nat.le_zero.mp hk)] at hg
    simp at hg
  | succ k ih =>
    intro l hk hl n b hg hb
    rcases Nat.eq_zero_or_pos n with rfl | hn
    · simpa using hl
    · have hne : l ≠ [] := by
        intro hEq
        rw [hEq] at hg
        simp at hg
      obtain ⟨c, m, hd⟩ := utf8Check_complete_decode hne hl
      obtain ⟨hm1, hm2, -, hcontm, -, hst, -, -⟩ := decodeChar_spec hd
      rcases Nat.lt_or_ge n m with hlt | hge
      · obtain ⟨b', hb', hcb'⟩ := hcontm n hn hlt
        rw [hg] at hb'
        cases hb'
        rw [hcb'] at hb
        cases hb
      · have hl' : utf8Check (l.drop m) = .complete := hst ▸ hl
        have hg' : (l.drop m).get? (n - m) = some b := by
          rw [List.get?_drop, Nat.add_sub_cancel' hge]
          exact hg
        have hrec := ih (l.drop m) (by simp only [List.length_drop]; omega)
          hl' (n - m) b hg' hb
        rw [List.drop_drop, Nat.add_sub_cancel' hge] at hrec
        exact hrec

theorem drop_complete_of_noncont {l : List Nat} (hl : utf8Check l = .complete)
    {n b : Nat} (hg : l.get? n = some b) (hb : cont b = false) :
    utf8Check (l.drop n) = .complete :=
  drop_complete_of_noncont_aux l.length l (le_refl _) hl n b hg hb

theorem decodeChar_none_iff {c : List Nat} (hc : utf8Check c = .complete) :
    decodeChar c = none ↔ c = [] := by
  constructor
  · intro h
    by_contra hne
    obtain ⟨cp, n, hd⟩ := utf8Check_complete_decode hne hc
    rw [hd] at h
    cases h
  · intro h
    rw [h]
    rfl

/-! The byte scan of `until`: `find_map` over the content. -/

theorem findInd_some (ind : Nat → Option Nat) :
    ∀ {c : List Nat} {idx len : Nat}, findInd ind c = some (idx, len) →
      ∃ b, c.get? idx = some b ∧ ind b = some len := by
  intro c
  induction c with
  | nil => intro idx len h; cases h
  | cons b t iht =>
    intro idx len h
    rw [findInd] at h
    cases hb : ind b with
    | some l0 =>
      rw [hb] at h
      simp only [Option.some.injEq, Prod.mk.injEq] at h
      obtain ⟨h1, h2⟩ := h
      subst h1
      subst h2
      exact ⟨b, rfl, hb⟩
    | none =>
      rw [hb] at h
      cases hf : findInd ind t with
      | none => rw [hf] at h; cases h
      | some p =>
        rw [hf] at h
        simp only [Option.map_some', Option.some.injEq, Prod.mk.injEq] at h
        obtain ⟨h1, h2⟩ := h
        obtain ⟨b2, hg2, hi2⟩ := iht (show findInd ind t = some (p.1, p.2) from hf)
        subst h2
        refine ⟨b2, ?_, hi2⟩
        rw [show idx = p.1 + 1 from h1.symm]
        simpa using hg2

theorem findInd_none (ind : Nat → Option Nat) :
    ∀ {c : List Nat}, findInd ind c = none → ∀ b ∈ c, ind b = none := by
  intro c
  induction c with
  | nil => intro _ b hb; cases hb
  | cons b0 t iht =>
    intro h b hb
    rw [findInd] at h
    cases hb0 : ind b0 with
    | some l0 => rw [hb0] at h; cases h
    | none =>
      rw [hb0] at h
      rcases List.mem_cons.mp hb with rfl | hbt
      · exact hb0
      · cases hf : findInd ind t with
        | some p => rw [hf] at h; cases h
        | none => exact iht hf b hbt

/-! Cursor-advance facts. -/

theorem BInv_advance {s : Utf8Reader} (hB : BInv s) {k : Nat}
    (hk : k ≤ s.content.length) :
    BInv { s with off_consumed := s.off_consumed + k } := by
  rcases hs : s.src with bs | r
  · simp only [content, hs, List.length_drop] at hk
    simp only [BInv, hs] at hB ⊢
    omega
  · simp only [content, hs, List.length_drop, List.length_take] at hk
    simp only [BInv, hs] at hB ⊢
    obtain ⟨h1, h2, h3, h4, h5, h6⟩ := hB
    exact ⟨by omega, h2, h3, h4, h5, h6⟩

theorem validRegion_advance (s : Utf8Reader) (k : Nat) :
    ({ s with off_consumed := s.off_consumed + k } : Utf8Reader).validRegion
      = s.validRegion := rfl

theorem content_length_of_BInv {s : Utf8Reader} (hB : BInv s) :
    s.content.length = s.validRegion.length - s.off_consumed := by
  rw [content_eq_validRegion_drop, List.length_drop]

/-- Appending validated bytes keeps the region from the scan start
valid. -/
theorem drop_start_append {start : Nat} {s s' : Utf8Reader} (hB : BInv s)
    (hst : start ≤ s.off_consumed)
    (hsc : utf8Check (s.validRegion.drop start) = .complete)
    {w : List Nat} (hw : utf8Check w = .complete)
    (hvr : s'.validRegion = s.validRegion ++ w) :
    utf8Check (s'.validRegion.drop start) = .complete := by
  rw [hvr, List.drop_append_of_le_length
    (le_trans hst (off_consumed_le_validRegion_length hB))]
  exact utf8Check_append _ _ hsc hw

/-! The peek layer: `peeking()` and its two halves. -/

theorem content_advance_p (s : Utf8Reader) (k : Nat) (pk : Option Nat) :
    ({ s with off_consumed := s.off_consumed + k, peeked := pk }
      : Utf8Reader).content = s.content.drop k := by
  rw [content_eq_validRegion_drop, content_eq_validRegion_drop]
  rw [show ({ s with off_consumed := s.off_consumed + k, peeked := pk }
      : Utf8Reader).validRegion = s.validRegion from rfl]
  rw [List.drop_drop, Nat.add_comm]

/-- The `Inv`/`LInv` source arm (borrowed readers are at EOF) survives
any operation that keeps borrowed sources untouched and reader sources
readers. -/
theorem srcEof_preserved {t s2 : Utf8Reader}
    (hm : match t.src with | .borrowed _ => t.eof = true | .reader _ => True)
    (hbor : ∀ bs, t.src = .borrowed bs → s2 = t)
    (hrd : ∀ r0, t.src = .reader r0 → ∃ r', s2.src = .reader r') :
    match s2.src with | .borrowed _ => s2.eof = true | .reader _ => True := by
  rcases ht : t.src with bs | r
  · rw [hbor bs ht]
    exact hm
  · obtain ⟨r', hr'⟩ := hrd r ht
    rw [hr']
    exact trivial

theorem peekingCommit_spec {start : Nat} {s : Utf8Reader}
    (hL : LInv start s) :
    LInv start s.peekingCommit ∧ s.peekingCommit.peeked = none ∧
    s.peekingCommit.tot_consumed = s.tot_consumed ∧
    s.off_consumed ≤ s.peekingCommit.off_consumed ∧
    s.peekingCommit.validRegion = s.validRegion ∧
    s.peekingCommit.eof = s.eof ∧ s.peekingCommit.src = s.src ∧
    s.peekingCommit.off_consumed = s.off_consumed + s.peeked.getD 0 := by
  obtain ⟨hB, hst, hsc, hcc, hpk, hsrc⟩ := hL
  cases hp : s.peeked with
  | none =>
    have he : s.peekingCommit = s := by
      simp [peekingCommit, hp]
    rw [he]
    exact ⟨⟨hB, hst, hsc, hcc, hpk, hsrc⟩, hp, rfl, le_refl _, rfl, rfl, rfl,
      by simp [hp]⟩
  | some len =>
    obtain ⟨cp, hd⟩ := hpk len hp
    obtain ⟨h1, h2, -, -, -, hstat, -, -⟩ := decodeChar_spec hd
    have he : s.peekingCommit
        = { s with peeked := none, off_consumed := s.off_consumed + len } := by
      simp [peekingCommit, hp]
    rw [he]
    refine ⟨⟨BInv_advance hB h2,
      by show start ≤ s.off_consumed + len; omega, hsc, ?_, ?_, hsrc⟩,
      rfl, rfl, by show s.off_consumed ≤ s.off_consumed + len; omega,
      rfl, rfl, rfl, by simp [hp]⟩
    · rw [content_advance_p, ← hstat]
      exact hcc
    · intro len2 hpk2
      cases hpk2

theorem peekAfter_spec {start : Nat} {s : Utf8Reader} (hL : LInv start s)
    {a : Option (Nat × Nat)} {s' : Utf8Reader} (h : s.peekAfter = (a, s')) :
    LInv start s' ∧ s'.tot_consumed = s.tot_consumed ∧
    s'.off_consumed = s.off_consumed ∧ s'.validRegion = s.validRegion ∧
    s'.content = s.content ∧ s'.eof = s.eof ∧ s'.src = s.src ∧
    (∀ cp len, a = some (cp, len) → s'.peeked = some len ∧
      decodeChar s'.content = some (cp, len)) ∧
    (a = none → s'.peeked = s.peeked ∧ decodeChar s'.content = none) := by
  obtain ⟨hB, hst, hsc, hcc, hpk, hsrc⟩ := hL
  unfold peekAfter at h
  cases hd : decodeChar s.content with
  | none =>
    rw [hd] at h
    simp only [Prod.mk.injEq] at h
    obtain ⟨h1, h2⟩ := h
    subst h2
    subst h1
    refine ⟨⟨hB, hst, hsc, hcc, hpk, hsrc⟩, rfl, rfl, rfl, rfl, rfl, rfl,
      ?_, ?_⟩
    · intro cp len hx
      cases hx
    · intro hx2
      exact ⟨rfl, hd⟩
  | some p =>
    obtain ⟨cp, len⟩ := p
    rw [hd] at h
    simp only [Prod.mk.injEq] at h
    obtain ⟨h1, h2⟩ := h
    subst h2
    subst h1
    refine ⟨⟨hB, hst, hsc, hcc, ?_, hsrc⟩, rfl, rfl, rfl, rfl, rfl, rfl,
      ?_, ?_⟩
    · intro len2 hpk2
      simp only [Option.some.injEq] at hpk2
      subst hpk2
      exact ⟨cp, hd⟩
    · intro cp2 len2 hx
      simp only [Option.some.injEq, Prod.mk.injEq] at hx
      obtain ⟨hx1, hx2⟩ := hx
      subst hx1
      subst hx2
      exact ⟨rfl, hd⟩
    · intro hx
      cases hx

theorem peeking_spec {start : Nat} {s : Utf8Reader} (hL : LInv start s)
    {a : Option (Nat × Nat)} {s' : Utf8Reader}
    (h : s.peeking = .ok (a, s')) :
    LInv start s' ∧ s'.tot_consumed = s.tot_consumed ∧
    s.off_consumed ≤ s'.off_consumed ∧
    (∃ w, utf8Check w = .complete ∧ s'.validRegion = s.validRegion ++ w) ∧
    (s.eof = true → s'.eof = true) ∧
    (∀ cp len, a = some (cp, len) → s'.peeked = some len ∧
      decodeChar s'.content = some (cp, len)) ∧
    (a = none → s'.peeked = none ∧ s'.content = []) ∧
    s'.off_consumed = s.off_consumed + s.peeked.getD 0 := by
  obtain ⟨hL1, hpk1, htot1, hoff1, hvr1, heof1, hsrc1, hoffE1⟩ :=
    peekingCommit_spec hL
  rw [peeking] at h
  split_ifs at h with hemp
  · cases hpm : s.peekingCommit.pullMore with
    | error e => rw [hpm] at h; exact absurd h (by simp)
    | ok s2 =>
      rw [hpm] at h
      simp only [Except.ok.injEq] at h
      obtain ⟨hB2, hoff2, htot2, hpk2, ⟨w2, hw2, hvr2⟩, -, heof2, hbor2, hrd2⟩ :=
        pullMore_spec hL1.1 hpm
      obtain ⟨hBc, hstc, hscc, hccc, hpkc, hmc⟩ := hL1
      have hL2 : LInv start s2 := by
        refine ⟨hB2, by omega, drop_start_append hBc hstc hscc hw2 hvr2, ?_,
          ?_, srcEof_preserved hmc hbor2 hrd2⟩
        · rw [content_append_of_validRegion hBc hoff2 hvr2]
          exact utf8Check_append _ _ hccc hw2
        · intro len hpx
          rw [hpk2, hpk1] at hpx
          cases hpx
      obtain ⟨hLA, htotA, hoffA, hvrA, hcntA, heofA, hsrcA, hsomeA, hnoneA⟩ :=
        peekAfter_spec hL2 h
      refine ⟨hLA, by rw [htotA, htot2, htot1], by omega,
        ⟨w2, hw2, by rw [hvrA, hvr2, hvr1]⟩, ?_, hsomeA, ?_,
        by rw [hoffA, hoff2, hoffE1]⟩
      · intro he
        rw [heofA]
        exact (heof2 (by rw [heof1]; exact he)).1
      · intro hne
        refine ⟨by rw [(hnoneA hne).1, hpk2, hpk1], ?_⟩
        exact (decodeChar_none_iff hLA.2.2.2.1).mp (hnoneA hne).2
  · have h2 : s.peekingCommit.peekAfter = (a, s') := by
      exact Except.ok.inj h
    obtain ⟨hLA, htotA, hoffA, hvrA, hcntA, heofA, hsrcA, hsomeA, hnoneA⟩ :=
      peekAfter_spec hL1 h2
    refine ⟨hLA, by rw [htotA, htot1], by omega,
      ⟨[], utf8Check_nil, by rw [hvrA, hvr1, List.append_nil]⟩, ?_, hsomeA, ?_,
      by rw [hoffA, hoffE1]⟩
    · intro he
      rw [heofA, heof1]
      exact he
    · intro hne
      refine ⟨by rw [(hnoneA hne).1, hpk1], ?_⟩
      exact (decodeChar_none_iff hLA.2.2.2.1).mp (hnoneA hne).2

/-! The `content_behind` span helpers. -/

theorem contentBehind_eq_take {s : Utf8Reader} {a b : Nat}
    (hb : b ≤ s.validRegion.length) :
    s.contentBehind a b = (s.validRegion.drop a).take (b - a) := by
  rcases hs : s.src with bs | r
  · simp only [contentBehind, validRegion, hs]
    rw [List.drop_take]
  · simp only [contentBehind, validRegion, hs] at hb ⊢
    simp only [List.length_take] at hb
    rw [List.drop_take, List.drop_take, List.take_take]
    have hmin : (b - a) ⊓ (r.off_valid - a) = b - a := by omega
    rw [hmin]

theorem contentBehind_length {s : Utf8Reader} {a b : Nat} (hab : a ≤ b)
    (hb : b ≤ s.validRegion.length) :
    (s.contentBehind a b).length = b - a := by
  rw [contentBehind_eq_take hb]
  simp only [List.length_take, List.length_drop]
  omega

theorem off_le_validRegion_of_LInv {start : Nat} {s : Utf8Reader}
    (hL : LInv start s) : s.off_consumed ≤ s.validRegion.length :=
  off_consumed_le_validRegion_length hL.1

/-! The `take_while` loop and wrapper. -/

theorem takeWhileLoopF_spec (p : Nat → Bool) (fuel : Nat) :
    ∀ {start : Nat} {s : Utf8Reader} {a : Option (Nat × Nat)}
      {s' : Utf8Reader},
      LInv start s → takeWhileLoopF p fuel s = .ok (a, s') →
      LInv start s' ∧ s'.tot_consumed = s.tot_consumed ∧
      s.off_consumed ≤ s'.off_consumed ∧
      (∃ w, utf8Check w = .complete ∧ s'.validRegion = s.validRegion ++ w) ∧
      (s.eof = true → s'.eof = true) := by
  induction fuel with
  | zero => intro start s a s' hL h; simp [takeWhileLoopF] at h
  | succ fuel ih =>
    intro start s a s' hL h
    rw [takeWhileLoopF] at h
    cases hpk : s.peeking with
    | error e => rw [hpk] at h; exact absurd h (by simp)
    | ok pr =>
      obtain ⟨b, s1⟩ := pr
      rw [hpk] at h
      obtain ⟨hL1, htot1, hoff1, ⟨w1, hw1, hvr1⟩, heof1, hsome1, hnone1,
        hoffE1⟩ := peeking_spec hL hpk
      cases b with
      | none =>
        simp only [Except.ok.injEq, Prod.mk.injEq] at h
        obtain ⟨-, hs⟩ := h
        subst hs
        exact ⟨hL1, htot1, hoff1, ⟨w1, hw1, hvr1⟩, heof1⟩
      | some c =>
        obtain ⟨cp, len⟩ := c
        simp only [] at h
        by_cases hp2 : p cp
        · rw [if_pos hp2] at h
          obtain ⟨hL2, htot2, hoff2, ⟨w2, hw2, hvr2⟩, heof2⟩ := ih hL1 h
          exact ⟨hL2, htot2.trans htot1, le_trans hoff1 hoff2,
            ⟨w1 ++ w2, utf8Check_append _ _ hw1 hw2,
              by rw [hvr2, hvr1, List.append_assoc]⟩,
            fun he => heof2 (heof1 he)⟩
        · rw [if_neg hp2] at h
          simp only [Except.ok.injEq, Prod.mk.injEq] at h
          obtain ⟨-, hs⟩ := h
          subst hs
          exact ⟨hL1, htot1, hoff1, ⟨w1, hw1, hvr1⟩, heof1⟩

theorem LInv_start {s : Utf8Reader} (hI : Inv s) :
    LInv s.off_consumed ({ s with peeked := none } : Utf8Reader) := by
  obtain ⟨hB, hcc, hm⟩ := hI
  refine ⟨hB, le_refl _, ?_, hcc, ?_, hm⟩
  · show utf8Check (s.validRegion.drop s.off_consumed) = .complete
    rw [← content_eq_validRegion_drop]
    exact hcc
  · intro len hx
    cases hx

theorem Inv_of_LInv {start : Nat} {s : Utf8Reader} (hL : LInv start s) :
    Inv s :=
  ⟨hL.1, hL.2.2.2.1, hL.2.2.2.2.2⟩

theorem takeWhile_spec {p : Nat → Bool} {s : Utf8Reader} (hI : Inv s)
    {txt : List Nat} {ch : Option (Nat × Nat)} {s' : Utf8Reader}
    (h : s.takeWhile p = .ok ((txt, ch), s')) :
    Inv s' ∧ s'.tot_consumed = s.tot_consumed ∧
    s.off_consumed ≤ s'.off_consumed ∧
    s'.consumed = s.consumed + txt.length ∧
    (s.eof = true → s'.eof = true) := by
  rw [takeWhile] at h
  cases hlp : takeWhileLoopF p ({ s with peeked := none }
      : Utf8Reader).scanFuel { s with peeked := none } with
  | error e => rw [hlp] at h; exact absurd h (by simp)
  | ok pr =>
    obtain ⟨ch0, s1⟩ := pr
    rw [hlp] at h
    simp only [Except.ok.injEq, Prod.mk.injEq] at h
    obtain ⟨⟨htxt, hch⟩, hs⟩ := h
    subst hs
    subst hch
    obtain ⟨hL1, htot1, hoff1, ⟨w1, hw1, hvr1⟩, heof1⟩ :=
      takeWhileLoopF_spec p _ (LInv_start hI) hlp
    have hoffv : s1.off_consumed ≤ s1.validRegion.length :=
      off_le_validRegion_of_LInv hL1
    have hlen : txt.length = s1.off_consumed - s.off_consumed := by
      rw [← htxt]
      exact contentBehind_length hoff1 hoffv
    have htot1' : s1.tot_consumed = s.tot_consumed := htot1.trans rfl
    have hoff1' : s.off_consumed ≤ s1.off_consumed := hoff1
    refine ⟨Inv_of_LInv hL1, htot1', hoff1', ?_, heof1⟩
    simp only [consumed]
    omega

/-! A boundary split of complete text has a complete prefix. -/

theorem utf8Check_cont_head {b : Nat} (hb : cont b = true) (t : List Nat) :
    utf8Check (b :: t) = .invalid := by
  rw [cont_iff] at hb
  rw [utf8Check.eq_def]
  simp only []
  rw [if_neg (by omega), if_pos (by omega)]

theorem take_complete_aux (f : Nat) :
    ∀ (l : List Nat), l.length ≤ f → utf8Check l = .complete →
      ∀ k, utf8Check (l.drop k) = .complete →
        utf8Check (l.take k) = .complete := by
  induction f with
  | zero =>
    intro l hf _ k _
    rw [List.length_eq_zero.mp (Nat.le_zero.mp hf)]
    simp [utf8Check]
  | succ f ih =>
    intro l hf hl k hdk
    rcases Nat.eq_zero_or_pos k with rfl | hk
    · simp [utf8Check]
    rcases Nat.lt_or_ge k l.length with hkl | hkl
    · have hne : l ≠ [] := by
        intro hEq
        rw [hEq] at hkl
        simp at hkl
      obtain ⟨c, n, hd⟩ := utf8Check_complete_decode hne hl
      obtain ⟨hn1, hn2, -, hcontm, -, hst, -, htk⟩ := decodeChar_spec hd
      rcases Nat.lt_or_ge k n with hkn | hkn
      · obtain ⟨b, hgb, hcb⟩ := hcontm k hk hkn
        have hdrop : l.drop k = l.get ⟨k, hkl⟩ :: l.drop (k + 1) :=
          List.drop_eq_get_cons hkl
        rw [List.get?_eq_get hkl] at hgb
        have hbe : l.get ⟨k, hkl⟩ = b := by
          exact Option.some.inj hgb
        rw [hdrop, hbe, utf8Check_cont_head hcb] at hdk
        cases hdk
      · have htkn : utf8Check (l.take n) = .complete := by
          obtain ⟨-, -, -, -, -, hst2, -, -⟩ := decodeChar_spec htk
          rw [hst2, List.drop_take, Nat.sub_self]
          simp [utf8Check]
        have hdn : utf8Check (l.drop n) = .complete := hst ▸ hl
        have hdnk : utf8Check ((l.drop n).drop (k - n)) = .complete := by
          rw [List.drop_drop, Nat.add_sub_cancel' hkn]
          exact hdk
        have hrec := ih (l.drop n) (by simp only [List.length_drop]; omega)
          hdn (k - n) hdnk
        rw [show k = n + (k - n) by omega, List.take_add]
        exact utf8Check_append _ _ htkn hrec
    · rw [List.take_of_length_le hkl]
      exact hl

theorem take_complete_of_drop_complete {l : List Nat}
    (hl : utf8Check l = .complete) {k : Nat}
    (hdk : utf8Check (l.drop k) = .complete) :
    utf8Check (l.take k) = .complete :=
  take_complete_aux l.length l (le_refl _) hl k hdk

/-! The post-scan cursor restore used by `take_times` and `until`. -/

theorem UInv_of_LInv {start : Nat} {s : Utf8Reader} (hL : LInv start s) :
    UInv start s :=
  ⟨hL.1, hL.2.1, hL.2.2.1, hL.2.2.2.2.2⟩

theorem Inv_restore {start : Nat} {s1 : Utf8Reader} (hU : UInv start s1) :
    Inv ({ s1 with off_consumed := start } : Utf8Reader) ∧
    ({ s1 with off_consumed := start } : Utf8Reader).content
      = s1.validRegion.drop start := by
  obtain ⟨hB, hst, hsc, hm⟩ := hU
  have hcnt : ({ s1 with off_consumed := start } : Utf8Reader).content
      = s1.validRegion.drop start := by
    rw [content_eq_validRegion_drop]
    rfl
  refine ⟨⟨?_, by rw [hcnt]; exact hsc, hm⟩, hcnt⟩
  rcases hs : s1.src with bs | r
  · simp only [BInv, hs] at hB ⊢
    omega
  · simp only [BInv, hs] at hB ⊢
    obtain ⟨h1, h2, h3, h4, h5, h6⟩ := hB
    exact ⟨by omega, h2, h3, h4, h5, h6⟩

/-! The `take_times` loop and wrapper. -/

theorem takeTimesLoopF_spec (p : Nat → Bool) (rng : URange) (fuel : Nat) :
    ∀ {start times : Nat} {s : Utf8Reader} {res : Nat × Option (Nat × Nat)}
      {s' : Utf8Reader},
      LInv start s → takeTimesLoopF p rng fuel times s = .ok (res, s') →
      LInv start s' ∧ s'.tot_consumed = s.tot_consumed ∧
      s.off_consumed ≤ s'.off_consumed ∧ (s.eof = true → s'.eof = true) ∧
      (∃ w, utf8Check w = .complete ∧
        s'.validRegion = s.validRegion ++ w) ∧
      s.off_consumed + s.peeked.getD 0 ≤ s'.off_consumed ∧
      (∀ F, (s'.validRegion.drop
            (s.off_consumed + s.peeked.getD 0)).length < F →
        (s'.validRegion.drop (s.off_consumed + s.peeked.getD 0)).take
            (s'.off_consumed - (s.off_consumed + s.peeked.getD 0))
          = scanSpanF p rng F times
              (s'.validRegion.drop (s.off_consumed + s.peeked.getD 0))) := by
  induction fuel with
  | zero => intro start times s res s' hL h; simp [takeTimesLoopF] at h
  | succ fuel ih =>
    intro start times s res s' hL h
    rw [takeTimesLoopF] at h
    cases hpk : s.peeking with
    | error e => rw [hpk] at h; exact absurd h (by simp)
    | ok pr =>
      obtain ⟨b, s1⟩ := pr
      rw [hpk] at h
      obtain ⟨hL1, htot1, hoff1, ⟨w1, hw1, hvr1⟩, heof1, hsome1, hnone1,
        hoffE1⟩ := peeking_spec hL hpk
      cases b with
      | none =>
        simp only [Except.ok.injEq, Prod.mk.injEq] at h
        obtain ⟨-, hs⟩ := h
        subst hs
        obtain ⟨hpk1n, hcnt1n⟩ := hnone1 rfl
        refine ⟨hL1, htot1, hoff1, heof1, ⟨w1, hw1, hvr1⟩,
          le_of_eq hoffE1.symm, ?_⟩
        intro F hF
        have hreg : s1.validRegion.drop
            (s.off_consumed + s.peeked.getD 0) = [] := by
          rw [← hoffE1, ← content_eq_validRegion_drop]
          exact hcnt1n
        rw [hreg]
        obtain ⟨F0, rfl⟩ : ∃ F0, F = F0 + 1 := ⟨F - 1, by omega⟩
        simp [scanSpanF, decodeChar]
      | some c =>
        obtain ⟨cp, len⟩ := c
        simp only [] at h
        obtain ⟨hpk1s, hdec1⟩ := hsome1 cp len rfl
        have hreg1 : s1.validRegion.drop
            (s.off_consumed + s.peeked.getD 0) = s1.content := by
          rw [← hoffE1, ← content_eq_validRegion_drop]
        by_cases hp2 : rng.wantMore times && p cp
        · rw [if_pos hp2] at h
          obtain ⟨hL2, htot2, hoff2, heof2, ⟨w2, hw2, hvr2⟩, hfr2, hspan2⟩ :=
            ih hL1 h
          have h1len : 1 ≤ len := (decodeChar_spec hdec1).1
          have hoffv1 : s1.off_consumed ≤ s1.validRegion.length :=
            off_le_validRegion_of_LInv hL1
          have hoffv2 : s'.off_consumed ≤ s'.validRegion.length :=
            off_le_validRegion_of_LInv hL2
          rw [hpk1s] at hspan2 hfr2
          simp only [Option.getD_some] at hspan2 hfr2
          rw [hoffE1] at hspan2 hfr2
          refine ⟨hL2, htot2.trans htot1, le_trans hoff1 hoff2,
            fun he => heof2 (heof1 he),
            ⟨w1 ++ w2, utf8Check_append _ _ hw1 hw2,
              by rw [hvr2, hvr1, List.append_assoc]⟩, by omega, ?_⟩
          intro F hF
          obtain ⟨F0, rfl⟩ : ∃ F0, F = F0 + 1 := ⟨F - 1, by omega⟩
          rw [scanSpanF]
          have hregS : s'.validRegion.drop
              (s.off_consumed + s.peeked.getD 0) = s1.content ++ w2 := by
            rw [hvr2,
              List.drop_append_of_le_length (by omega), hreg1]
          have hdecS : decodeChar (s'.validRegion.drop
              (s.off_consumed + s.peeked.getD 0)) = some (cp, len) := by
            rw [hregS]
            exact (decodeChar_spec hdec1).2.2.2.2.1 w2
          rw [hdecS]
          simp only []
          rw [if_pos hp2]
          have hdd : (s'.validRegion.drop
                (s.off_consumed + s.peeked.getD 0)).drop len
              = s'.validRegion.drop
                  (s.off_consumed + s.peeked.getD 0 + len) := by
            rw [List.drop_drop, Nat.add_comm]
          have hlenF : (s'.validRegion.drop
              (s.off_consumed + s.peeked.getD 0 + len)).length < F0 := by
            simp only [List.length_drop] at hF ⊢
            omega
          rw [show s'.off_consumed - (s.off_consumed + s.peeked.getD 0)
              = len + (s'.off_consumed
                  - (s.off_consumed + s.peeked.getD 0 + len)) by omega,
            List.take_add, hdd, hspan2 F0 hlenF]
        · rw [if_neg hp2] at h
          simp only [Except.ok.injEq, Prod.mk.injEq] at h
          obtain ⟨-, hs⟩ := h
          subst hs
          refine ⟨hL1, htot1, hoff1, heof1, ⟨w1, hw1, hvr1⟩,
            le_of_eq hoffE1.symm, ?_⟩
          intro F hF
          rw [hreg1]
          rw [show s1.off_consumed
              - (s.off_consumed + s.peeked.getD 0) = 0 from by omega]
          rw [List.take_zero]
          obtain ⟨F0, rfl⟩ : ∃ F0, F = F0 + 1 := ⟨F - 1, by omega⟩
          rw [scanSpanF, hdec1]
          simp only []
          rw [if_neg hp2]

theorem takeTimes_spec {p : Nat → Bool} {rng : URange} {s : Utf8Reader}
    (hI : Inv s) {res : Except (List Nat) (List Nat)}
    {ch : Option (Nat × Nat)} {s' : Utf8Reader}
    (h : s.takeTimes p rng = .ok ((res, ch), s')) :
    Inv s' ∧ (s.eof = true → s'.eof = true) ∧ s.consumed ≤ s'.consumed ∧
    (∀ txt, res = .ok txt → s'.tot_consumed = s.tot_consumed ∧
      s.off_consumed ≤ s'.off_consumed ∧
      s'.consumed = s.consumed + txt.length) ∧
    (∀ txt, res = .error txt → s'.consumed = s.consumed ∧
      txt = scanSpan p rng s'.content ∧
      txt <+: s'.content ∧ utf8Check txt = .complete) := by
  rw [takeTimes] at h
  cases hlp : takeTimesLoopF p rng ({ s with peeked := none }
      : Utf8Reader).scanFuel 0 { s with peeked := none } with
  | error e => rw [hlp] at h; exact absurd h (by simp)
  | ok pr =>
    obtain ⟨tc, s1⟩ := pr
    obtain ⟨times, ch0⟩ := tc
    rw [hlp] at h
    simp only [] at h
    obtain ⟨hL1, htot1, hoff1, heof1, ⟨w1, hw1, hvr1⟩, hfr1, hspanL⟩ :=
      takeTimesLoopF_spec p rng _ (LInv_start hI) hlp
    have hspanL' : ∀ F, (s1.validRegion.drop s.off_consumed).length < F →
        (s1.validRegion.drop s.off_consumed).take
            (s1.off_consumed - s.off_consumed)
          = scanSpanF p rng F 0 (s1.validRegion.drop s.off_consumed) :=
      hspanL
    have htot1' : s1.tot_consumed = s.tot_consumed := htot1.trans rfl
    have hoff1' : s.off_consumed ≤ s1.off_consumed := hoff1
    have hoffv : s1.off_consumed ≤ s1.validRegion.length :=
      off_le_validRegion_of_LInv hL1
    have hspan : s1.contentBehind s.off_consumed s1.off_consumed
        = (s1.validRegion.drop s.off_consumed).take
            (s1.off_consumed - s.off_consumed) :=
      contentBehind_eq_take hoffv
    split_ifs at h with hcont
    · simp only [Except.ok.injEq, Prod.mk.injEq] at h
      obtain ⟨⟨hres, -⟩, hs⟩ := h
      subst hs
      subst hres
      have hlen : (s1.contentBehind s.off_consumed s1.off_consumed).length
          = s1.off_consumed - s.off_consumed :=
        contentBehind_length hoff1' hoffv
      refine ⟨Inv_of_LInv hL1, heof1, ?_, ?_, ?_⟩
      · simp only [consumed]
        omega
      · intro txt htxt
        have htxte : s1.contentBehind s.off_consumed s1.off_consumed = txt :=
          Except.ok.inj htxt
        refine ⟨htot1', hoff1', ?_⟩
        rw [← htxte, hlen]
        simp only [consumed]
        omega
      · intro txt htxt
        cases htxt
    · simp only [Except.ok.injEq, Prod.mk.injEq] at h
      obtain ⟨⟨hres, -⟩, hs⟩ := h
      subst hs
      subst hres
      obtain ⟨hInv2, hcnt2⟩ := Inv_restore (UInv_of_LInv hL1)
      have hcS : utf8Check (s1.validRegion.drop s.off_consumed)
          = .complete := hL1.2.2.1
      have hdS : utf8Check ((s1.validRegion.drop s.off_consumed).drop
          (s1.off_consumed - s.off_consumed)) = .complete := by
        rw [List.drop_drop, Nat.add_sub_cancel' hoff1']
        rw [← content_eq_validRegion_drop]
        exact hL1.2.2.2.1
      refine ⟨hInv2, heof1, ?_, ?_, ?_⟩
      · show s.consumed ≤ s1.tot_consumed + s.off_consumed
        simp only [consumed]
        omega
      · intro txt htxt
        cases htxt
      · intro txt htxt
        have htxte : s1.contentBehind s.off_consumed s1.off_consumed = txt :=
          Except.error.inj htxt
        subst htxte
        refine ⟨?_, ?_, ?_, ?_⟩
        · show s1.tot_consumed + s.off_consumed = s.consumed
          simp only [consumed]
          omega
        · rw [hspan, scanSpan, hcnt2]
          exact hspanL' _ (Nat.lt_succ_self _)
        · rw [hcnt2, hspan]
          exact ⟨_, List.take_append_drop _ _⟩
        · rw [hspan]
          exact take_complete_of_drop_complete hcS hdS

/-! The `until` loops. -/

theorem head?_drop_get? (l : List Nat) (n : Nat) :
    (l.drop n).head? = l.get? n := by
  rw [List.head?_drop, List.get?_eq_getElem?]

theorem UInv_start {s : Utf8Reader} (hI : Inv s) :
    UInv s.off_consumed s := by
  obtain ⟨hB, hcc, hm⟩ := hI
  refine ⟨hB, le_refl _, ?_, hm⟩
  rw [← content_eq_validRegion_drop]
  exact hcc

theorem untilIndLoopF_spec (ind : Nat → Option Nat)
    (hind : ∀ b len, ind b = some len → cont b = false) (fuel : Nat) :
    ∀ {start : Nat} {s : Utf8Reader} {a : Option Nat} {s' : Utf8Reader},
      UInv start s → untilIndLoopF ind fuel s = .ok (a, s') →
      UInv start s' ∧ s'.tot_consumed = s.tot_consumed ∧
      s.off_consumed ≤ s'.off_consumed ∧ s'.peeked = s.peeked ∧
      (s.eof = true → s'.eof = true) ∧
      (∀ len, a = some len → utf8Check s'.content = .complete ∧
        ∃ b, s'.content.head? = some b ∧ ind b = some len) ∧
      (a = none → s'.off_consumed = s'.validRegion.length) := by
  induction fuel with
  | zero => intro start s a s' hU h; simp [untilIndLoopF] at h
  | succ fuel ih =>
    intro start s a s' hU h
    obtain ⟨hB, hst, hsc, hm⟩ := hU
    rw [untilIndLoopF] at h
    cases hf : findInd ind s.content with
    | some p =>
      obtain ⟨idx, len⟩ := p
      rw [hf] at h
      simp only [Except.ok.injEq, Prod.mk.injEq] at h
      obtain ⟨ha, hs⟩ := h
      subst hs
      obtain ⟨b, hgb, hib⟩ := findInd_some ind hf
      have hidx : idx < s.content.length := (List.get?_eq_some.mp hgb).fst
      have hoffv : s.off_consumed ≤ s.validRegion.length :=
        off_consumed_le_validRegion_length hB
      have hclen : s.content.length
          = s.validRegion.length - s.off_consumed :=
        content_length_of_BInv hB
      have hgv : s.validRegion.get? (s.off_consumed + idx) = some b := by
        rw [content_eq_validRegion_drop, List.get?_drop] at hgb
        exact hgb
      have hcd : utf8Check (s.validRegion.drop (s.off_consumed + idx))
          = .complete := by
        have hpos : (s.validRegion.drop start).get?
            (s.off_consumed - start + idx) = some b := by
          rw [List.get?_drop,
            show start + (s.off_consumed - start + idx)
              = s.off_consumed + idx by omega]
          exact hgv
        have := drop_complete_of_noncont hsc hpos (hind b len hib)
        rw [List.drop_drop] at this
        rw [show start + (s.off_consumed - start + idx)
            = s.off_consumed + idx by omega] at this
        exact this
      have hcnt : ({ s with off_consumed := s.off_consumed + idx }
          : Utf8Reader).content
          = s.validRegion.drop (s.off_consumed + idx) := by
        rw [content_advance, content_eq_validRegion_drop, List.drop_drop,
          Nat.add_comm]
      refine ⟨⟨BInv_advance hB (le_of_lt hidx),
        by show start ≤ s.off_consumed + idx; omega, hsc, hm⟩,
        rfl, by show s.off_consumed ≤ s.off_consumed + idx; omega, rfl,
        fun he => he, ?_, ?_⟩
      · intro len2 hlen2
        rw [← ha] at hlen2
        have hlen2e : len = len2 := Option.some.inj hlen2
        subst hlen2e
        refine ⟨by rw [hcnt]; exact hcd, b, ?_, hib⟩
        rw [hcnt, head?_drop_get?]
        exact hgv
      · intro hn
        rw [← ha] at hn
        cases hn
    | none =>
      rw [hf] at h
      simp only [] at h
      have hB1 : BInv ({ s with
          off_consumed := s.off_consumed + s.content.length }
          : Utf8Reader) :=
        BInv_advance hB (le_refl _)
      have hoffv : s.off_consumed ≤ s.validRegion.length :=
        off_consumed_le_validRegion_length hB
      have hclen : s.content.length
          = s.validRegion.length - s.off_consumed :=
        content_length_of_BInv hB
      split_ifs at h with heof1
      · simp only [Except.ok.injEq, Prod.mk.injEq] at h
        obtain ⟨ha, hs⟩ := h
        subst hs
        refine ⟨⟨hB1,
          by show start ≤ s.off_consumed + s.content.length; omega,
          hsc, hm⟩, rfl,
          by show s.off_consumed ≤ s.off_consumed + s.content.length; omega,
          rfl, fun he => he, ?_, ?_⟩
        · intro len2 hlen2
          rw [← ha] at hlen2
          cases hlen2
        · intro hn
          show s.off_consumed + s.content.length = s.validRegion.length
          omega
      · cases hpm : ({ s with
            off_consumed := s.off_consumed + s.content.length }
            : Utf8Reader).pullMore with
        | error e => rw [hpm] at h; exact absurd h (by simp)
        | ok s2 =>
          rw [hpm] at h
          obtain ⟨hB2, hoff2, htot2, hpk2, ⟨w2, hw2, hvr2⟩, -, heof2, hbor2,
            hrd2⟩ := pullMore_spec hB1 hpm
          have hU2 : UInv start s2 := by
            refine ⟨hB2, ?_,
              drop_start_append hB1
                (by show start ≤ s.off_consumed + s.content.length; omega)
                hsc hw2 hvr2,
              srcEof_preserved (show (match ({ s with off_consumed
                  := s.off_consumed + s.content.length }
                  : Utf8Reader).src with
                | .borrowed _ => ({ s with off_consumed
                    := s.off_consumed + s.content.length }
                    : Utf8Reader).eof = true
                | .reader _ => True) from hm) hbor2 hrd2⟩
            rw [hoff2]
            show start ≤ s.off_consumed + s.content.length
            omega
          obtain ⟨hU3, htot3, hoff3, hpk3, heof3, hsome3, hnone3⟩ :=
            ih hU2 h
          refine ⟨hU3, by rw [htot3, htot2], ?_, by rw [hpk3, hpk2],
            ?_, hsome3, hnone3⟩
          · rw [hoff2] at hoff3
            have hoff3e : s.off_consumed + s.content.length
                ≤ s'.off_consumed := hoff3
            omega
          · intro he
            exact absurd he heof1

theorem untilLoopF_spec {δ : Type} (P : PatFns δ) (hG : GoodPatF P)
    (start : Nat) (fuel : Nat) :
    ∀ {s : Utf8Reader} {a : Option (List Nat × δ)} {s' : Utf8Reader},
      UInv start s → untilLoopF P start fuel s = .ok (a, s') →
      UInv start s' ∧ s'.tot_consumed = s.tot_consumed ∧
      s.off_consumed ≤ s'.off_consumed ∧ s'.peeked = s.peeked ∧
      (s.eof = true → s'.eof = true) ∧
      (∀ r, a = some r → utf8Check s'.content = .complete) ∧
      (a = none → s'.off_consumed = s'.validRegion.length) := by
  induction fuel with
  | zero => intro s a s' hU h; simp [untilLoopF] at h
  | succ fuel ih =>
    intro s a s' hU h
    rw [untilLoopF] at h
    cases hil : s.untilIndLoopF P.ind s.scanFuel with
    | error e => rw [hil] at h; exact absurd h (by simp)
    | ok pr =>
      obtain ⟨oL, s1⟩ := pr
      rw [hil] at h
      obtain ⟨hU1, htot1, hoff1, hpk1, heof1, hsome1, hnone1⟩ :=
        untilIndLoopF_spec P.ind hG.ind_not_cont _ hU hil
      obtain ⟨hB1, hst1, hsc1, hm1⟩ := hU1
      have hU1 : UInv start s1 := ⟨hB1, hst1, hsc1, hm1⟩
      cases oL with
      | none =>
        simp only [Except.ok.injEq, Prod.mk.injEq] at h
        obtain ⟨ha, hs⟩ := h
        subst hs
        refine ⟨hU1, htot1, hoff1, hpk1, heof1, ?_, ?_⟩
        · intro r hr
          rw [← ha] at hr
          cases hr
        · intro _
          exact hnone1 rfl
      | some len =>
        simp only [] at h
        cases hal : s1.pullAtLeast len with
        | error e => rw [hal] at h; exact absurd h (by simp)
        | ok pr2 =>
          obtain ⟨bb, s2⟩ := pr2
          rw [hal] at h
          simp only [] at h
          obtain ⟨hB2, hoff2, htot2, hpk2, ⟨w2, hw2, hvr2⟩, -, heof2, hbor2,
            hrd2⟩ := pullAtLeast_spec hU1.1 hal
          obtain ⟨hcc1, b, hhb1, hib1⟩ := hsome1 len rfl
          have hU2 : UInv start s2 := by
            refine ⟨hB2, by omega,
              drop_start_append hU1.1 hU1.2.1 hU1.2.2.1 hw2 hvr2,
              srcEof_preserved hU1.2.2.2 hbor2 hrd2⟩
          have hcnt2 : s2.content = s1.content ++ w2 :=
            content_append_of_validRegion hU1.1 hoff2 hvr2
          have hcc2 : utf8Check s2.content = .complete := by
            rw [hcnt2]
            exact utf8Check_append _ _ hcc1 hw2
          have hne2 : s2.content ≠ [] := by
            rw [hcnt2]
            intro hx
            rcases List.append_eq_nil.mp hx with ⟨hx1, -⟩
            rw [hx1] at hhb1
            cases hhb1
          cases hmat : P.mat s2.content with
          | some md =>
            obtain ⟨mlen, d⟩ := md
            rw [hmat] at h
            simp only [Except.ok.injEq, Prod.mk.injEq] at h
            obtain ⟨ha, hs⟩ := h
            subst hs
            obtain ⟨hml, hmd⟩ := hG.mat_bound _ _ _ hcc2 hmat
            have hcnt3 : ({ s2 with
                off_consumed := s2.off_consumed + mlen }
                : Utf8Reader).content = s2.content.drop mlen :=
              content_advance s2 mlen
            refine ⟨⟨BInv_advance hB2 hml,
              by show start ≤ s2.off_consumed + mlen; omega,
              hU2.2.2.1, hU2.2.2.2⟩, ?_, ?_,
              by show s2.peeked = s.peeked; rw [hpk2, hpk1], ?_, ?_, ?_⟩
            · show s2.tot_consumed = s.tot_consumed
              omega
            · show s.off_consumed ≤ s2.off_consumed + mlen
              omega
            · intro he
              show s2.eof = true
              exact heof2 (heof1 he) |>.1
            · intro r hr
              rw [hcnt3]
              exact hmd
            · intro hn
              rw [← ha] at hn
              cases hn
          | none =>
            rw [hmat] at h
            have hlt2 : s2.off_consumed < s2.validRegion.length := by
              have h1 : s2.content.length = s2.validRegion.length
                  - s2.off_consumed := content_length_of_BInv hB2
              have h2 : s2.content.length ≠ 0 := by
                intro hx
                exact hne2 (List.length_eq_zero.mp hx)
              have h3 : s2.off_consumed ≤ s2.validRegion.length :=
                off_consumed_le_validRegion_length hB2
              omega
            have hU2' : UInv start ({ s2 with
                off_consumed := s2.off_consumed + 1 } : Utf8Reader) := by
              refine ⟨BInv_advance hB2 ?_,
                by show start ≤ s2.off_consumed + 1; omega,
                hU2.2.2.1, hU2.2.2.2⟩
              have h1 : s2.content.length = s2.validRegion.length
                  - s2.off_consumed := content_length_of_BInv hB2
              omega
            obtain ⟨hU3, htot3, hoff3, hpk3, heof3, hsome3, hnone3⟩ :=
              ih hU2' h
            refine ⟨hU3, ?_, ?_, hpk3.trans hpk2 |>.trans hpk1, ?_,
              hsome3, hnone3⟩
            · show s'.tot_consumed = s.tot_consumed
              have : ({ s2 with off_consumed := s2.off_consumed + 1 }
                  : Utf8Reader).tot_consumed = s2.tot_consumed := rfl
              omega
            · have h4 : ({ s2 with off_consumed := s2.off_consumed + 1 }
                  : Utf8Reader).off_consumed = s2.off_consumed + 1 := rfl
              omega
            · intro he
              refine heof3 ?_
              show s2.eof = true
              exact heof2 (heof1 he) |>.1

theorem untilP_spec {δ : Type} {P : PatFns δ} (hG : GoodPatF P)
    {s : Utf8Reader} (hI : Inv s)
    {res : Except (List Nat) (List Nat × δ)} {s' : Utf8Reader}
    (h : s.untilP P = .ok (res, s')) :
    Inv s' ∧ s'.peeked = s.peeked ∧ (s.eof = true → s'.eof = true) ∧
    s.consumed ≤ s'.consumed ∧
    (∀ txt, res = .error txt → s'.consumed = s.consumed
      ∧ txt = s'.content) := by
  rw [untilP] at h
  cases hlp : untilLoopF P s.off_consumed s.scanFuel s with
  | error e => rw [hlp] at h; exact absurd h (by simp)
  | ok pr =>
    obtain ⟨oR, s1⟩ := pr
    rw [hlp] at h
    obtain ⟨hU1, htot1, hoff1, hpk1, heof1, hsome1, hnone1⟩ :=
      untilLoopF_spec P hG s.off_consumed _ (UInv_start hI) hlp
    cases oR with
    | some r =>
      simp only [Except.ok.injEq, Prod.mk.injEq] at h
      obtain ⟨hres, hs⟩ := h
      subst hs
      subst hres
      refine ⟨⟨hU1.1, hsome1 r rfl, hU1.2.2.2⟩, hpk1, heof1, ?_, ?_⟩
      · simp only [consumed]
        omega
      · intro txt htxt
        cases htxt
    | none =>
      simp only [Except.ok.injEq, Prod.mk.injEq] at h
      obtain ⟨hres, hs⟩ := h
      subst hs
      subst hres
      have hend : s1.off_consumed = s1.validRegion.length := hnone1 rfl
      obtain ⟨hInv2, hcnt2⟩ := Inv_restore hU1
      have hoffv1 : s1.off_consumed ≤ s1.validRegion.length := by omega
      have hspan : s1.contentBehind s.off_consumed s1.off_consumed
          = (s1.validRegion.drop s.off_consumed).take
              (s1.off_consumed - s.off_consumed) :=
        contentBehind_eq_take hoffv1
      refine ⟨hInv2, hpk1, heof1, ?_, ?_⟩
      · show s.consumed ≤ s1.tot_consumed + s.off_consumed
        simp only [consumed]
        omega
      · intro txt htxt
        have htxte : s1.contentBehind s.off_consumed s1.off_consumed
            = txt := Except.error.inj htxt
        subst htxte
        refine ⟨?_, ?_⟩
        · show s1.tot_consumed + s.off_consumed = s.consumed
          simp only [consumed]
          omega
        · rw [hspan, hcnt2]
          rw [List.take_of_length_le]
          simp only [List.length_drop]
          omega

/-! The single-character operations and `matches`. -/

theorem Inv_of_pull {s s' : Utf8Reader} (hI : Inv s) (h : s.pull = .ok s') :
    Inv s' ∧ s'.consumed = s.consumed ∧ s'.peeked = s.peeked ∧
    (∃ w, utf8Check w = .complete ∧ s'.content = s.content ++ w) ∧
    (s.eof = true → s'.eof = true) := by
  obtain ⟨hB, hcc, hm⟩ := hI
  obtain ⟨hB1, hcons1, hpk1, ⟨w1, hw1, hct1⟩, -, heof1, hbor1, hrd1⟩ :=
    pull_spec hB h
  refine ⟨⟨hB1, ?_, srcEof_preserved hm hbor1 hrd1⟩, hcons1, hpk1,
    ⟨w1, hw1, hct1⟩, fun he => (heof1 he).1⟩
  rw [hct1]
  exact utf8Check_append _ _ hcc hw1

theorem Inv_of_pullMore {s s' : Utf8Reader} (hI : Inv s)
    (h : s.pullMore = .ok s') :
    Inv s' ∧ s'.off_consumed = s.off_consumed ∧
    s'.tot_consumed = s.tot_consumed ∧ s'.peeked = s.peeked ∧
    (s.eof = true → s'.eof = true) := by
  obtain ⟨hB, hcc, hm⟩ := hI
  obtain ⟨hB1, hoff1, htot1, hpk1, ⟨w1, hw1, hvr1⟩, -, heof1, hbor1, hrd1⟩ :=
    pullMore_spec hB h
  refine ⟨⟨hB1, ?_, srcEof_preserved hm hbor1 hrd1⟩, hoff1, htot1, hpk1,
    fun he => (heof1 he).1⟩
  rw [content_append_of_validRegion hB hoff1 hvr1]
  exact utf8Check_append _ _ hcc hw1

theorem Inv_of_pullAtLeast {n : Nat} {s : Utf8Reader} (hI : Inv s)
    {b : Bool} {s' : Utf8Reader} (h : s.pullAtLeast n = .ok (b, s')) :
    Inv s' ∧ s'.off_consumed = s.off_consumed ∧
    s'.tot_consumed = s.tot_consumed ∧ s'.peeked = s.peeked ∧
    (s.eof = true → s'.eof = true) := by
  obtain ⟨hB, hcc, hm⟩ := hI
  obtain ⟨hB1, hoff1, htot1, hpk1, ⟨w1, hw1, hvr1⟩, -, heof1, hbor1, hrd1⟩ :=
    pullAtLeast_spec hB h
  refine ⟨⟨hB1, ?_, srcEof_preserved hm hbor1 hrd1⟩, hoff1, htot1, hpk1,
    fun he => (heof1 he).1⟩
  rw [content_append_of_validRegion hB hoff1 hvr1]
  exact utf8Check_append _ _ hcc hw1

/-- Advance the cursor of an invariant-satisfying state over a decoded
or matched prefix of the content whose remainder stays valid. -/
theorem Inv_advance {s : Utf8Reader} (hI : Inv s) {k : Nat}
    (hk : k ≤ s.content.length)
    (hrest : utf8Check (s.content.drop k) = .complete) :
    Inv ({ s with off_consumed := s.off_consumed + k } : Utf8Reader) ∧
    ({ s with off_consumed := s.off_consumed + k } : Utf8Reader).consumed
      = s.consumed + k := by
  obtain ⟨hB, hcc, hm⟩ := hI
  refine ⟨⟨BInv_advance hB hk, ?_, hm⟩, ?_⟩
  · rw [content_advance]
    exact hrest
  · show s.tot_consumed + (s.off_consumed + k) = s.consumed + k
    simp only [consumed]
    omega

theorem consume_spec {n : Nat} {s : Utf8Reader} (hI : Inv s)
    {s' : Utf8Reader} (h : s.consume n = some s') :
    Inv s' ∧ s'.consumed = s.consumed + n ∧ s'.peeked = s.peeked ∧
    s'.eof = s.eof := by
  rw [consume] at h
  split_ifs at h with hbd
  · have hs : s' = { s with off_consumed := s.off_consumed + n } :=
      (Option.some.inj h).symm
    subst hs
    obtain ⟨hInv, hcons⟩ := Inv_advance hI (isCharBoundary_le hbd)
      (drop_complete_of_boundary hI.2.1 hbd)
    exact ⟨hInv, hcons, rfl, rfl⟩

theorem next_spec {s : Utf8Reader} (hI : Inv s)
    {a : Option (Nat × Nat)} {s' : Utf8Reader} (h : s.next = .ok (a, s')) :
    Inv s' ∧ s'.peeked = s.peeked ∧ (s.eof = true → s'.eof = true) ∧
    s.consumed ≤ s'.consumed ∧
    (∀ cp len, a = some (cp, len) → s'.consumed = s.consumed + len) ∧
    (a = none → s'.consumed = s.consumed) := by
  rw [next] at h
  cases hp : s.pull with
  | error e => rw [hp] at h; exact absurd h (by simp)
  | ok s1 =>
    rw [hp] at h
    simp only [] at h
    obtain ⟨hI1, hcons1, hpk1, ⟨w1, hw1, hct1⟩, heof1⟩ := Inv_of_pull hI hp
    cases hd : decodeChar s1.content with
    | none =>
      rw [hd] at h
      simp only [Except.ok.injEq, Prod.mk.injEq] at h
      obtain ⟨ha, hs⟩ := h
      subst hs
      refine ⟨hI1, hpk1, heof1, le_of_eq hcons1.symm, ?_, fun _ => hcons1⟩
      intro cp len hx
      rw [← ha] at hx
      cases hx
    | some p =>
      obtain ⟨cp, len⟩ := p
      rw [hd] at h
      simp only [Except.ok.injEq, Prod.mk.injEq] at h
      obtain ⟨ha, hs⟩ := h
      subst hs
      obtain ⟨-, hlen, -, -, -, hstat, -, -⟩ := decodeChar_spec hd
      obtain ⟨hInv2, hcons2⟩ := Inv_advance hI1 hlen (hstat ▸ hI1.2.1)
      refine ⟨hInv2, hpk1, heof1, ?_, ?_, ?_⟩
      · rw [hcons2, hcons1]
        omega
      · intro cp2 len2 hx
        rw [← ha] at hx
        obtain ⟨-, h2⟩ := Prod.mk.injEq .. ▸ Option.some.inj hx
        rw [hcons2, hcons1, h2]
      · intro hx
        rw [← ha] at hx
        cases hx

theorem peek_spec {s : Utf8Reader} (hI : Inv s)
    {a : Option (Nat × Nat)} {s' : Utf8Reader} (h : s.peek = .ok (a, s')) :
    Inv s' ∧ s'.peeked = s.peeked ∧ (s.eof = true → s'.eof = true) ∧
    s'.consumed = s.consumed := by
  rw [peek] at h
  cases hp : s.pull with
  | error e => rw [hp] at h; exact absurd h (by simp)
  | ok s1 =>
    rw [hp] at h
    simp only [Except.ok.injEq, Prod.mk.injEq] at h
    obtain ⟨-, hs⟩ := h
    subst hs
    obtain ⟨hI1, hcons1, hpk1, -, heof1⟩ := Inv_of_pull hI hp
    exact ⟨hI1, hpk1, heof1, hcons1⟩

theorem takeOnce_spec {p : Nat → Bool} {s : Utf8Reader} (hI : Inv s)
    {a : Option (Nat × Nat)} {s' : Utf8Reader}
    (h : s.takeOnce p = .ok (a, s')) :
    Inv s' ∧ (s.eof = true → s'.eof = true) ∧
    s.consumed ≤ s'.consumed ∧
    (∀ cp len, a = some (cp, len) → s'.consumed = s.consumed + len) ∧
    (a = none → s'.consumed = s.consumed) := by
  rw [takeOnce] at h
  cases hpk : s.peek with
  | error e => rw [hpk] at h; exact absurd h (by simp)
  | ok pr =>
    obtain ⟨b, s1⟩ := pr
    rw [hpk] at h
    obtain ⟨hI1, hpk1, heof1, hcons1⟩ := peek_spec hI hpk
    have hdec : b = decodeChar s1.content ∧ s.pull = .ok s1 := by
      rw [peek] at hpk
      cases hp : s.pull with
      | error e => rw [hp] at hpk; exact absurd hpk (by simp)
      | ok s2 =>
        rw [hp] at hpk
        simp only [Except.ok.injEq, Prod.mk.injEq] at hpk
        obtain ⟨hb, hs⟩ := hpk
        subst hs
        exact ⟨hb.symm, rfl⟩
    cases b with
    | none =>
      simp only [] at h
      simp only [Except.ok.injEq, Prod.mk.injEq] at h
      obtain ⟨ha, hs⟩ := h
      subst hs
      refine ⟨hI1, heof1, le_of_eq hcons1.symm, ?_, fun _ => hcons1⟩
      intro cp len hx
      rw [← ha] at hx
      cases hx
    | some c =>
      obtain ⟨cp, len⟩ := c
      simp only [] at h
      split_ifs at h with hpcp
      · simp only [Except.ok.injEq, Prod.mk.injEq] at h
        obtain ⟨ha, hs⟩ := h
        subst hs
        obtain ⟨-, hlen, -, -, -, hstat, -, -⟩ :=
          decodeChar_spec hdec.1.symm
        obtain ⟨hInv2, hcons2⟩ := Inv_advance hI1 hlen
          (hstat ▸ hI1.2.1)
        refine ⟨hInv2, heof1, ?_, ?_, ?_⟩
        · rw [hcons2, hcons1]
          omega
        · intro cp2 len2 hx
          rw [← ha] at hx
          have h2 : len = len2 := by
            have := Option.some.inj hx
            exact (Prod.mk.injEq .. ▸ this).2
          rw [hcons2, hcons1, h2]
        · intro hx
          rw [← ha] at hx
          cases hx
      · simp only [Except.ok.injEq, Prod.mk.injEq] at h
        obtain ⟨ha, hs⟩ := h
        subst hs
        refine ⟨hI1, heof1, le_of_eq hcons1.symm, ?_, fun _ => hcons1⟩
        intro cp2 len2 hx
        rw [← ha] at hx
        cases hx

theorem matchesP_spec {δ : Type} {P : PatFns δ} (hG : GoodPatF P)
    {s : Utf8Reader} (hI : Inv s) {a : Option δ} {s' : Utf8Reader}
    (h : s.matchesP P = .ok (a, s')) :
    Inv s' ∧ s'.peeked = s.peeked ∧ (s.eof = true → s'.eof = true) ∧
    s.consumed ≤ s'.consumed ∧
    (a = none → s'.consumed = s.consumed) := by
  rw [matchesP] at h
  cases hp : s.pull with
  | error e => rw [hp] at h; exact absurd h (by simp)
  | ok s1 =>
    rw [hp] at h
    simp only [] at h
    obtain ⟨hI1, hcons1, hpk1, ⟨w1, hw1, hct1⟩, heof1⟩ := Inv_of_pull hI hp
    cases hhd : s1.content.head? with
    | none =>
      rw [hhd] at h
      simp only [Except.ok.injEq, Prod.mk.injEq] at h
      obtain ⟨ha, hs⟩ := h
      subst hs
      exact ⟨hI1, hpk1, heof1, le_of_eq hcons1.symm, fun _ => hcons1⟩
    | some b =>
      rw [hhd] at h
      simp only [] at h
      cases hib : P.ind b with
      | none =>
        rw [hib] at h
        simp only [Except.ok.injEq, Prod.mk.injEq] at h
        obtain ⟨ha, hs⟩ := h
        subst hs
        exact ⟨hI1, hpk1, heof1, le_of_eq hcons1.symm, fun _ => hcons1⟩
      | some len =>
        rw [hib] at h
        simp only [] at h
        cases hal : s1.pullAtLeast len with
        | error e => rw [hal] at h; exact absurd h (by simp)
        | ok pr2 =>
          obtain ⟨bb, s2⟩ := pr2
          rw [hal] at h
          simp only [] at h
          obtain ⟨hI2, hoff2, htot2, hpk2, heof2⟩ := Inv_of_pullAtLeast hI1 hal
          have hcons2 : s2.consumed = s1.consumed := by
            simp only [consumed]
            omega
          cases hmat : P.mat s2.content with
          | none =>
            rw [hmat] at h
            simp only [Except.ok.injEq, Prod.mk.injEq] at h
            obtain ⟨ha, hs⟩ := h
            subst hs
            exact ⟨hI2, by rw [hpk2, hpk1], fun he => heof2 (heof1 he),
              le_of_eq (hcons2.trans hcons1).symm,
              fun _ => hcons2.trans hcons1⟩
          | some md =>
            obtain ⟨mlen, d⟩ := md
            rw [hmat] at h
            simp only [Except.ok.injEq, Prod.mk.injEq] at h
            obtain ⟨ha, hs⟩ := h
            subst hs
            obtain ⟨hml, hmd⟩ := hG.mat_bound _ _ _ hI2.2.1 hmat
            obtain ⟨hInv3, hcons3⟩ := Inv_advance hI2 hml hmd
            refine ⟨hInv3, by show s2.peeked = s.peeked; rw [hpk2, hpk1],
              fun he => heof2 (heof1 he), ?_, ?_⟩
            · rw [hcons3, hcons2, hcons1]
              omega
            · intro hx
              rw [← ha] at hx
              cases hx

/-! The step relation: every public operation preserves the invariant,
never decreases `consumed()`, and never clears `eof`. -/

theorem step_facts {s s' : Utf8Reader} (hI : Inv s) (hS : Step s s') :
    Inv s' ∧ s.consumed ≤ s'.consumed ∧ (s.eof = true → s'.eof = true) := by
  cases hS with
  | next _ a _ h =>
    obtain ⟨hInv, -, heof, hmono, -, -⟩ := next_spec hI h
    exact ⟨hInv, hmono, heof⟩
  | peek _ a _ h =>
    obtain ⟨hInv, -, heof, hcons⟩ := peek_spec hI h
    exact ⟨hInv, le_of_eq hcons.symm, heof⟩
  | consume _ n _ h =>
    obtain ⟨hInv, hcons, -, heq⟩ := consume_spec hI h
    exact ⟨hInv, by omega, fun he => by rw [heq]; exact he⟩
  | takeOnce _ p a _ h =>
    obtain ⟨hInv, heof, hmono, -, -⟩ := takeOnce_spec hI h
    exact ⟨hInv, hmono, heof⟩
  | takeWhile _ p a _ h =>
    obtain ⟨txt, ch⟩ := a
    obtain ⟨hInv, -, -, hcons, heof⟩ := takeWhile_spec hI h
    exact ⟨hInv, by omega, heof⟩
  | takeTimes _ p rng a _ h =>
    obtain ⟨res, ch⟩ := a
    obtain ⟨hInv, heof, hmono, -, -⟩ := takeTimes_spec hI h
    exact ⟨hInv, hmono, heof⟩
  | matchesP _ P a _ hG h =>
    obtain ⟨hInv, -, heof, hmono, -⟩ := matchesP_spec hG hI h
    exact ⟨hInv, hmono, heof⟩
  | untilP _ P a _ hG h =>
    obtain ⟨hInv, -, heof, hmono, -⟩ := untilP_spec hG hI h
    exact ⟨hInv, hmono, heof⟩
  | pull _ _ h =>
    obtain ⟨hInv, hcons, -, -, heof⟩ := Inv_of_pull hI h
    exact ⟨hInv, le_of_eq hcons.symm, heof⟩
  | pullMore _ _ h =>
    obtain ⟨hInv, hoff, htot, -, heof⟩ := Inv_of_pullMore hI h
    refine ⟨hInv, ?_, heof⟩
    simp only [consumed]
    omega
  | pullAtLeast _ n b _ h =>
    obtain ⟨hInv, hoff, htot, -, heof⟩ := Inv_of_pullAtLeast hI h
    refine ⟨hInv, ?_, heof⟩
    simp only [consumed]
    omega

end Utf8Reader

theorem init_inv {s₀ : Utf8Reader} (h : InitOk s₀) : Utf8Reader.Inv s₀ := by
  rcases h with ⟨bs, hbs, rfl⟩ | ⟨chunks, hch, rfl⟩
  · exact ⟨Nat.zero_le _, hbs, rfl⟩
  · exact ⟨⟨Nat.zero_le _, Nat.zero_le _, Nat.zero_le _,
      by show 0 < INIT_CAP; decide, hch,
      fun he => nomatch he⟩, utf8Check_nil, trivial⟩

theorem reach_inv {s₀ s : Utf8Reader} (h0 : InitOk s₀)
    (hR : Utf8Reader.Reach s₀ s) : Utf8Reader.Inv s := by
  induction hR with
  | refl => exact init_inv h0
  | tail hR' hstep ih => exact (Utf8Reader.step_facts ih hstep).1

/-- **Claim C1.**  From any well-formed construction, along any sequence
of public operations, the cursor `off_consumed` stays on a UTF-8
character boundary of the validated region, stays in bounds, and
`content()` is always valid UTF-8. -/
theorem claim_C1 {s₀ s : Utf8Reader} (h0 : InitOk s₀)
    (hR : Utf8Reader.Reach s₀ s) :
    isCharBoundary s.validRegion s.off_consumed = true ∧
    s.off_consumed ≤ s.validRegion.length ∧
    utf8Check s.content = .complete := by
  have hI := reach_inv h0 hR
  have hle : s.off_consumed ≤ s.validRegion.length :=
    Utf8Reader.off_consumed_le_validRegion_length hI.1
  have hcc : utf8Check (s.validRegion.drop s.off_consumed) = .complete := by
    rw [← Utf8Reader.content_eq_validRegion_drop]
    exact hI.2.1
  exact ⟨isCharBoundary_of_drop hle hcc, hle, hI.2.1⟩

/-- Witness for C1: the freshly constructed reader over `"a"` after zero
operations. -/
theorem claim_C1_witness :
    InitOk (fromStr [97]) ∧
    (isCharBoundary (fromStr [97]).validRegion
        (fromStr [97]).off_consumed = true ∧
      (fromStr [97]).off_consumed ≤ (fromStr [97]).validRegion.length ∧
      utf8Check (fromStr [97]).content = .complete) := by
  have h0 : InitOk (fromStr [97]) := Or.inl ⟨[97], by decide, rfl⟩
  exact ⟨h0, claim_C1 h0 Relation.ReflTransGen.refl⟩

/-- **Claim C2.**  A rejected `take_times` restores `consumed()` and
carries exactly the text that was scanned: the rejected value equals
the greedy predicate-and-range scan (`scanSpan`) of the restored
content, and is in particular a valid-UTF-8 prefix of that content; a
rejected `until` restores `consumed()` and returns exactly the
remaining validated content it scanned over. -/
theorem claim_C2 {δ : Type} (P : PatFns δ) (hG : Utf8Reader.GoodPatF P)
    (p : Nat → Bool) (rng : URange) (s : Utf8Reader)
    (hI : Utf8Reader.Inv s) :
    (∀ txt ch s', s.takeTimes p rng = .ok ((.error txt, ch), s') →
      s'.consumed = s.consumed ∧ txt = scanSpan p rng s'.content ∧
      txt <+: s'.content ∧ utf8Check txt = .complete) ∧
    (∀ txt s', s.untilP P = .ok (.error txt, s') →
      s'.consumed = s.consumed ∧ txt = s'.content) := by
  constructor
  · intro txt ch s' h
    obtain ⟨-, -, -, -, herr⟩ := Utf8Reader.takeTimes_spec hI h
    exact herr txt rfl
  · intro txt s' h
    obtain ⟨-, -, -, -, herr⟩ := Utf8Reader.untilP_spec hG hI h
    exact herr txt rfl

/-- **Claim C3.**  `consumed()` never decreases across any public
operation, is exactly preserved by `pull` (compaction moves bytes from
`off_consumed` into `tot_consumed`), and increases by exactly the bytes
committed: `n` for `consume(n)`, the character length for `next`, the
returned span's length for `take_while` and an accepted `take_times`,
and nothing for a rejected `take_times`. -/
theorem claim_C3 :
    (∀ s s' : Utf8Reader, Utf8Reader.Inv s → Utf8Reader.Step s s' →
      s.consumed ≤ s'.consumed) ∧
    (∀ s s' : Utf8Reader, Utf8Reader.BInv s → s.pull = .ok s' →
      s'.consumed = s.consumed) ∧
    (∀ (n : Nat) (s s' : Utf8Reader), Utf8Reader.Inv s →
      s.consume n = some s' → s'.consumed = s.consumed + n) ∧
    (∀ (s s' : Utf8Reader) (cp len : Nat), Utf8Reader.Inv s →
      s.next = .ok (some (cp, len), s') →
      s'.consumed = s.consumed + len) ∧
    (∀ (p : Nat → Bool) (s : Utf8Reader) (txt : List Nat)
      (ch : Option (Nat × Nat)) (s' : Utf8Reader), Utf8Reader.Inv s →
      s.takeWhile p = .ok ((txt, ch), s') →
      s'.consumed = s.consumed + txt.length) ∧
    (∀ (p : Nat → Bool) (rng : URange) (s : Utf8Reader) (txt : List Nat)
      (ch : Option (Nat × Nat)) (s' : Utf8Reader), Utf8Reader.Inv s →
      s.takeTimes p rng = .ok ((.ok txt, ch), s') →
      s'.consumed = s.consumed + txt.length) ∧
    (∀ (p : Nat → Bool) (rng : URange) (s : Utf8Reader) (txt : List Nat)
      (ch : Option (Nat × Nat)) (s' : Utf8Reader), Utf8Reader.Inv s →
      s.takeTimes p rng = .ok ((.error txt, ch), s') →
      s'.consumed = s.consumed) := by
  refine ⟨?_, ?_, ?_, ?_, ?_, ?_, ?_⟩
  · intro s s' hI hS
    exact (Utf8Reader.step_facts hI hS).2.1
  · intro s s' hB h
    exact (Utf8Reader.pull_spec hB h).2.1
  · intro n s s' hI h
    exact (Utf8Reader.consume_spec hI h).2.1
  · intro s s' cp len hI h
    exact (Utf8Reader.next_spec hI h).2.2.2.2.1 cp len rfl
  · intro p s txt ch s' hI h
    exact (Utf8Reader.takeWhile_spec hI h).2.2.2.1
  · intro p rng s txt ch s' hI h
    exact ((Utf8Reader.takeTimes_spec hI h).2.2.2.1 txt rfl).2.2
  · intro p rng s txt ch s' hI h
    exact ((Utf8Reader.takeTimes_spec hI h).2.2.2.2 txt rfl).1

/-- Witness for C3 at the `consume` clause: consuming one byte of
`"a"`. -/
theorem claim_C3_witness :
    ({ src := Src.borrowed [97], off_consumed := 0 + 1, tot_consumed := 0,
        peeked := none, eof := true } : Utf8Reader).consumed
      = (fromStr [97]).consumed + 1 :=
  claim_C3.2.2.1 1 (fromStr [97]) _
    (init_inv (Or.inl ⟨[97], by decide, rfl⟩)) rfl

/-- **Claim C9.**  Once the reader reaches a state with `eof` set, every
further sequence of operations keeps `eof` set (with the model's source
contract: a chunk list that never contains an empty chunk, so a
zero-byte read means the source is exhausted for good). -/
theorem claim_C9 {s₀ s s' : Utf8Reader} (h0 : InitOk s₀)
    (h1 : Utf8Reader.Reach s₀ s) (he : s.eof = true)
    (h2 : Utf8Reader.Reach s s') : s'.eof = true := by
  induction h2 with
  | refl => exact he
  | tail h2' hstep ih =>
    exact (Utf8Reader.step_facts
      (reach_inv h0 (Relation.ReflTransGen.trans h1 h2')) hstep).2.2 ih

/-- Witness for C9: a freshly constructed borrowed reader is at EOF and
stays there. -/
theorem claim_C9_witness : (fromStr [97]).eof = true :=
  claim_C9 (Or.inl ⟨[97], by decide, rfl⟩) Relation.ReflTransGen.refl rfl
    Relation.ReflTransGen.refl

/-- **Claim C10.**  `matches("")` always returns `Ok(None)` and consumes
nothing, because `indicate` of the empty string is `None` for every
byte — even though the empty string is a prefix of any content and its
`Pattern::matches` succeeds with length `0`. -/
theorem claim_C10 {s : Utf8Reader} (hB : Utf8Reader.BInv s)
    {a : Option (List Nat)} {s' : Utf8Reader}
    (h : s.matchesP (strPat []) = .ok (a, s')) :
    a = none ∧ s'.consumed = s.consumed ∧
    (∀ c, strMatches [] c = some (0, [])) ∧
    (∀ b, strIndicate [] b = none) := by
  rw [Utf8Reader.matchesP] at h
  cases hp : s.pull with
  | error e => rw [hp] at h; exact absurd h (by simp)
  | ok s1 =>
    rw [hp] at h
    simp only [] at h
    have hcons1 : s1.consumed = s.consumed := (Utf8Reader.pull_spec hB hp).2.1
    have hrest : (∀ c, strMatches [] c = some (0, [])) ∧
        (∀ b, strIndicate [] b = none) :=
      ⟨fun c => by cases c <;> rfl, fun b => rfl⟩
    cases hhd : s1.content.head? with
    | none =>
      rw [hhd] at h
      simp only [Except.ok.injEq, Prod.mk.injEq] at h
      obtain ⟨ha, hs⟩ := h
      subst hs
      exact ⟨ha.symm, hcons1, hrest.1, hrest.2⟩
    | some b =>
      rw [hhd] at h
      simp only [strPat, strIndicate, List.head?, Option.none_bind] at h
      simp only [Except.ok.injEq, Prod.mk.injEq] at h
      obtain ⟨ha, hs⟩ := h
      subst hs
      exact ⟨ha.symm, hcons1, hrest.1, hrest.2⟩

/-- Witness for C10 on the reader over `"a"`. -/
theorem claim_C10_witness :
    (none : Option (List Nat)) = none ∧
    (fromStr [97]).consumed = (fromStr [97]).consumed :=
  let r := @claim_C10 (fromStr [97])
    (init_inv (Or.inl ⟨[97], by decide, rfl⟩)).1 none (fromStr [97]) rfl
  ⟨r.1, r.2.1⟩

/-- **Counterexample to C4 as stated.**  `next()` does not clear the
pending-peek field: a reachable state with a stale pending peek (left
by a `take_while` whose final peeked character was rejected) keeps it
across a successful `next()`. -/
theorem claim_C4_counterexample :
    ¬ (∀ (s₀ s s' : Utf8Reader) (a : Option (Nat × Nat)),
        InitOk s₀ → Utf8Reader.Reach s₀ s → s.next = .ok (a, s') →
        a ≠ none → s'.peeked = none) := by
  intro hcl
  have h0 : InitOk (fromStr [97, 98]) := Or.inl ⟨[97, 98], by decide, rfl⟩
  have hstep : Utf8Reader.Step (fromStr [97, 98])
      { src := Src.borrowed [97, 98], off_consumed := 0, tot_consumed := 0,
        peeked := some 1, eof := true } :=
    Utf8Reader.Step.takeWhile _ (fun _ => false) ([], some (97, 1)) _ rfl
  have hnext : Utf8Reader.next
      { src := Src.borrowed [97, 98], off_consumed := 0, tot_consumed := 0,
        peeked := some 1, eof := true }
      = .ok (some (97, 1),
        { src := Src.borrowed [97, 98], off_consumed := 0 + 1,
          tot_consumed := 0, peeked := some 1, eof := true }) := rfl
  have := hcl _ _ _ _ h0 (Relation.ReflTransGen.single hstep) hnext
    (by simp)
  simp at this

/-- **Claim C4, amended.**  `consume(n)` and a successful `next()` leave
the pending-peek field unchanged (it is cleared only when a
peeking-style call commits it); `take_while` and `take_times` clear the
pending peek at the start, so their result depends only on the state
with the peek cleared; `until` also leaves the field unchanged. -/
theorem claim_C4 :
    (∀ (n : Nat) (s s' : Utf8Reader), s.consume n = some s' →
      s'.peeked = s.peeked) ∧
    (∀ (s : Utf8Reader) (a : Option (Nat × Nat)) (s' : Utf8Reader),
      Utf8Reader.BInv s → s.next = .ok (a, s') → s'.peeked = s.peeked) ∧
    (∀ (p : Nat → Bool) (s : Utf8Reader),
      s.takeWhile p = Utf8Reader.takeWhile p { s with peeked := none }) ∧
    (∀ (p : Nat → Bool) (rng : URange) (s : Utf8Reader),
      s.takeTimes p rng
        = Utf8Reader.takeTimes p rng { s with peeked := none }) ∧
    (∀ {δ : Type} (P : PatFns δ) (s : Utf8Reader)
      (r : Except (List Nat) (List Nat × δ)) (s' : Utf8Reader),
      Utf8Reader.GoodPatF P → Utf8Reader.Inv s →
      s.untilP P = .ok (r, s') → s'.peeked = s.peeked) := by
  refine ⟨?_, ?_, fun p s => rfl, fun p rng s => rfl, ?_⟩
  · intro n s s' h
    rw [Utf8Reader.consume] at h
    split_ifs at h with hbd
    have hs : s' = { s with off_consumed := s.off_consumed + n } :=
      (Option.some.inj h).symm
    subst hs
    rfl
  · intro s a s' hB h
    rw [Utf8Reader.next] at h
    cases hp : s.pull with
    | error e => rw [hp] at h; exact absurd h (by simp)
    | ok s1 =>
      rw [hp] at h
      simp only [] at h
      have hpk1 : s1.peeked = s.peeked := (Utf8Reader.pull_spec hB hp).2.2.1
      cases hd : decodeChar s1.content with
      | none =>
        rw [hd] at h
        simp only [Except.ok.injEq, Prod.mk.injEq] at h
        obtain ⟨-, hs⟩ := h
        subst hs
        exact hpk1
      | some p =>
        obtain ⟨cp, len⟩ := p
        rw [hd] at h
        simp only [Except.ok.injEq, Prod.mk.injEq] at h
        obtain ⟨-, hs⟩ := h
        subst hs
        exact hpk1
  · intro δ P s r s' hG hI h
    exact (Utf8Reader.untilP_spec hG hI h).2.1

/-- Witness for the amended C4 at the `consume` clause. -/
theorem claim_C4_witness :
    ({ src := Src.borrowed [97], off_consumed := 0 + 0, tot_consumed := 0,
        peeked := none, eof := true } : Utf8Reader).peeked
      = (fromStr [97]).peeked :=
  claim_C4.1 0 (fromStr [97]) _ rfl

/-- Witness for C2, both clauses: a `take_times` over `"a"` whose
predicate rejects everything fails `exactly 1` and carries the empty
scanned span, and a `until` with a pattern that never indicates nor
matches rejects at EOF with the whole content as the scanned text. -/
theorem claim_C2_witness :
    (({ src := Src.borrowed [97], off_consumed := 0, tot_consumed := 0,
          peeked := some 1, eof := true } : Utf8Reader).consumed
        = (fromStr [97]).consumed ∧
      ([] : List Nat) = scanSpan (fun _ => false) (URange.exactly 1)
        ({ src := Src.borrowed [97], off_consumed := 0, tot_consumed := 0,
            peeked := some 1, eof := true } : Utf8Reader).content ∧
      ([] : List Nat) <+:
        ({ src := Src.borrowed [97], off_consumed := 0, tot_consumed := 0,
            peeked := some 1, eof := true } : Utf8Reader).content ∧
      utf8Check ([] : List Nat) = .complete) ∧
    ((fromStr [97]).consumed = (fromStr [97]).consumed ∧
      [97] = (fromStr [97]).content) :=
  ⟨(claim_C2 (PatFns.mk (fun _ => none) (fun _ => none) : PatFns Nat)
      (Utf8Reader.GoodPatF.mk (fun b len h => nomatch h)
        (fun c len d hc h => nomatch h))
      (fun _ => false) (URange.exactly 1) (fromStr [97])
      (init_inv (Or.inl ⟨[97], by decide, rfl⟩))).1 [] (some (97, 1))
      _ rfl,
    (claim_C2 (PatFns.mk (fun _ => none) (fun _ => none) : PatFns Nat)
      (Utf8Reader.GoodPatF.mk (fun b len h => nomatch h)
        (fun c len d hc h => nomatch h))
      (fun _ => false) URange.full (fromStr [97])
      (init_inv (Or.inl ⟨[97], by decide, rfl⟩))).2 [97]
      (fromStr [97]) rfl⟩

namespace Utf8Reader

/-! Exit analysis of `pull`, for peek idempotence: a successful pull
lands in a state that a second pull cannot change observably when the
content came out empty. -/

theorem fetchStep_false_exit {s : Utf8Reader} (hB : BInv s)
    {s' : Utf8Reader} (h : s.fetchStep = .ok (false, s')) :
    (∃ bs, s'.src = .borrowed bs) ∨ s'.eof = true ∨ s'.content ≠ [] := by
  obtain ⟨src, offc, totc, pk, eof⟩ := s
  cases src with
  | borrowed bs =>
    simp only [fetchStep, Except.ok.injEq, Prod.mk.injEq] at h
    obtain ⟨-, hs⟩ := h
    subst hs
    exact Or.inl ⟨bs, rfl⟩
  | reader r =>
    obtain ⟨rdr, buf, cap, totr, offv⟩ := r
    simp only [BInv] at hB
    obtain ⟨hov, hvb, hbc, hcp, hnn, heof⟩ := hB
    simp only [fetchStep] at h
    split_ifs at h with hempty hval
    · simp only [Except.ok.injEq, Prod.mk.injEq] at h
      obtain ⟨-, hs⟩ := h
      subst hs
      exact Or.inr (Or.inl rfl)
    · cases hchk : utf8Check ((buf ++ readDeliver rdr (cap - buf.length)).drop
          offv) with
      | invalid => rw [hchk] at h; exact absurd h (by simp)
      | incomplete => rw [hchk] at h; simp at h
      | complete =>
        rw [hchk] at h
        simp only [Except.ok.injEq, Prod.mk.injEq] at h
        obtain ⟨-, hs⟩ := h
        subst hs
        refine Or.inr (Or.inr ?_)
        intro hx
        have hlen := congrArg List.length hx
        simp only [content, List.length_drop, List.length_take,
          List.length_append, List.length_nil] at hlen
        have hc0 : ¬ (readDeliver rdr (cap - buf.length)).length = 0 := by
          intro h0
          rw [List.length_eq_zero.mp h0] at hempty
          simp at hempty
        omega

theorem pullF_exit_capped (fuel : Nat) :
    ∀ {s s' : Utf8Reader}, BInv s →
      (∀ r, s.src = .reader r → r.buf_cap = INIT_CAP) →
      pullF fuel s = .ok s' →
      (∃ bs, s'.src = .borrowed bs) ∨ s'.eof = true ∨ s'.content ≠ [] ∨
      (s'.off_consumed = 0 ∧
        ∃ r, s'.src = .reader r ∧ INIT_CAP ≤ r.buf.length) := by
  have hIC : INIT_CAP = 32768 := rfl
  have hTH : THRES_ARRANGE = 8192 := rfl
  induction fuel with
  | zero => intro s s' hB hcap h; simp [pullF] at h
  | succ fuel ih =>
    intro s s' hB hcap h
    obtain ⟨src, offc, totc, pk, eof⟩ := s
    cases src with
    | borrowed bs =>
      simp only [pullF, Except.ok.injEq] at h
      subst h
      exact Or.inl ⟨bs, rfl⟩
    | reader r =>
      obtain ⟨rdr, buf, cap, totr, offv⟩ := r
      have hcap' : cap = INIT_CAP := hcap _ rfl
      subst hcap'
      have hB0 := hB
      simp only [BInv] at hB0
      obtain ⟨hov, hvb, hbc, hcp, hnn, heof⟩ := hB0
      simp only [pullF, off_read] at h
      split_ifs at h with hbig hcomp hret hret2
      · exfalso
        omega
      · simp only [Except.ok.injEq] at h
        subst h
        refine Or.inr (Or.inr (Or.inr ⟨rfl, _, rfl, ?_⟩))
        simp only [List.length_drop] at hret ⊢
        omega
      · set s1 : Utf8Reader :=
          { src := Src.reader
              { rdr := rdr, buf := buf.drop offc, buf_cap := INIT_CAP,
                tot_read := totr, off_valid := offv - offc },
            off_consumed := 0, tot_consumed := totc + offc, peeked := pk,
            eof := eof } with hs1
        simp only [hs1, off_read, List.length_drop] at hret
        have hB1 : BInv s1 := by
          refine ⟨Nat.zero_le _, ?_, ?_, show 0 < INIT_CAP by omega, hnn, ?_⟩
          · show offv - offc ≤ (buf.drop offc).length
            simp only [List.length_drop]
            omega
          · show (buf.drop offc).length ≤ INIT_CAP
            simp only [List.length_drop]
            omega
          · intro he
            obtain ⟨h1e, h2e⟩ := heof he
            refine ⟨h1e, ?_⟩
            show offv - offc = (buf.drop offc).length
            simp only [List.length_drop]
            omega
        cases hfs : s1.fetchStep with
        | error e => rw [hfs] at h; exact absurd h (by simp)
        | ok pr =>
          obtain ⟨rr, s2⟩ := pr
          rw [hfs] at h
          cases rr with
          | false =>
            simp only [Except.ok.injEq] at h
            subst h
            exact Or.imp_right (Or.imp_right Or.inl)
              (fetchStep_false_exit hB1 hfs)
          | true =>
            simp only [] at h
            have hsp1 : ∀ r2, s1.src = .reader r2 →
                r2.buf.length < r2.buf_cap := by
              intro r2 hr2
              simp only [hs1, Src.reader.injEq] at hr2
              subst hr2
              show (buf.drop offc).length < INIT_CAP
              simp only [List.length_drop]
              omega
            obtain ⟨hB2, -, -, -, -, -, -, -, -, hrd2⟩ :=
              fetchStep_spec hB1 hsp1 hfs
            obtain ⟨r2, hr2, hcap2, -⟩ := hrd2 _ rfl
            refine ih hB2 ?_ h
            intro r3 hr3
            rw [hr2] at hr3
            have : r2 = r3 := Src.reader.inj hr3
            rw [← this, hcap2]
      · simp only [off_read] at hret2
        exfalso
        omega
      · set s1 : Utf8Reader :=
          { src := Src.reader
              { rdr := rdr, buf := buf, buf_cap := INIT_CAP,
                tot_read := totr, off_valid := offv },
            off_consumed := offc, tot_consumed := totc, peeked := pk,
            eof := eof } with hs1
        simp only [hs1, off_read] at hret2
        have hB1 : BInv s1 := by
          refine ⟨hov, hvb, ?_, show 0 < INIT_CAP by omega, hnn, heof⟩
          show buf.length ≤ INIT_CAP
          omega
        cases hfs : s1.fetchStep with
        | error e => rw [hfs] at h; exact absurd h (by simp)
        | ok pr =>
          obtain ⟨rr, s2⟩ := pr
          rw [hfs] at h
          cases rr with
          | false =>
            simp only [Except.ok.injEq] at h
            subst h
            exact Or.imp_right (Or.imp_right Or.inl)
              (fetchStep_false_exit hB1 hfs)
          | true =>
            simp only [] at h
            have hsp1 : ∀ r2, s1.src = .reader r2 →
                r2.buf.length < r2.buf_cap := by
              intro r2 hr2
              simp only [hs1, Src.reader.injEq] at hr2
              subst hr2
              show buf.length < INIT_CAP
              omega
            obtain ⟨hB2, -, -, -, -, -, -, -, -, hrd2⟩ :=
              fetchStep_spec hB1 hsp1 hfs
            obtain ⟨r2, hr2, hcap2, -⟩ := hrd2 _ rfl
            refine ih hB2 ?_ h
            intro r3 hr3
            rw [hr2] at hr3
            have : r2 = r3 := Src.reader.inj hr3
            rw [← this, hcap2]

theorem pull_exit {s s' : Utf8Reader} (hB : BInv s) (h : s.pull = .ok s') :
    s' = s ∨ ((∃ bs, s'.src = .borrowed bs) ∨ s'.eof = true ∨
      s'.content ≠ [] ∨ (s'.off_consumed = 0 ∧
        ∃ r, s'.src = .reader r ∧ INIT_CAP ≤ r.buf.length)) := by
  have hIC : INIT_CAP = 32768 := rfl
  have hTH : THRES_ARRANGE = 8192 := rfl
  rw [pull] at h
  obtain ⟨src, offc, totc, pk, eof⟩ := s
  cases src with
  | borrowed bs =>
    simp only [pullF, Except.ok.injEq] at h
    subst h
    exact Or.inl rfl
  | reader r =>
    obtain ⟨rdr, buf, cap, totr, offv⟩ := r
    have hB0 := hB
    simp only [BInv] at hB0
    obtain ⟨hov, hvb, hbc, hcp, hnn, heof⟩ := hB0
    simp only [pullF, off_read] at h
    split_ifs at h with hbig hcomp hret hret2
    · simp only [Except.ok.injEq] at h
      subst h
      exact Or.inl rfl
    · simp only [Except.ok.injEq] at h
      subst h
      refine Or.inr (Or.inr (Or.inr (Or.inr ⟨rfl, _, rfl, ?_⟩)))
      simp only [List.length_drop] at hret ⊢
      omega
    · set s1 : Utf8Reader :=
        { src := Src.reader
            { rdr := rdr, buf := buf.drop offc, buf_cap := INIT_CAP,
              tot_read := totr, off_valid := offv - offc },
          off_consumed := 0, tot_consumed := totc + offc, peeked := pk,
          eof := eof } with hs1
      simp only [hs1, off_read, List.length_drop] at hret
      have hB1 : BInv s1 := by
        refine ⟨Nat.zero_le _, ?_, ?_, show 0 < INIT_CAP by omega, hnn, ?_⟩
        · show offv - offc ≤ (buf.drop offc).length
          simp only [List.length_drop]
          omega
        · show (buf.drop offc).length ≤ INIT_CAP
          simp only [List.length_drop]
          omega
        · intro he
          obtain ⟨h1e, h2e⟩ := heof he
          refine ⟨h1e, ?_⟩
          show offv - offc = (buf.drop offc).length
          simp only [List.length_drop]
          omega
      have hcap1 : ∀ r2, s1.src = .reader r2 → r2.buf_cap = INIT_CAP := by
        intro r2 hr2
        simp only [hs1, Src.reader.injEq] at hr2
        subst hr2
        rfl
      cases hfs : s1.fetchStep with
      | error e => rw [hfs] at h; exact absurd h (by simp)
      | ok pr =>
        obtain ⟨rr, s2⟩ := pr
        rw [hfs] at h
        cases rr with
        | false =>
          simp only [Except.ok.injEq] at h
          subst h
          exact Or.inr (Or.imp_right (Or.imp_right Or.inl)
            (fetchStep_false_exit hB1 hfs))
        | true =>
          simp only [] at h
          have hsp1 : ∀ r2, s1.src = .reader r2 →
              r2.buf.length < r2.buf_cap := by
            intro r2 hr2
            simp only [hs1, Src.reader.injEq] at hr2
            subst hr2
            show (buf.drop offc).length < INIT_CAP
            simp only [List.length_drop]
            omega
          obtain ⟨hB2, -, -, -, -, -, -, -, -, hrd2⟩ :=
            fetchStep_spec hB1 hsp1 hfs
          obtain ⟨r2, hr2, hcap2, -⟩ := hrd2 _ rfl
          refine Or.inr (pullF_exit_capped _ hB2 ?_ h)
          intro r3 hr3
          rw [hr2] at hr3
          have : r2 = r3 := Src.reader.inj hr3
          rw [← this, hcap2]
    · simp only [off_read] at hret2
      exfalso
      omega
    · set s1 : Utf8Reader :=
        { src := Src.reader
            { rdr := rdr, buf := buf, buf_cap := INIT_CAP,
              tot_read := totr, off_valid := offv },
          off_consumed := offc, tot_consumed := totc, peeked := pk,
          eof := eof } with hs1
      simp only [hs1, off_read] at hret2
      have hB1 : BInv s1 := by
        refine ⟨hov, hvb, ?_, show 0 < INIT_CAP by omega, hnn, heof⟩
        show buf.length ≤ INIT_CAP
        omega
      cases hfs : s1.fetchStep with
      | error e => rw [hfs] at h; exact absurd h (by simp)
      | ok pr =>
        obtain ⟨rr, s2⟩ := pr
        rw [hfs] at h
        cases rr with
        | false =>
          simp only [Except.ok.injEq] at h
          subst h
          exact Or.inr (Or.imp_right (Or.imp_right Or.inl)
            (fetchStep_false_exit hB1 hfs))
        | true =>
          simp only [] at h
          have hsp1 : ∀ r2, s1.src = .reader r2 →
              r2.buf.length < r2.buf_cap := by
            intro r2 hr2
            simp only [hs1, Src.reader.injEq] at hr2
            subst hr2
            show buf.length < INIT_CAP
            omega
          obtain ⟨hB2, -, -, -, -, -, -, -, -, hrd2⟩ :=
            fetchStep_spec hB1 hsp1 hfs
          obtain ⟨r2, hr2, hcap2, -⟩ := hrd2 _ rfl
          refine Or.inr (pullF_exit_capped _ hB2 ?_ h)
          intro r3 hr3
          rw [hr2] at hr3
          have : r2 = r3 := Src.reader.inj hr3
          rw [← this, hcap2]

/-- A pull that produced empty content is stable: pulling again still
leaves the content empty. -/
theorem pull_empty_stable {s s1 s2 : Utf8Reader} (hB : BInv s)
    (h1 : s.pull = .ok s1) (hc : s1.content = [])
    (h2 : s1.pull = .ok s2) : s2.content = [] := by
  have hIC : INIT_CAP = 32768 := rfl
  have hTH : THRES_ARRANGE = 8192 := rfl
  have hB1 : BInv s1 := (pull_spec hB h1).1
  rcases pull_exit hB h1 with rfl | hE | hE | hE | hE
  · rw [h1] at h2
    simp only [Except.ok.injEq] at h2
    subst h2
    exact hc
  · obtain ⟨bs, hbs⟩ := hE
    obtain ⟨-, -, -, -, -, -, hbor, -⟩ := pull_spec hB1 h2
    rw [hbor bs hbs]
    exact hc
  · obtain ⟨-, -, -, -, -, heofc, -, -⟩ := pull_spec hB1 h2
    rw [(heofc hE).2]
    exact hc
  · exact absurd hc hE
  · obtain ⟨hoc0, r1, hr1, hbl⟩ := hE
    rw [pull, pullF, hr1, hoc0] at h2
    simp only [off_read] at h2
    have hB1' := hB1
    rw [BInv, hr1] at hB1'
    obtain ⟨hov1, hvb1, hbc1, -, -, -⟩ := hB1'
    rw [hoc0] at hov1
    split_ifs at h2 with hbig hcomp hret
    · simp only [Except.ok.injEq] at h2
      subst h2
      exact hc
    · simp only [Except.ok.injEq] at h2
      subst h2
      simp only [content, hr1, hoc0] at hc
      simp only [content]
      rw [List.drop_zero] at hc ⊢
      rw [Nat.sub_zero, List.drop_zero]
      exact hc
    · exfalso
      simp only [List.length_drop, Nat.sub_zero] at hret
      omega
    · exfalso
      omega

end Utf8Reader

/-- **Claim C5.**  `peek()` is idempotent: with no committing call in
between, a second `peek()` returns the same result (same character or
still `None`), and neither call moves `consumed()` — even when the
pulls inside compact the buffer. -/
theorem claim_C5 {s : Utf8Reader} (hI : Utf8Reader.Inv s)
    {a a' : Option (Nat × Nat)} {s1 s2 : Utf8Reader}
    (h1 : s.peek = .ok (a, s1)) (h2 : s1.peek = .ok (a', s2)) :
    a' = a ∧ Utf8Reader.Inv s1 ∧ s1.consumed = s.consumed ∧
    s2.consumed = s.consumed := by
  rw [Utf8Reader.peek] at h1 h2
  cases hp1 : s.pull with
  | error e => rw [hp1] at h1; exact absurd h1 (by simp)
  | ok t1 =>
    rw [hp1] at h1
    simp only [Except.ok.injEq, Prod.mk.injEq] at h1
    obtain ⟨ha1, hs1⟩ := h1
    subst hs1
    obtain ⟨hI1, hcons1, -, -, -⟩ := Utf8Reader.Inv_of_pull hI hp1
    cases hp2 : t1.pull with
    | error e => rw [hp2] at h2; exact absurd h2 (by simp)
    | ok t2 =>
      rw [hp2] at h2
      simp only [Except.ok.injEq, Prod.mk.injEq] at h2
      obtain ⟨ha2, hs2⟩ := h2
      subst hs2
      obtain ⟨hI2, hcons2, -, ⟨w2, hw2, hct2⟩, -⟩ :=
        Utf8Reader.Inv_of_pull hI1 hp2
      refine ⟨?_, hI1, hcons1, hcons2.trans hcons1⟩
      rw [← ha1, ← ha2]
      cases hd : decodeChar t1.content with
      | some p =>
        obtain ⟨cp, len⟩ := p
        rw [hct2]
        exact (decodeChar_spec hd).2.2.2.2.1 w2
      | none =>
        have hemp : t1.content = [] :=
          (Utf8Reader.decodeChar_none_iff hI1.2.1).mp hd
        have hemp2 : t2.content = [] :=
          Utf8Reader.pull_empty_stable hI.1 hp1 hemp hp2
        rw [hemp2]
        rfl

/-- Witness for C5: two peeks on the reader over `"a"`. -/
theorem claim_C5_witness :
    (some (97, 1) : Option (Nat × Nat)) = some (97, 1) ∧
    Utf8Reader.Inv (fromStr [97]) ∧
    (fromStr [97]).consumed = (fromStr [97]).consumed ∧
    (fromStr [97]).consumed = (fromStr [97]).consumed :=
  claim_C5 (init_inv (Or.inl ⟨[97], by decide, rfl⟩)) rfl rfl

/-! ## The library patterns satisfy the reader's pattern contract

`GoodPatF` is exactly what `until`/`matches` need from a `Pattern`
impl; here every impl from `predicates.rs` is shown to provide it, so
the pattern-quantified claims cover the library's actual patterns. -/

theorem cont_false_iff {b : Nat} :
    cont b = false ↔ b < 0x80 ∨ 0xC0 ≤ b := by
  rw [Bool.eq_false_iff]
  rw [ne_eq, cont_iff]
  omega

theorem utf8FirstByte_not_cont (c : Nat) :
    cont (utf8FirstByte c) = false := by
  rw [utf8FirstByte, utf8Len]
  split_ifs with h1 h2 h3 <;>
    (simp only []; rw [cont_false_iff]; omega)

theorem utf8Encode_length (c : Nat) : (utf8Encode c).length = utf8Len c := by
  rw [utf8Encode, utf8Len]
  split_ifs <;> rfl

theorem utf8Encode_complete {c : Nat} (hc : isScalar c = true) :
    utf8Check (utf8Encode c) = .complete := by
  have hc' : c < 0xD800 ∨ (0xE000 ≤ c ∧ c < 0x110000) := by
    simpa [isScalar, Bool.or_eq_true, Bool.and_eq_true,
      decide_eq_true_eq] using hc
  rw [utf8Encode]
  split_ifs with h1 h2 h3
  · rw [utf8Check.eq_def]
    simp only []
    rw [if_pos h1]
    rfl
  · rw [utf8Check.eq_def]
    simp only []
    rw [if_neg (by omega), if_neg (by omega), if_pos (by omega)]
    rw [if_pos (by rw [cont_iff]; omega)]
    rfl
  · rw [utf8Check.eq_def]
    simp only []
    rw [if_neg (by omega), if_neg (by omega), if_neg (by omega),
      if_pos (by omega)]
    have hc3 : cont3 (0xE0 + c / 0x1000) (0x80 + c / 0x40 % 0x40)
        = true := by
      rw [cont3]
      split_ifs with hb1 hb2
      · simp only [Bool.and_eq_true, decide_eq_true_eq]
        omega
      · simp only [Bool.and_eq_true, decide_eq_true_eq]
        rcases hc' with hlt | ⟨hge, hlt2⟩
        · omega
        · omega
      · rw [cont_iff]
        omega
    rw [if_pos hc3]
    rw [if_pos (by rw [cont_iff]; omega)]
    rfl
  · rcases hc' with hlt | ⟨hge, hlt2⟩
    · omega
    rw [utf8Check.eq_def]
    simp only []
    rw [if_neg (by omega), if_neg (by omega), if_neg (by omega),
      if_neg (by omega), if_pos (by omega)]
    have hc4 : cont4 (0xF0 + c / 0x40000) (0x80 + c / 0x1000 % 0x40)
        = true := by
      rw [cont4]
      split_ifs with hb1 hb2
      · simp only [Bool.and_eq_true, decide_eq_true_eq]
        omega
      · simp only [Bool.and_eq_true, decide_eq_true_eq]
        omega
      · rw [cont_iff]
        omega
    rw [if_pos hc4]
    rw [if_pos (by rw [cont_iff]; omega)]
    rw [if_pos (by rw [cont_iff]; omega)]
    rfl

/-- The first byte of nonempty, fully valid UTF-8 text is never a
continuation byte. -/
theorem first_byte_not_cont {w : List Nat} (hw : utf8Check w = .complete)
    {b : Nat} (hhd : w.head? = some b) : cont b = false := by
  have hne : w ≠ [] := by
    intro h
    rw [h] at hhd
    cases hhd
  obtain ⟨c, n, hd⟩ := utf8Check_complete_decode hne hw
  obtain ⟨-, -, ⟨b0, t0, hw0, hcb0⟩, -, -, -, -, -⟩ := decodeChar_spec hd
  rw [hw0] at hhd
  have hbe : b0 = b := Option.some.inj hhd
  rw [← hbe]
  exact hcb0

/-- A complete-UTF-8 pattern word consumed off the front of complete
content leaves complete content: the common `matches` bound. -/
theorem mat_bound_of_prefix {w content : List Nat}
    (hw : utf8Check w = .complete) (hcc : utf8Check content = .complete)
    (hpre : w.isPrefixOf content = true) :
    w.length ≤ content.length ∧
    utf8Check (content.drop w.length) = .complete := by
  obtain ⟨rest, hcat⟩ := List.isPrefixOf_iff_prefix.mp hpre
  constructor
  · rw [← hcat, List.length_append]
    omega
  · have hdrop : content.drop w.length = rest := by
      rw [← hcat, List.drop_left]
    rw [hdrop]
    exact utf8Check_cancel _ _ hw (by rw [hcat]; exact hcc)

namespace Utf8Reader

theorem goodPat_charPat {c : Nat} (hc : isScalar c = true) :
    GoodPatF (charPat c) := by
  constructor
  · intro b len h
    simp only [charPat, charIndicate] at h
    split_ifs at h with hb
    rw [← hb]
    exact utf8FirstByte_not_cont c
  · intro content len d hcc h
    simp only [charPat, charMatches] at h
    split_ifs at h with hpre
    simp only [Option.some.injEq, Prod.mk.injEq] at h
    obtain ⟨hlen, -⟩ := h
    subst hlen
    rw [← utf8Encode_length]
    exact mat_bound_of_prefix (utf8Encode_complete hc) hcc hpre
  
theorem goodPat_strPat {w : List Nat} (hw : utf8Check w = .complete) :
    GoodPatF (strPat w) := by
  constructor
  · intro b len h
    simp only [strPat, strIndicate] at h
    cases hhd : w.head? with
    | none =>
      rw [hhd] at h
      simp only [Option.none_bind] at h
      cases h
    | some b0 =>
      rw [hhd] at h
      simp only [Option.some_bind] at h
      split_ifs at h with hb
      rw [← hb]
      exact first_byte_not_cont hw hhd
  · intro content len d hcc h
    simp only [strPat, strMatches] at h
    split_ifs at h with hpre
    simp only [Option.some.injEq, Prod.mk.injEq] at h
    obtain ⟨hlen, -⟩ := h
    subst hlen
    exact mat_bound_of_prefix hw hcc hpre

theorem goodPat_charsPat {cs : List Nat}
    (hcs : ∀ c ∈ cs, isScalar c = true) : GoodPatF (charsPat cs) := by
  constructor
  · intro b len h
    simp only [charsPat, charsIndicate] at h
    obtain ⟨hmem, -⟩ := maxOf?_eq_some.mp h
    obtain ⟨c0, hc0, hfc⟩ := List.mem_filterMap.mp hmem
    split_ifs at hfc with hb
    rw [← hb]
    exact utf8FirstByte_not_cont c0
  · intro content len d hcc h
    simp only [charsPat, charsMatches] at h
    cases hf : cs.find? fun c => (utf8Encode c).isPrefixOf content with
    | none => rw [hf] at h; cases h
    | some c0 =>
      rw [hf] at h
      simp only [Option.map_some', Option.some.injEq, Prod.mk.injEq] at h
      obtain ⟨hlen, -⟩ := h
      subst hlen
      rw [← utf8Encode_length]
      have hp0 := List.find?_some hf
      exact mat_bound_of_prefix
        (utf8Encode_complete (hcs c0 (List.mem_of_find?_eq_some hf))) hcc hp0

theorem goodPat_strsPat {ws : List (List Nat)}
    (hws : ∀ w ∈ ws, utf8Check w = .complete) : GoodPatF (strsPat ws) := by
  constructor
  · intro b len h
    simp only [strsPat, strsIndicate] at h
    obtain ⟨hmem, -⟩ := maxOf?_eq_some.mp h
    obtain ⟨w0, hw0, hfw⟩ := List.mem_filterMap.mp hmem
    cases hhd : w0.head? with
    | none =>
      rw [hhd] at hfw
      simp only [Option.none_bind] at hfw
      cases hfw
    | some b0 =>
      rw [hhd] at hfw
      simp only [Option.some_bind] at hfw
      split_ifs at hfw with hb
      rw [← hb]
      exact first_byte_not_cont (hws w0 hw0) hhd
  · intro content len d hcc h
    simp only [strsPat, strsMatches] at h
    cases hf : ws.find? fun w => w.isPrefixOf content with
    | none => rw [hf] at h; cases h
    | some w0 =>
      rw [hf] at h
      simp only [Option.map_some', Option.some.injEq, Prod.mk.injEq] at h
      obtain ⟨hlen, -⟩ := h
      subst hlen
      have hp0 := List.find?_some hf
      exact mat_bound_of_prefix (hws w0 (List.mem_of_find?_eq_some hf)) hcc
        hp0

theorem goodPat_tokensPat {ws : List (List Nat)}
    (hws : ∀ w ∈ ws, utf8Check w = .complete ∧ w ≠ []) :
    GoodPatF (tokensPat ws) := by
  constructor
  · intro b len h
    simp only [tokensPat, tokensIndicate] at h
    split_ifs at h with hm
    rcases (tokensFold_spec b ws 0).2.2 with h0 | ⟨w0, hw0, hhead, -⟩
    · exact absurd h0 hm
    · obtain ⟨hcomp, hne⟩ := hws w0 hw0
      cases w0 with
      | nil => exact absurd rfl hne
      | cons b0 t0 =>
        simp only [List.headD] at hhead
        subst hhead
        exact first_byte_not_cont hcomp (show (b0 :: t0).head? = some b0
          from rfl)
  · intro content len d hcc h
    simp only [tokensPat] at h
    rw [tokensMatches_eq] at h
    cases hf : ws.find? fun w => w.isPrefixOf content with
    | none => rw [hf] at h; cases h
    | some w0 =>
      rw [hf] at h
      simp only [Option.map_some', Option.some.injEq, Prod.mk.injEq] at h
      obtain ⟨hlen, -⟩ := h
      subst hlen
      have hp0 := List.find?_some hf
      exact mat_bound_of_prefix
        ((hws w0 (List.mem_of_find?_eq_some hf)).1) hcc hp0

end Utf8Reader

end Kalavor
